import Mathlib

/-!
Verification of the schema CLI (`src/cli.mjs`) of the obsidian-schema
repository: a shallow embedding of its property-block parser/serializer,
schema loader, matcher, autofix engine, relocation policy and
bidirectional-link reconciler, together with theorems settling the
specification's claims.

Strings are modelled as `List Char` (written `JStr`), mirroring
JavaScript's strings as sequences of code units; helper functions
re-implement exactly the JavaScript string primitives the program uses
(`trim`, `toLowerCase`, `split`, `slice`, regular-expression tests).
JavaScript numbers are modelled by their canonical decimal string
(the value of `String(Number(s))` for the decimal literals the program's
scalar grammar admits); IEEE-754 rounding and exponential formatting at
extreme magnitudes are idealized as exact decimals.
-/

/-- JavaScript strings, as lists of characters. -/
abbrev JStr := List Char

/-- A Lean string literal as a `JStr`. -/
def lit (s : String) : JStr := s.data

/-- The double-quote character. -/
def qc : Char := Char.ofNat 34

/-- The single-quote character. -/
def apc : Char := Char.ofNat 39

/-- The backslash character. -/
def bsc : Char := Char.ofNat 92

/-- The opening curly-brace character. -/
def lbc : Char := Char.ofNat 123

/-- The closing curly-brace character. -/
def rbc : Char := Char.ofNat 125

/-- JavaScript whitespace as used by `trim` and `\s` (ASCII part; Unicode
space characters do not occur in the program's inputs of interest). -/
def jsWs (c : Char) : Bool :=
  c = ' ' || c = '\t' || c = '\n' || c = '\r' || c = Char.ofNat 11 || c = Char.ofNat 12

/-- JavaScript `String.prototype.trim`. -/
def jsTrim (s : JStr) : JStr :=
  ((s.dropWhile jsWs).reverse.dropWhile jsWs).reverse

/-- `a.startsWith b` on JavaScript strings. -/
def startsWithL : JStr → JStr → Bool
  | _, [] => true
  | [], _ :: _ => false
  | c :: cs, d :: ds => c = d && startsWithL cs ds

/-- `a.endsWith b` on JavaScript strings. -/
def endsWithL (s pre : JStr) : Bool :=
  startsWithL s.reverse pre.reverse

/-- JavaScript `toLowerCase` (ASCII). -/
def toLowerL (s : JStr) : JStr := s.map Char.toLower

/-- The test `/^\d+$/`. -/
def allDigits (s : JStr) : Bool :=
  !s.isEmpty && s.all Char.isDigit

/-- The test `/^-?\d+(\.\d+)?$/` of `parseScalar`'s number branch. -/
def numberLit (s : JStr) : Bool :=
  let core := fun (m : JStr) =>
    let intPart := m.takeWhile Char.isDigit
    let rest := m.drop intPart.length
    !intPart.isEmpty &&
      (rest.isEmpty ||
        (startsWithL rest ['.'] && allDigits (rest.drop 1)))
  match s with
  | '-' :: m => core m
  | m => core m

/-- Canonical decimal form of a JavaScript number given by a literal matching
`-?\d+(\.\d+)?`: the value of `String(Number(s))` under the exact-decimal
idealization (leading zeros of the integer part and trailing zeros of the
fraction dropped, `-0` printed as `0`). -/
def canonNum (s : JStr) : JStr :=
  let (neg, m) := match s with
    | '-' :: m => (true, m)
    | m => (false, m)
  let intPart := m.takeWhile Char.isDigit
  let frac := match m.drop intPart.length with
    | '.' :: f => f
    | _ => []
  let intTrim := match intPart.dropWhile (· = '0') with
    | [] => ['0']
    | l => l
  let fracTrim := (frac.reverse.dropWhile (· = '0')).reverse
  if intTrim = ['0'] && fracTrim.isEmpty then ['0']
  else
    (if neg then ['-'] else []) ++ intTrim ++
      (if fracTrim.isEmpty then [] else '.' :: fracTrim)

/-- The values stored in a property block: JavaScript booleans, `null`,
numbers (by canonical decimal string), strings, arrays and plain objects. -/
inductive JVal where
  | jnull : JVal
  | jbool (b : Bool) : JVal
  | jnum (s : JStr) : JVal
  | jstr (s : JStr) : JVal
  | jarr (xs : List JVal) : JVal
  | jobj (fields : List (JStr × JVal)) : JVal

mutual

/-- Boolean structural equality on `JVal`. -/
def jvalBeq : JVal → JVal → Bool
  | .jnull, .jnull => true
  | .jbool a, .jbool b => a = b
  | .jnum a, .jnum b => a = b
  | .jstr a, .jstr b => a = b
  | .jarr xs, .jarr ys => jvalListBeq xs ys
  | .jobj fs, .jobj gs => jfieldsBeq fs gs
  | _, _ => false
termination_by structural a => a

/-- Boolean structural equality on lists of `JVal`. -/
def jvalListBeq : List JVal → List JVal → Bool
  | [], [] => true
  | x :: xs, y :: ys => jvalBeq x y && jvalListBeq xs ys
  | _, _ => false
termination_by structural a => a

/-- Boolean structural equality on field lists. -/
def jfieldsBeq : List (JStr × JVal) → List (JStr × JVal) → Bool
  | [], [] => true
  | (k, v) :: xs, (k', v') :: ys => k = k' && jvalBeq v v' && jfieldsBeq xs ys
  | _, _ => false
termination_by structural a => a

end

/-- Induction over `JVal` with element-wise hypotheses for the nested lists. -/
theorem jvalInd (P : JVal → Prop)
    (hnull : P .jnull) (hbool : ∀ b, P (.jbool b)) (hnum : ∀ s, P (.jnum s))
    (hstr : ∀ s, P (.jstr s))
    (harr : ∀ xs, (∀ x ∈ xs, P x) → P (.jarr xs))
    (hobj : ∀ fs, (∀ e ∈ fs, P e.2) → P (.jobj fs)) : ∀ v, P v
  | .jnull => hnull
  | .jbool b => hbool b
  | .jnum s => hnum s
  | .jstr s => hstr s
  | .jarr xs => harr xs (fun x hx =>
      have : sizeOf x < 1 + sizeOf xs := by
        have := List.sizeOf_lt_of_mem hx; omega
      jvalInd P hnull hbool hnum hstr harr hobj x)
  | .jobj fs => hobj fs (fun e he =>
      have : sizeOf e.2 < 1 + sizeOf fs := by
        have h1 := List.sizeOf_lt_of_mem he
        have h2 : sizeOf e.2 < sizeOf e := by
          obtain ⟨a, b⟩ := e; simp only [Prod.mk.sizeOf_spec]; omega
        omega
      jvalInd P hnull hbool hnum hstr harr hobj e.2)
termination_by v => sizeOf v

/-- `jvalBeq` decides equality. -/
theorem jvalBeq_iff : ∀ a b : JVal, jvalBeq a b = true ↔ a = b := by
  intro a
  induction a using jvalInd with
  | hnull => intro b; cases b <;> simp [jvalBeq]
  | hbool x => intro b; cases b <;> simp [jvalBeq]
  | hnum x => intro b; cases b <;> simp [jvalBeq]
  | hstr x => intro b; cases b <;> simp [jvalBeq]
  | harr xs ih =>
    intro b; cases b <;> simp [jvalBeq]
    next ys =>
      induction xs generalizing ys with
      | nil => cases ys <;> simp [jvalListBeq]
      | cons x xs' ihl =>
        cases ys with
        | nil => simp [jvalListBeq]
        | cons y ys' =>
          simp only [jvalListBeq, Bool.and_eq_true, List.cons.injEq]
          rw [ih x (by simp), ihl (fun z hz => ih z (by simp [hz])) ys']
  | hobj fs ih =>
    intro b; cases b <;> simp [jvalBeq]
    next gs =>
      induction fs generalizing gs with
      | nil => cases gs <;> simp [jfieldsBeq]
      | cons e fs' ihl =>
        cases gs with
        | nil => obtain ⟨k, v⟩ := e; simp [jfieldsBeq]
        | cons e' gs' =>
          obtain ⟨k, v⟩ := e; obtain ⟨k', v'⟩ := e'
          simp only [jfieldsBeq, Bool.and_eq_true, List.cons.injEq, decide_eq_true_eq,
            Prod.mk.injEq]
          rw [ih (k, v) (by simp), ihl (fun z hz => ih z (by simp [hz])) gs']

instance : DecidableEq JVal := fun a b => decidable_of_iff _ (jvalBeq_iff a b)

/-- A frontmatter object: a JavaScript object as an insertion-ordered
association list (JavaScript preserves insertion order for string keys). -/
abbrev Fm := List (JStr × JVal)

mutual

/-- JavaScript `String(value)`. Arrays stringify as their comma-joined
elements (`null` elements as the empty string); objects as
`[object Object]`. -/
def jsToString : JVal → JStr
  | .jnull => lit "null"
  | .jbool true => lit "true"
  | .jbool false => lit "false"
  | .jnum s => s
  | .jstr s => s
  | .jarr xs => jsToStringItems xs
  | .jobj _ => lit "[object Object]"

/-- Comma-joined element strings of `Array.prototype.toString`. -/
def jsToStringItems : List JVal → JStr
  | [] => []
  | [x] => jsToStringElem x
  | x :: rest => jsToStringElem x ++ ',' :: jsToStringItems rest
termination_by structural l => l

/-- One element of an array join: `null` becomes the empty string, every
other element stringifies as `String(element)` (the cases of `jsToString`
inlined so the recursion stays structural). -/
def jsToStringElem : JVal → JStr
  | .jnull => []
  | .jbool true => lit "true"
  | .jbool false => lit "false"
  | .jnum s => s
  | .jstr s => s
  | .jarr xs => jsToStringItems xs
  | .jobj _ => lit "[object Object]"
termination_by structural v => v

end

/-- Lookup of `obj[key]` on a frontmatter object (`none` = absent). -/
def objGet : Fm → JStr → Option JVal
  | [], _ => none
  | e :: rest, k => if e.1 = k then some e.2 else objGet rest k

/-- `obj[key] = v`: updates an existing key in place (JavaScript keeps the
original position) or appends a new one. -/
def objSet (fm : Fm) (k : JStr) (v : JVal) : Fm :=
  match fm with
  | [] => [(k, v)]
  | (k', v') :: rest =>
    if k' = k then (k', v) :: rest else (k', v') :: objSet rest k v

/-- `delete obj[key]`. -/
def objDelete (fm : Fm) (k : JStr) : Fm :=
  fm.filter (fun e => !(e.1 = k))

/-- `key in obj` / `obj[key] !== undefined` for parsed objects. -/
def objHas (fm : Fm) (k : JStr) : Bool :=
  (objGet fm k).isSome

/-- The split of a string on commas (`String.prototype.split(',')`). -/
def splitOnComma (s : JStr) : List JStr :=
  go s []
where
  go : JStr → JStr → List JStr
    | [], acc => [acc.reverse]
    | ',' :: rest, acc => acc.reverse :: go rest []
    | c :: rest, acc => go rest (c :: acc)

/-- The test `/^\[\[[^\]]+\]\]$/` used by `parseScalar` and `isWikiLink`:
`[[`, one or more non-`]` characters, `]]`. -/
def wikiRe (s : JStr) : Bool :=
  match s with
  | '[' :: '[' :: rest =>
    let mid := rest.takeWhile (fun c => !(c = ']'))
    !mid.isEmpty && rest.drop mid.length = [']', ']']
  | _ => false

/-- `parseScalar` of `src/cli.mjs` (lines 2042–2079), with a fuel argument
standing in for the unbounded recursion of the inline-list branch; the
recursion strips two brackets per level, so `value.length + 1` fuel (as
`parseScalar` passes) always suffices. -/
def parseScalarF : Nat → JStr → JVal
  | 0, _ => .jstr []
  | fuel + 1, value =>
    let v := jsTrim value
    if v.isEmpty then .jstr []
    else if wikiRe v then .jstr v
    else
      let unquoted :=
        if (startsWithL v [qc] && endsWithL v [qc]) ||
           (startsWithL v [apc] && endsWithL v [apc]) then
          (v.drop 1).dropLast
        else v
      if wikiRe unquoted then .jstr unquoted
      else if unquoted = lit "true" then .jbool true
      else if unquoted = lit "false" then .jbool false
      else if unquoted = lit "null" || unquoted = ['~'] then .jnull
      else if numberLit unquoted then .jnum (canonNum unquoted)
      else if startsWithL unquoted ['['] && endsWithL unquoted [']'] then
        let inner := jsTrim ((unquoted.drop 1).dropLast)
        if inner.isEmpty then .jarr []
        else .jarr ((splitOnComma inner).map (fun x => parseScalarF fuel (jsTrim x)))
      else .jstr unquoted

/-- `parseScalar(value)`. -/
def parseScalar (value : JStr) : JVal :=
  parseScalarF (value.length + 1) value

/-- `needsQuote` of `src/cli.mjs` (lines 2144–2150). -/
def needsQuote (v : JStr) : Bool :=
  allDigits v ||
  (toLowerL v = lit "true" || toLowerL v = lit "false" ||
    toLowerL v = lit "null" || toLowerL v = ['~']) ||
  v.any (fun c => c = '[' || c = ']' || c = lbc || c = rbc ||
    c = ':' || c = ',' || c = '#') ||
  (match v with
   | [] => false
   | c :: _ => jsWs c) ||
  (match v.reverse with
   | [] => false
   | c :: _ => jsWs c) ||
  v.contains qc

/-- `v.replace(/"/g, '\\"')`: escape embedded double quotes. -/
def escapeQuotes (v : JStr) : JStr :=
  v.flatMap (fun c => if c = qc then [bsc, qc] else [c])

/-- `serializeScalar` of `src/cli.mjs` (lines 2129–2142). -/
def serializeScalar (value : JVal) : JStr :=
  match value with
  | .jbool b => jsToString (.jbool b)
  | .jnum s => s
  | v =>
    let str := jsToString v
    if str.isEmpty then [qc, qc]
    else if needsQuote str then qc :: escapeQuotes str ++ [qc]
    else str

/-- The lines `serializeFrontmatter` emits for one key/value entry. -/
def entryLines (e : JStr × JVal) : List JStr :=
  match e.2 with
  | .jarr [] => [e.1 ++ lit ": []"]
  | .jarr xs => (e.1 ++ [':']) :: xs.map (fun item => lit "  - " ++ serializeScalar item)
  | .jnull => [e.1 ++ lit ": null"]
  | v => [e.1 ++ lit ": " ++ serializeScalar v]

/-- `String.intercalate` for `JStr` line lists (the `lines.join('\n')`). -/
def joinLines : List JStr → JStr
  | [] => []
  | [l] => l
  | l :: rest => l ++ '\n' :: joinLines rest

/-- `serializeFrontmatter` of `src/cli.mjs` (lines 2104–2127): entries in
object order, arrays as a header line plus `  - item` lines, empty arrays
as `[]`, `null`/`undefined` as `null`. -/
def serializeFrontmatter (fm : Fm) : JStr :=
  joinLines (fm.flatMap entryLines)

/-- `PREFERRED_KEY_ORDER` of `src/cli.mjs` (lines 40–52). -/
def PREFERRED_KEY_ORDER : List JStr :=
  [lit "type", lit "schema_notes", lit "tags", lit "status", lit "date",
   lit "created", lit "modified", lit "aliases", lit "title", lit "parent",
   lit "children"]

/-- Lexicographic comparison of `JStr` by character code, the order of
JavaScript's default array sort on strings. -/
def jstrLe (a b : JStr) : Bool :=
  match a, b with
  | [], _ => true
  | _ :: _, [] => false
  | c :: cs, d :: ds =>
    if c = d then jstrLe cs ds else decide (c < d)

/-- Stable insertion sort by `jstrLe` on keys (JavaScript's sort is stable;
a stable sort under a total preorder is uniquely determined). -/
def insertSorted (k : JStr) : List JStr → List JStr
  | [] => [k]
  | x :: xs => if jstrLe x k then x :: insertSorted k xs else k :: x :: xs

/-- `Object.keys(obj).sort()`. -/
def sortKeys : List JStr → List JStr
  | [] => []
  | k :: ks => insertSorted k (sortKeys ks)

/-- `orderKeys` of `src/cli.mjs` (lines 2087–2102): preferred keys first in
the fixed order, then the remaining keys sorted. -/
def orderKeys (fm : Fm) : Fm :=
  let preferred := PREFERRED_KEY_ORDER.filterMap
    (fun k => (objGet fm k).map (fun v => (k, v)))
  let rest := (sortKeys (fm.map Prod.fst)).filterMap
    (fun k =>
      if PREFERRED_KEY_ORDER.contains k then none
      else (objGet fm k).map (fun v => (k, v)))
  preferred ++ rest

/-- The split on `/\r?\n/`: a line break is a newline, optionally preceded
by a carriage return that the break consumes. -/
def splitLinesGo (acc : JStr) : JStr → List JStr
  | [] => [acc.reverse]
  | [c] => if c = '\n' then [acc.reverse, []] else [(c :: acc).reverse]
  | c :: c2 :: rest =>
    if c = '\n' then acc.reverse :: splitLinesGo [] (c2 :: rest)
    else if c = '\r' && c2 = '\n' then acc.reverse :: splitLinesGo [] rest
    else splitLinesGo (c :: acc) (c2 :: rest)

/-- `text.split(/\r?\n/)`. -/
def splitLinesRN (s : JStr) : List JStr := splitLinesGo [] s

/-- `line.match(/^\s*/)[0].length`: the indentation of a line. -/
def lineIndent (line : JStr) : Int :=
  ((line.takeWhile jsWs).length : Int)

/-- `line.indexOf(':')`. -/
def idxOfColon : JStr → Option Nat
  | [] => none
  | c :: rest => if c = ':' then some 0 else (idxOfColon rest).map (· + 1)

/-- `nextMeaningfulLine` of `src/cli.mjs` (lines 1275–1283): the first
following line that is neither blank nor a comment, with its indent. -/
def nextMeaningful : List JStr → Option (JStr × Int)
  | [] => none
  | raw :: rest =>
    let t := jsTrim raw
    if t.isEmpty || startsWithL t ['#'] then nextMeaningful rest
    else some (raw, lineIndent raw)

/-- A position in the document under construction: the chain of object keys
from the root. The JavaScript parser's stack holds references into the root
object; paths replay those references explicitly. -/
abbrev YPath := List JStr

/-- `parent[key] = v` for the parent at `path`. A missing path or a
non-object parent leaves the root unchanged (JavaScript would set an
expando property on an array there, which its later JSON round-trips
drop). -/
def setKeyAt (root : JVal) (path : YPath) (key : JStr) (v : JVal) : JVal :=
  match path, root with
  | [], .jobj fs => .jobj (objSet fs key v)
  | [], r => r
  | k :: rest, .jobj fs =>
    match objGet fs k with
    | some child => .jobj (objSet fs k (setKeyAt child rest key v))
    | none => .jobj fs
  | _ :: _, r => r

/-- The `- item` branch: `parent.push(v)` when the parent at `path` is an
array, else the `parent.__list` accumulation on an object (a non-array
`__list` is replaced by a fresh array first). -/
def pushListAt (root : JVal) (path : YPath) (v : JVal) : JVal :=
  match path, root with
  | [], .jarr xs => .jarr (xs ++ [v])
  | [], .jobj fs =>
    match objGet fs (lit "__list") with
    | some (.jarr xs) => .jobj (objSet fs (lit "__list") (.jarr (xs ++ [v])))
    | _ => .jobj (objSet fs (lit "__list") (.jarr [v]))
  | [], r => r
  | k :: rest, .jobj fs =>
    match objGet fs k with
    | some child => .jobj (objSet fs k (pushListAt child rest v))
    | none => .jobj fs
  | _ :: _, r => r

/-- The parser state: the root object and the indent stack (top first; the
bottom sentinel is `(-1, root)`). -/
structure YState where
  root : JVal
  stack : List (Int × YPath)

/-- `while (stack.length > 1 && indent <= top.indent) stack.pop()`. -/
def popStack : List (Int × YPath) → Int → List (Int × YPath)
  | top :: s1 :: rest, indent =>
    if indent ≤ top.1 then popStack (s1 :: rest) indent else top :: s1 :: rest
  | s, _ => s

mutual

/-- `sanitizeYamlLists` of `src/cli.mjs` (lines 1285–1298), applied to the
root object (the only call site passes the root, always a plain object). -/
def sanitizeYamlLists : JVal → JVal
  | .jobj fs => .jobj (sanitizeFields fs)
  | v => v

/-- One pass of `sanitizeYamlLists` over an object's entries. -/
def sanitizeFields : List (JStr × JVal) → List (JStr × JVal)
  | [] => []
  | (k, v) :: rest => (k, sanitizeEntry v) :: sanitizeFields rest
termination_by structural l => l

/-- One entry of `sanitizeYamlLists`: arrays are kept, an object carrying a
`__list` array collapses to that array, other objects are sanitized
recursively, scalars are kept. -/
def sanitizeEntry : JVal → JVal
  | .jarr xs => .jarr xs
  | .jobj fs =>
    match objGet fs (lit "__list") with
    | some (.jarr xs) => .jarr xs
    | _ => .jobj (sanitizeFields fs)
  | v => v
termination_by structural v => v

end

/-- The line loop of `parseSimpleYaml` (lines 1224–1269 of `src/cli.mjs`),
processing the remaining lines against the current state. -/
def yamlStep (st : YState) : List JStr → YState
  | [] => st
  | line :: rest =>
    let t := jsTrim line
    if t.isEmpty || startsWithL t ['#'] then yamlStep st rest
    else
      let indent := lineIndent line
      let stack := popStack st.stack indent
      let ppath := (stack.headD (-1, [])).2
      if startsWithL t (lit "- ") then
        yamlStep ⟨pushListAt st.root ppath (parseScalar (jsTrim (t.drop 2))), stack⟩ rest
      else
        match idxOfColon t with
        | none => yamlStep ⟨st.root, stack⟩ rest
        | some idx =>
          let key := jsTrim (t.take idx)
          let restv := jsTrim (t.drop (idx + 1))
          if restv.isEmpty then
            match nextMeaningful rest with
            | none => yamlStep ⟨setKeyAt st.root ppath key .jnull, stack⟩ rest
            | some (nline, nindent) =>
              if nindent ≤ indent then
                yamlStep ⟨setKeyAt st.root ppath key .jnull, stack⟩ rest
              else
                let child : JVal :=
                  if startsWithL (jsTrim nline) (lit "- ") then .jarr [] else .jobj []
                yamlStep ⟨setKeyAt st.root ppath key child, (indent, ppath ++ [key]) :: stack⟩ rest
          else
            yamlStep ⟨setKeyAt st.root ppath key (parseScalar restv), stack⟩ rest

/-- `parseSimpleYaml` of `src/cli.mjs` (lines 1219–1273). -/
def parseSimpleYaml (text : JStr) : JVal :=
  sanitizeYamlLists (yamlStep ⟨.jobj [], [(-1, [])]⟩ (splitLinesRN text)).root

/-- The result of `parseMarkdownWithFrontmatter`. -/
structure ParsedDoc where
  hasFrontmatter : Bool
  frontmatter : Fm
  body : JStr
  deriving DecidableEq

/-- The root of `parseSimpleYaml` as a frontmatter object (it is always a
plain object). -/
def toObj : JVal → Fm
  | .jobj fs => fs
  | _ => []

/-- The index of the first `---` line. -/
def idxOfTripleDash : List JStr → Option Nat
  | [] => none
  | l :: rest => if l = lit "---" then some 0 else (idxOfTripleDash rest).map (· + 1)

/-- `parseMarkdownWithFrontmatter` of `src/cli.mjs` (lines 2017–2040). -/
def parseMarkdownWithFrontmatter (text : JStr) : ParsedDoc :=
  if !startsWithL text (lit "---\n") then ⟨false, [], text⟩
  else
    let lines := splitLinesRN text
    match idxOfTripleDash (lines.drop 1) with
    | none => ⟨false, [], text⟩
    | some i =>
      let fmLines := (lines.drop 1).take i
      let body := joinLines (lines.drop (i + 2))
      ⟨true, toObj (parseSimpleYaml (joinLines fmLines)), body⟩

/-- `serializeMarkdown` of `src/cli.mjs` (lines 2081–2085); its
`hasFrontmatter` parameter is accepted but unused by the source, so the
model omits it. -/
def serializeMarkdown (body : JStr) (frontmatter : Fm) : JStr :=
  lit "---\n" ++ serializeFrontmatter (orderKeys frontmatter) ++ lit "\n---\n" ++
    (if startsWithL body ['\n'] then body.drop 1 else body)

/-- Generic association-list lookup (JavaScript object / `Map` get). -/
def assocGet {α : Type} : List (JStr × α) → JStr → Option α
  | [], _ => none
  | e :: rest, k => if e.1 = k then some e.2 else assocGet rest k

/-- Generic association-list update-or-append (JavaScript assignment /
`Map.set`: an existing key keeps its position). -/
def assocSet {α : Type} (l : List (JStr × α)) (k : JStr) (v : α) : List (JStr × α) :=
  match l with
  | [] => [(k, v)]
  | (k', v') :: rest =>
    if k' = k then (k', v) :: rest else (k', v') :: assocSet rest k v

/-- `PropertyDef`: one field's declared shape (`type`, optional `enum`,
optional `default` — present exactly when the source object has an own
`default` property — and optional `format`). -/
structure PropDef where
  ptype : Option JStr
  enumVals : Option (List JVal)
  defaultVal : Option JVal
  format : Option JStr
  deriving DecidableEq

/-- A relation-pair rule (`pair.<field>` / legacy `linkPair.<id>`). -/
structure PairRule where
  sourceField : JStr
  targetType : Option JStr
  targetField : JStr
  descriptor : JStr
  deriving DecidableEq

/-- A schema record as the loader builds it. `id`/`discriminator` use the
empty string for the JavaScript `null`/unset state the parser starts from;
`folder`, `purpose`, `extendsId` use `none` for `null`/`undefined`;
`prependDateToTitle` uses `none` for `undefined` (so inheritance can see
whether the child set it). `matchRules` models the optional `match`
constraint object (absent on natively parsed schemas). -/
structure Schema where
  id : JStr
  discriminator : JStr
  extendsId : Option JStr
  purpose : Option JStr
  folder : Option JStr
  prependDateToTitle : Option Bool
  required : List JStr
  properties : List (JStr × PropDef)
  pairRulesByField : List (JStr × PairRule)
  pairRules : List PairRule
  matchRules : List (JStr × JVal)
  deriving DecidableEq

/-- JavaScript truthiness of an optional value (`value || fallback`). -/
def jsFalsy : Option JVal → Bool
  | none => true
  | some .jnull => true
  | some (.jstr []) => true
  | some (.jbool false) => true
  | some (.jnum s) => s = ['0']
  | _ => false

/-- `a ?? b` on property reads (`undefined`/`null` fall through). -/
def jsCoalesce (a b : Option JVal) : Option JVal :=
  match a with
  | none => b
  | some .jnull => b
  | some v => some v

/-- `inferPrimitiveType` of `src/cli.mjs` (lines 1185–1190). -/
def inferPrimitiveType : JVal → JStr
  | .jarr _ => lit "array"
  | .jbool _ => lit "boolean"
  | .jnum _ => lit "number"
  | _ => lit "string"

/-- `propertyFromSchemaValue` of `src/cli.mjs` (lines 1136–1175). -/
def propertyFromSchemaValue (rawValue : JVal) (allowImplicitDefault : Bool) : PropDef :=
  match rawValue with
  | .jarr [] =>
    if allowImplicitDefault then ⟨some (lit "array"), none, some (.jarr []), none⟩
    else ⟨some (lit "array"), none, none, none⟩
  | .jarr [x] =>
    if allowImplicitDefault then ⟨some (lit "array"), none, some (.jarr [x]), none⟩
    else ⟨some (lit "array"), none, none, none⟩
  | .jarr xs => ⟨some (lit "array"), some xs, none, none⟩
  | .jstr s =>
    let trimmed := jsTrim s
    if trimmed.contains ',' then
      let parts := ((splitOnComma trimmed).map jsTrim).filter (fun x => !x.isEmpty)
        |>.map parseScalar
      ⟨some (lit "string"), some parts, none, none⟩
    else
      let parsed := parseScalar trimmed
      if allowImplicitDefault then ⟨some (inferPrimitiveType parsed), none, some parsed, none⟩
      else ⟨some (inferPrimitiveType parsed), none, none, none⟩
  | .jbool b =>
    if allowImplicitDefault then ⟨some (inferPrimitiveType (.jbool b)), none, some (.jbool b), none⟩
    else ⟨some (inferPrimitiveType (.jbool b)), none, none, none⟩
  | .jnum n =>
    if allowImplicitDefault then ⟨some (inferPrimitiveType (.jnum n)), none, some (.jnum n), none⟩
    else ⟨some (inferPrimitiveType (.jnum n)), none, none, none⟩
  | .jnull => ⟨some (lit "string"), none, none, none⟩
  | _ => ⟨some (lit "string"), none, none, none⟩

/-- `propertyFromDefaultValue` of `src/cli.mjs` (lines 1177–1183). -/
def propertyFromDefaultValue : JVal → PropDef
  | .jarr _ => ⟨some (lit "array"), none, none, none⟩
  | .jbool _ => ⟨some (lit "boolean"), none, none, none⟩
  | .jnum _ => ⟨some (lit "number"), none, none, none⟩
  | .jnull => ⟨some (lit "string"), none, none, none⟩
  | _ => ⟨some (lit "string"), none, none, none⟩

/-- A character of the identifier class `[A-Za-z0-9_-]`. -/
def identChar (c : Char) : Bool :=
  c.isAlpha || c.isDigit || c = '_' || c = '-'

/-- `parsePairValue` (lines 1107–1115): `Target.field`. -/
def parsePairValue : JVal → Option (JStr × JStr)
  | .jstr s =>
    let t := jsTrim s
    let a := t.takeWhile identChar
    match t.drop a.length with
    | '.' :: b =>
      if !a.isEmpty && !b.isEmpty && b.all identChar then some (a, b) else none
    | _ => none
  | _ => none

/-- `parseLinkPairValue` (lines 1097–1105): `left<->right` with optional
surrounding whitespace around the arrow. -/
def parseLinkPairValue : JVal → Option (JStr × JStr)
  | .jstr s =>
    let t := jsTrim s
    let a := t.takeWhile identChar
    let rest := (t.drop a.length).dropWhile jsWs
    if !a.isEmpty && startsWithL rest (lit "<->") then
      let b := (rest.drop 3).dropWhile jsWs
      if !b.isEmpty && b.all identChar then some (a, b) else none
    else none
  | _ => none

/-- The test `/^\[\[([^\]|#]+)\]\]$/` with its capture (used by
`parseSimpleWikiLink`): the target may not contain `]`, `|` or `#`. -/
def wikiSimpleTarget (s : JStr) : Option JStr :=
  match s with
  | '[' :: '[' :: rest =>
    let mid := rest.takeWhile (fun c => !(c = ']' || c = '|' || c = '#'))
    if !mid.isEmpty && rest.drop mid.length = [']', ']'] then some mid else none
  | _ => none

/-- `parseSimpleWikiLink` of `src/cli.mjs` (lines 1121–1127) applied to a
property read (non-strings give `null`). -/
def parseSimpleWikiLinkV : Option JVal → Option JStr
  | some (.jstr s) =>
    match wikiSimpleTarget (jsTrim s) with
    | some mid => let t := jsTrim mid; if t.isEmpty then none else some t
    | none => none
  | _ => none

/-- `parseBoolLike` of `src/cli.mjs` (lines 1129–1134) applied to a
property read. -/
def parseBoolLike (value : Option JVal) : Option Bool :=
  let str := if jsFalsy value then [] else jsToString (value.getD .jnull)
  let v := toLowerL (jsTrim str)
  if v = lit "true" || v = lit "yes" || v = lit "y" || v = lit "1" then some true
  else if v = lit "false" || v = lit "no" || v = lit "n" || v = lit "0" || v.isEmpty then
    some false
  else none

/-- `normalizeFolderToken` of `src/cli.mjs` (lines 1210–1217). -/
def normalizeFolderToken (v : JVal) : JStr :=
  match v with
  | .jnull => []
  | _ =>
    let token := jsTrim (jsToString v)
    if token.isEmpty then []
    else (token.dropWhile (· = '/')).takeWhile (fun c => !(c = '/'))

/-- `normalizeSchemaFolder` of `src/cli.mjs` (lines 1192–1208) applied to a
property read. -/
def normalizeSchemaFolder (value : Option JVal) : Option JStr :=
  match value with
  | some (.jarr []) => none
  | some (.jarr (x :: _)) => some (normalizeFolderToken x)
  | some (.jstr s) => some (normalizeFolderToken (.jstr s))
  | some (.jobj fs) =>
    match objGet fs (lit "folders") with
    | some (.jarr []) => none
    | some (.jarr (x :: _)) => some (normalizeFolderToken x)
    | _ => none
  | _ => none

/-- The reserved top-level schema keys (line 963–971 of `src/cli.mjs`). -/
def reservedSchemaKeys : List JStr :=
  [lit "id", lit "folder", lit "appliesTo", lit "extends", lit "purpose",
   lit "prependDateToTitle", lit "notes"]

/-- One key/value step of `parseNativeMarkdownSchema`'s frontmatter loop
(lines 987–1068 of `src/cli.mjs`), threading the schema under construction
and the `explicitDefaults` map. -/
def nativeSchemaStep (acc : Schema × List (JStr × JVal)) (e : JStr × JVal) :
    Schema × List (JStr × JVal) :=
  let (schema, defaults) := acc
  let rawKey := e.1
  let rawValue := e.2
  if reservedSchemaKeys.contains rawKey then acc
  else
    let required := endsWithL rawKey ['*']
    let key := if required then rawKey.dropLast else rawKey
    if startsWithL key (lit "default.") then
      let defaultKey := key.drop 8
      if !defaultKey.isEmpty && !defaultKey.contains '.' then
        (schema, assocSet defaults defaultKey rawValue)
      else acc
    else if startsWithL key (lit "pair.") then
      let sourceField := jsTrim (key.drop 5)
      if sourceField.isEmpty then acc
      else
        match parsePairValue rawValue with
        | some (tt, tf) =>
          let newRules := assocSet schema.pairRulesByField sourceField
            ⟨sourceField, some tt, tf, lit "pair." ++ sourceField⟩
          ({schema with pairRulesByField := newRules}, defaults)
        | none => acc
    else if startsWithL key (lit "linkPair.") then
      let pairId := jsTrim (key.drop 9)
      if pairId.isEmpty then acc
      else
        match parseLinkPairValue rawValue with
        | some (l, r) =>
          let pr1 :=
            if (assocGet schema.pairRulesByField l).isNone then
              assocSet schema.pairRulesByField l
                ⟨l, none, r, lit "linkPair." ++ pairId⟩
            else schema.pairRulesByField
          let pr2 :=
            if (assocGet pr1 r).isNone then
              assocSet pr1 r ⟨r, none, l, lit "linkPair." ++ pairId⟩
            else pr1
          ({schema with pairRulesByField := pr2}, defaults)
        | none => acc
    else
      let isField := startsWithL key (lit "field.")
      let key2 := if isField then key.drop 6 else key
      if !isField && key.contains '.' then acc
      else if key2.isEmpty then acc
      else
        let prop := propertyFromSchemaValue rawValue false
        let schema1 := {schema with properties := assocSet schema.properties key2 prop}
        let schema2 :=
          if required then {schema1 with required := schema1.required ++ [key2]}
          else schema1
        if key2 = lit "type" then
          let schema3 :=
            if schema2.discriminator.isEmpty then {schema2 with discriminator := key2}
            else schema2
          if schema3.discriminator = key2 then
            let newId :=
              match prop.enumVals with
              | some (x :: _) => jsToString x
              | _ =>
                match prop.defaultVal with
                | some d => jsToString d
                | none =>
                  match rawValue with
                  | .jstr s => if (jsTrim s).isEmpty then schema3.id else jsTrim s
                  | _ => schema3.id
            ({schema3 with id := newId}, defaults)
          else (schema3, defaults)
        else (schema2, defaults)

/-- The `explicitDefaults` application loop (lines 1070–1077 of
`src/cli.mjs`). -/
def applyExplicitDefault (props : List (JStr × PropDef)) (e : JStr × JVal) :
    List (JStr × PropDef) :=
  let props1 :=
    if (assocGet props e.1).isNone then
      assocSet props e.1 (propertyFromDefaultValue e.2)
    else props
  if e.2 = .jnull then props1
  else
    match assocGet props1 e.1 with
    | some p => assocSet props1 e.1 {p with defaultVal := some e.2}
    | none => props1

/-- The `id` fallback of `parseNativeMarkdownSchema` (lines 1079–1083 of
`src/cli.mjs`): a schema without an id takes the trimmed string `id`
frontmatter key; only the `id` field ever changes. -/
def idFallback (frontmatter : Fm) (schema1 : Schema) : Schema :=
  if schema1.id.isEmpty then
    match objGet frontmatter (lit "id") with
    | some (.jstr s) => if (jsTrim s).isEmpty then schema1 else {schema1 with id := jsTrim s}
    | _ => schema1
  else schema1

/-- The tail of `parseNativeMarkdownSchema` after the frontmatter loop
(lines 1070–1094 of `src/cli.mjs`): explicit defaults applied, the `id`
fallback, the `type` discriminator default, the implicit `type`
requirement, and the `pairRules` projection. -/
def nativeSchemaFinish (frontmatter : Fm) (schema0 : Schema)
    (defaults : List (JStr × JVal)) : Option Schema :=
  let props := defaults.foldl applyExplicitDefault schema0.properties
  let schema1 := {schema0 with properties := props}
  let schema2 := idFallback frontmatter schema1
  let schema3 :=
    if schema2.discriminator.isEmpty then {schema2 with discriminator := lit "type"}
    else schema2
  let schema4 :=
    if schema3.discriminator = lit "type" && !schema3.required.contains (lit "type") then
      {schema3 with required := schema3.required ++ [lit "type"]}
    else schema3
  let schema5 := {schema4 with pairRules := schema4.pairRulesByField.map (·.2)}
  if schema5.id.isEmpty then none else some schema5

/-- `parseNativeMarkdownSchema` of `src/cli.mjs` (lines 962–1095). The
source also receives the document body, which it never reads. -/
def parseNativeMarkdownSchema (frontmatter : Fm) : Option Schema :=
  let schemaFolder := normalizeSchemaFolder
    (jsCoalesce (objGet frontmatter (lit "folder")) (objGet frontmatter (lit "appliesTo")))
  let prependDateSetting := parseBoolLike (objGet frontmatter (lit "prependDateToTitle"))
  let purpose :=
    match objGet frontmatter (lit "purpose") with
    | some (.jstr s) => some (jsTrim s)
    | _ => none
  let init : Schema :=
    ⟨[], [], parseSimpleWikiLinkV (objGet frontmatter (lit "extends")), purpose,
      schemaFolder, prependDateSetting, [], [], [], [], []⟩
  let (schema0, defaults) := frontmatter.foldl nativeSchemaStep (init, [])
  nativeSchemaFinish frontmatter schema0 defaults

/-- `[...new Set(xs)]`: deduplication keeping first occurrences. -/
def dedupFirst (l : List JStr) : List JStr :=
  go [] l
where
  go (seen : List JStr) : List JStr → List JStr
    | [] => []
    | x :: rest => if seen.contains x then go seen rest else x :: go (x :: seen) rest

/-- JavaScript object spread `{...base, ...child}`: base entries first (a
key present in both keeps the base position with the child value), then
child-only entries in child order. -/
def spreadMerge {α : Type} (base child : List (JStr × α)) : List (JStr × α) :=
  (base.map (fun e =>
    match assocGet child e.1 with
    | some w => (e.1, w)
    | none => e)) ++
  child.filter (fun e => (assocGet base e.1).isNone)

/-- `mergeSchema` of `src/cli.mjs` (lines 936–951): child wins, union for
`required`, spread-merge for `properties` and `pairRulesByField`, parent
fallback for `folder`, `prependDateToTitle` (boolean-coerced) and
`purpose`. -/
def mergeSchema (base child : Schema) : Schema :=
  let merged := child
  let merged := {merged with
    properties := spreadMerge base.properties child.properties,
    required := dedupFirst (base.required ++ child.required),
    pairRulesByField := spreadMerge base.pairRulesByField child.pairRulesByField}
  let merged :=
    if merged.folder = none then {merged with folder := base.folder} else merged
  let merged :=
    if merged.prependDateToTitle = none then
      {merged with prependDateToTitle := some (base.prependDateToTitle = some true)}
    else merged
  let merged :=
    if (merged.purpose = none || merged.purpose = some []) &&
       !(base.purpose = none || base.purpose = some []) then
      {merged with purpose := base.purpose}
    else merged
  merged

/-- The key `${schema.discriminator}:${schema.id}` of the resolver's maps. -/
def skey (s : Schema) : JStr := s.discriminator ++ ':' :: s.id

/-- `byKey.get(key)`: the map built by iterating `byKey.set`, so the last
schema with a given key wins. -/
def byKeyGet (schemas : List Schema) (k : JStr) : Option Schema :=
  match schemas.reverse.find? (fun s => skey s = k) with
  | some s => some s
  | none => none

/-- The resolver's shared state: the `resolving` visiting set, the
`resolved` memo table and the accumulated warnings. -/
structure RState where
  resolving : List JStr
  resolved : List (JStr × Schema)
  warnings : List JStr

/-- `schema.extends` truthiness: set and non-empty. -/
def extTruthy : Option JStr → Option JStr
  | some e => if e.isEmpty then none else some e
  | none => none

/-- `visit` of `resolveSchemaInheritance` (lines 899–923 of `src/cli.mjs`),
with a fuel bound on the recursion depth. The `resolving` set grows at each
recursive call with a key it did not contain, so any fuel exceeding the
number of distinct schema keys suffices (`visitF_total` below). -/
def visitF (schemas : List Schema) : Nat → RState → Schema → Option (RState × Schema)
  | 0, _, _ => none
  | fuel + 1, st, schema =>
    let key := skey schema
    match assocGet st.resolved key with
    | some out => some (st, out)
    | none =>
      if st.resolving.contains key then
        some ({st with warnings :=
          st.warnings ++ [lit "Schema inheritance cycle detected at " ++ key]}, schema)
      else
        let st1 := {st with resolving := key :: st.resolving}
        let next : Option (RState × Schema) :=
          match extTruthy schema.extendsId with
          | none => some (st1, schema)
          | some ext =>
            let parentKey := schema.discriminator ++ ':' :: ext
            match byKeyGet schemas parentKey with
            | none =>
              some ({st1 with warnings := st1.warnings ++
                [lit "Schema " ++ key ++ lit " extends missing parent " ++ parentKey]},
                schema)
            | some parent =>
              match visitF schemas fuel st1 parent with
              | none => none
              | some (st2, parentResolved) => some (st2, mergeSchema parentResolved schema)
        match next with
        | none => none
        | some (st2, out) =>
          let newResolving := st2.resolving.erase key
          let newResolved := st2.resolved ++ [(key, out)]
          some ({st2 with resolving := newResolving, resolved := newResolved}, out)

/-- The post-`visit` normalization of `resolveSchemaInheritance`'s map
callback (lines 925–933): folder coerced to the root for type schemas and
`pairRules` recomputed; the source mutates the memoized record in place, so
the memo table is updated with the normalized record. -/
def normalizeResolved (out : Schema) : Schema :=
  let out1 :=
    if out.discriminator = lit "type" && out.folder = none then
      {out with folder := some []}
    else out
  {out1 with pairRules := out1.pairRulesByField.map (·.2)}

/-- The `schemas.map(visit…)` loop of `resolveSchemaInheritance`, threading
the shared resolver state. -/
def resolveAll (schemas : List Schema) (st : RState) :
    List Schema → Option (RState × List Schema)
  | [] => some (st, [])
  | s :: rest =>
    match visitF schemas (schemas.length + 1) st s with
    | none => none
    | some (st1, out) =>
      let out2 := normalizeResolved out
      let st2 := {st1 with resolved := assocSet st1.resolved (skey s) out2}
      match resolveAll schemas st2 rest with
      | none => none
      | some (st3, outs) => some (st3, out2 :: outs)

/-- `resolveSchemaInheritance` of `src/cli.mjs` (lines 890–934): the
resolved records together with the warnings raised. `none` would mean the
fuel bound was hit, which `resolveSchemaInheritance_total` rules out. -/
def resolveSchemaInheritance (schemas : List Schema) :
    Option (List Schema × List JStr) :=
  match resolveAll schemas ⟨[], [], []⟩ schemas with
  | none => none
  | some (st, outs) => some (outs, st.warnings)

/-- `normalizeString` of `src/cli.mjs` (lines 2156–2159) on a value. -/
def normalizeStringJ : JVal → JStr
  | .jnull => []
  | v => toLowerL (jsTrim (jsToString v))

/-- `normalizeString` on a property read (`undefined` gives the empty
string). -/
def normalizeStringO : Option JVal → JStr
  | none => []
  | some v => normalizeStringJ v

/-- `normalizeString` on a plain string (`String(s)` is the identity). -/
def normalizeStr (s : JStr) : JStr := toLowerL (jsTrim s)

/-- `isWikiLink` of `src/cli.mjs` (lines 2161–2163). -/
def isWikiLink (s : JStr) : Bool := wikiRe (jsTrim s)

/-- `value.replace(/^\[\[|\]\]$/g, '')`: strip one leading `[[` and one
trailing `]]` when present. -/
def stripWikiBrackets (s : JStr) : JStr :=
  let s1 := if startsWithL s (lit "[[") then s.drop 2 else s
  if endsWithL s1 (lit "]]") then s1.dropLast.dropLast else s1

/-- `toWikiLink` of `src/cli.mjs` (lines 2165–2168). -/
def toWikiLink (v : JVal) : JStr :=
  lit "[[" ++ stripWikiBrackets (jsTrim (jsToString v)) ++ lit "]]"

/-- `TERMINAL_STATUSES` of `src/cli.mjs` (line 38). -/
def TERMINAL_STATUSES : List JStr := [lit "done", lit "superseded", lit "cancelled"]

/-- `FOLDER_TYPE_MAP` of `src/cli.mjs` (lines 8–17). -/
def FOLDER_TYPE_MAP : List (JStr × JStr) :=
  [(lit "Dailies", lit "daily"), (lit "Meetings", lit "meeting"),
   (lit "Projects", lit "project"), (lit "Entities", lit "entity"),
   (lit "Subjects", lit "subject"), (lit "Sources", lit "source"),
   (lit "Readwise", lit "source"), (lit "Logs", lit "log")]

/-- `LEGACY_TYPE_MAP` of `src/cli.mjs` (lines 19–33); `none` values model
the `null` entries. -/
def LEGACY_TYPE_MAP : List (JStr × Option JStr) :=
  [(lit "entity-person", some (lit "person")), (lit "entity-body", some (lit "body")),
   (lit "entity-group", some (lit "group")), (lit "entity-place", some (lit "place")),
   (lit "entity-country", some (lit "country")), (lit "entity-session", some (lit "session")),
   (lit "source-article", some (lit "article")), (lit "source-book", some (lit "book")),
   (lit "source-paper", some (lit "paper")), (lit "source-report", some (lit "report")),
   (lit "location", some (lit "place")), (lit "note", none), (lit "none", none)]

/-- A word character for `\b` boundaries: `[A-Za-z0-9_]`. -/
def wordChar (c : Char) : Bool := c.isAlpha || c.isDigit || c = '_'

/-- A leading `\d{4}-\d{2}-\d{2}` token and the rest of the string. -/
def leadingDate (s : JStr) : Option (JStr × JStr) :=
  match s with
  | a :: b :: c :: d :: '-' :: e :: f :: '-' :: g :: h :: rest =>
    if [a, b, c, d, e, f, g, h].all Char.isDigit then
      some ([a, b, c, d, '-', e, f, '-', g, h], rest)
    else none
  | _ => none

/-- The test `/^\d{4}-\d{2}-\d{2}$/`. -/
def exactDate (s : JStr) : Bool :=
  match leadingDate s with
  | some (_, []) => true
  | _ => false

/-- The match `/^(\d{4}-\d{2}-\d{2})(?:\b|$)/` (and the equivalent
`/^(\d{4}-\d{2}-\d{2})\b/`): the date token when the next character, if
any, is a non-word character. -/
def matchLeadingDate (s : JStr) : Option JStr :=
  match leadingDate s with
  | some (d, []) => some d
  | some (d, c :: _) => if wordChar c then none else some d
  | none => none

/-- The test `/^\d{4}-\d{2}-\d{2}(\b|\s)/` of `getDesiredDatedBaseName`:
since every whitespace character is a non-word character, `\s` adds nothing
over `\b` after a digit. -/
def hasLeadingDateB (s : JStr) : Bool :=
  (matchLeadingDate s).isSome

/-- `normalizeDateToken` of `src/cli.mjs` (lines 659–664). -/
def normalizeDateToken (value : Option JVal) : Option JStr :=
  match value with
  | none => none
  | some .jnull => none
  | some v => matchLeadingDate (jsTrim (jsToString v))

/-- The last `/`-separated segment of a path (`path.basename`). -/
def pathBasenameRaw (p : JStr) : JStr :=
  (p.reverse.takeWhile (fun c => !(c = '/'))).reverse

/-- `path.basename(p, '.md')`: the basename with a proper `.md` suffix
removed. -/
def basenameMd (p : JStr) : JStr :=
  let b := pathBasenameRaw p
  if endsWithL b (lit ".md") && b.length > 3 then b.take (b.length - 3) else b

/-- `getDesiredDatedBaseName` of `src/cli.mjs` (lines 643–657): prepends
the normalized frontmatter date to the file name unless the stem already
begins with some `YYYY-MM-DD` token; returns the name together with the
extended fix log. -/
def getDesiredDatedBaseName (schema : Option Schema) (frontmatter : Fm)
    (currentBaseName : JStr) (fixes : List JStr) : JStr × List JStr :=
  match schema with
  | none => (currentBaseName, fixes)
  | some s =>
    if !(s.prependDateToTitle = some true) then (currentBaseName, fixes)
    else
      match normalizeDateToken (objGet frontmatter (lit "date")) with
      | none => (currentBaseName, fixes)
      | some date =>
        let stem := basenameMd currentBaseName
        if hasLeadingDateB stem then (currentBaseName, fixes)
        else
          (date ++ ' ' :: stem ++ lit ".md",
           fixes ++ [lit "prepended date to title '" ++ date ++ lit " '"])

/-- `normalizeTypeValue` of `src/cli.mjs` (lines 1983–2015). -/
def normalizeTypeValue (working : Fm) (fixes : List JStr) : Fm × List JStr :=
  match objGet working (lit "type") with
  | none => (working, fixes)
  | some .jnull => (working, fixes)
  | some tv =>
    let afterCoerce : Option (Fm × List JStr × JStr) :=
      match tv with
      | .jstr s => some (working, fixes, s)
      | .jarr _ =>
        none
      | .jobj _ =>
        none
      | v =>
        let s := jsToString v
        some (objSet working (lit "type") (.jstr s),
          fixes ++ [lit "coerced type to string"], s)
    match afterCoerce with
    | none =>
      (objDelete working (lit "type"),
       fixes ++ [lit "cleared invalid non-scalar 'type'"])
    | some (working1, fixes1, s) =>
      let val := jsTrim s
      let val :=
        if startsWithL val (lit "[[") && endsWithL val (lit "]]") then
          (val.drop 2).dropLast.dropLast
        else val
      let val :=
        if startsWithL val [qc] && endsWithL val [qc] then (val.drop 1).dropLast
        else val
      let val := if toLowerL val = lit "none" then lit "none" else val
      if val = lit "[object Object]" then
        (objDelete working1 (lit "type"),
         fixes1 ++ [lit "cleared invalid 'type' sentinel value"])
      else (objSet working1 (lit "type") (.jstr val), fixes1)

/-- `applyBroadAutofix` of `src/cli.mjs` (lines 1729–1814): the
schema-independent normalizations, returning the updated property block
and fix log. -/
def applyBroadAutofix (relPath : JStr) (filePath : JStr) (working : Fm)
    (fixes : List JStr) : Fm × List JStr :=
  let folder := relPath.takeWhile (fun c => !(c = '/'))
  let filename := basenameMd filePath
  let (working, fixes) := normalizeTypeValue working fixes
  -- legacy type tokens
  let currentType := normalizeStringO (objGet working (lit "type"))
  let (working, fixes) :=
    if currentType.isEmpty then (working, fixes)
    else
      match assocGet LEGACY_TYPE_MAP currentType with
      | some (some mapped) =>
        (objSet working (lit "type") (.jstr mapped),
         fixes ++ [lit "legacy type '" ++ currentType ++ lit "' -> type='" ++ mapped ++ [apc]])
      | _ => (working, fixes)
  -- kind -> subtype migration
  let (working, fixes) :=
    if objHas working (lit "kind") then
      let sub := objGet working (lit "subtype")
      let (working, fixes) :=
        if sub = none || sub = some .jnull || sub = some (.jstr []) then
          (objSet working (lit "subtype") ((objGet working (lit "kind")).getD .jnull),
           fixes ++ [lit "migrated 'kind' -> 'subtype'"])
        else (working, fixes)
      (objDelete working (lit "kind"), fixes)
    else (working, fixes)
  -- type/subtype flattening
  let baseType := normalizeStringO (objGet working (lit "type"))
  let sub := objGet working (lit "subtype")
  let (working, fixes) :=
    if (baseType = lit "entity" || baseType = lit "source") &&
       !(sub = none) && !(sub = some .jnull) &&
       !((jsTrim (jsToString (sub.getD .jnull))).isEmpty) then
      let subtypeNorm := normalizeStringO sub
      let canonicalSubtype :=
        if subtypeNorm = lit "location" then lit "place" else subtypeNorm
      ((objDelete (objSet working (lit "type") (.jstr canonicalSubtype)) (lit "subtype")),
       fixes ++ [lit "flattened type/subtype -> type='" ++ canonicalSubtype ++ [apc]])
    else if !(sub = none) then
      (objDelete working (lit "subtype"), fixes ++ [lit "removed deprecated 'subtype'"])
    else (working, fixes)
  -- folder-based type inference
  let (working, fixes) :=
    if jsFalsy (objGet working (lit "type")) ||
       normalizeStringO (objGet working (lit "type")) = lit "none" then
      match assocGet FOLDER_TYPE_MAP folder with
      | some inferred =>
        (objSet working (lit "type") (.jstr inferred),
         fixes ++ [lit "inferred type='" ++ inferred ++ lit "' from folder '" ++ folder ++ [apc]])
      | none =>
        if folder.isEmpty then
          (objSet working (lit "type") (.jstr (lit "note")),
           fixes ++ [lit "inferred type='note' for root note without type"])
        else (working, fixes)
    else (working, fixes)
  -- lower-case the final type
  let normalizedType := normalizeStringO (objGet working (lit "type"))
  let working :=
    if normalizedType.isEmpty then working
    else objSet working (lit "type") (.jstr normalizedType)
  -- Dailies date from filename
  let (working, fixes) :=
    if folder = lit "Dailies" then
      if jsFalsy (objGet working (lit "date")) && exactDate filename then
        (objSet working (lit "date") (.jstr filename),
         fixes ++ [lit "added date from filename '" ++ filename ++ [apc]])
      else (working, fixes)
    else (working, fixes)
  -- Meetings date from filename
  let (working, fixes) :=
    if folder = lit "Meetings" then
      match matchLeadingDate filename with
      | some d =>
        if jsFalsy (objGet working (lit "date")) then
          (objSet working (lit "date") (.jstr d),
           fixes ++ [lit "added meeting date '" ++ d ++ lit "' from filename"])
        else (working, fixes)
      | none => (working, fixes)
    else (working, fixes)
  -- multi-value coercions
  let step := fun (acc : Fm × List JStr) (key : JStr) =>
    match objGet acc.1 key with
    | none => acc
    | some .jnull => acc
    | some (.jarr _) => acc
    | some v =>
      let t := jsTrim (jsToString v)
      (objSet acc.1 key (.jarr (if t.isEmpty then [] else [.jstr t])),
       acc.2 ++ [lit "coerced '" ++ key ++ lit "' to array"])
  let (working, fixes) :=
    [lit "tags", lit "aliases", lit "children", lit "attendees"].foldl step (working, fixes)
  -- parent normalization
  match objGet working (lit "parent") with
  | some (.jstr s) =>
    if !(jsTrim s).isEmpty && !isWikiLink s then
      (objSet working (lit "parent") (.jstr (toWikiLink (.jstr s))),
       fixes ++ [lit "normalized parent to wikilink"])
    else (working, fixes)
  | _ => (working, fixes)

/-- `blankValueForProperty` of `src/cli.mjs` (lines 1907–1911): the empty
string when the property definition is missing or untyped, the empty array
for array-typed fields, `null` otherwise. -/
def blankValueForProperty (prop : Option PropDef) : JVal :=
  match prop with
  | none => .jstr []
  | some p =>
    match p.ptype with
    | none => .jstr []
    | some t =>
      if t.isEmpty then .jstr []
      else if t = lit "array" then .jarr []
      else .jnull

/-- The required-field loop of `applySchemaAutofix` (lines 1817–1833). -/
def requiredFillStep (schema : Schema) (acc : Fm × List JStr) (key : JStr) :
    Fm × List JStr :=
  let prop := assocGet schema.properties key
  match objGet acc.1 key with
  | none =>
    match prop with
    | some p =>
      match p.defaultVal with
      | some d =>
        (objSet acc.1 key d,
         acc.2 ++ [lit "added required '" ++ key ++ lit "' from schema default"])
      | none =>
        (objSet acc.1 key (blankValueForProperty prop),
         acc.2 ++ [lit "added required '" ++ key ++ lit "' (blank)"])
    | none =>
      (objSet acc.1 key (blankValueForProperty prop),
       acc.2 ++ [lit "added required '" ++ key ++ lit "' (blank)"])
  | some (.jstr s) =>
    if jsTrim s = [] then
      (objSet acc.1 key .jnull,
       acc.2 ++ [lit "normalized required '" ++ key ++ lit "' empty->null"])
    else acc
  | some _ => acc

/-- The per-property coercion loop of `applySchemaAutofix` (lines
1835–1868). -/
def propertyCoerceStep (acc : Fm × List JStr) (e : JStr × PropDef) : Fm × List JStr :=
  let (key, prop) := e
  match objGet acc.1 key with
  | none => acc
  | some value =>
    -- single-element array to scalar
    let acc :=
      match value with
      | .jarr [x] =>
        if prop.ptype = some (lit "string") then
          (objSet acc.1 key (.jstr (jsToString x)),
           acc.2 ++ [lit "coerced '" ++ key ++ lit "' array->string"])
        else acc
      | _ => acc
    -- scalar to array
    let acc :=
      match value with
      | .jarr _ => acc
      | v =>
        if prop.ptype = some (lit "array") then
          (objSet acc.1 key (.jarr [.jstr (jsToString v)]),
           acc.2 ++ [lit "coerced '" ++ key ++ lit "' string->array"])
        else acc
    -- trim string values
    let acc :=
      match objGet acc.1 key with
      | some (.jstr s) =>
        if prop.ptype = some (lit "string") then (objSet acc.1 key (.jstr (jsTrim s)), acc.2)
        else acc
      | _ => acc
    -- enum case normalization
    let acc :=
      match prop.enumVals, objGet acc.1 key with
      | some entries, some (.jstr s) =>
        let lowered := toLowerL s
        match entries.find? (fun entry => toLowerL (jsToString entry) = lowered) with
        | some matched =>
          if !(matched = .jstr s) then
            (objSet acc.1 key matched,
             acc.2 ++ [lit "normalized enum case for '" ++ key ++ [apc]])
          else acc
        | none => acc
      | _, _ => acc
    -- wikilink wrapping
    match prop.format, objGet acc.1 key with
    | some fw, some (.jstr s) =>
      if fw = lit "wikilink" && !(jsTrim s).isEmpty && !isWikiLink s then
        (objSet acc.1 key (.jstr (toWikiLink (.jstr s))),
         acc.2 ++ [lit "normalized '" ++ key ++ lit "' to wikilink"])
      else acc
    | _, _ => acc

/-- `applySchemaAutofix` of `src/cli.mjs` (lines 1816–1869); the source's
`ambiguous` and `relPath` parameters are never used by its body. -/
def applySchemaAutofix (schema : Schema) (working : Fm) (fixes : List JStr) :
    Fm × List JStr :=
  let acc := schema.required.foldl (requiredFillStep schema) (working, fixes)
  schema.properties.foldl propertyCoerceStep acc

/-- A violation entry `{rule, field?, message}`. -/
structure Violation where
  rule : JStr
  field : Option JStr
  message : JStr
  deriving DecidableEq

/-- `hasMeaningfulRequiredValue` of `src/cli.mjs` (lines 1913–1918). -/
def hasMeaningfulRequiredValue : Option JVal → Bool
  | none => false
  | some .jnull => false
  | some (.jstr s) => !(jsTrim s).isEmpty
  | some (.jarr xs) => !xs.isEmpty
  | some _ => true

/-- `prop.enum.join(', ')` for the enum violation message. -/
def joinEnum : List JVal → JStr
  | [] => []
  | [x] => jsToString x
  | x :: rest => jsToString x ++ lit ", " ++ joinEnum rest

/-- The per-property validation of `validateAgainstSchema` (lines
1878–1904). -/
def validatePropStep (working : Fm) (acc : List Violation) (e : JStr × PropDef) :
    List Violation :=
  let (key, prop) := e
  match objGet working key with
  | none => acc
  | some .jnull => acc
  | some (.jstr []) => acc
  | some value =>
    let isStr := match value with | .jstr _ => true | _ => false
    let isArr := match value with | .jarr _ => true | _ => false
    if prop.ptype = some (lit "string") && !isStr then
      acc ++ [⟨lit "type", some key, [apc] ++ key ++ lit "' should be string"⟩]
    else if prop.ptype = some (lit "array") && !isArr then
      acc ++ [⟨lit "type", some key, [apc] ++ key ++ lit "' should be array"⟩]
    else
      let acc :=
        match prop.enumVals with
        | some entries =>
          if !entries.contains value then
            acc ++ [⟨lit "enum", some key,
              [apc] ++ key ++ lit "' should be one of: " ++ joinEnum entries ++
                lit ", got '" ++ jsToString value ++ [apc]⟩]
          else acc
        | none => acc
      match prop.format, value with
      | some fw, .jstr s =>
        if fw = lit "wikilink" && !isWikiLink s then
          acc ++ [⟨lit "format", some key,
            [apc] ++ key ++ lit "' should be a wikilink ([[...]])"⟩]
        else acc
      | _, _ => acc

/-- `validateAgainstSchema` of `src/cli.mjs` (lines 1871–1905). -/
def validateAgainstSchema (schema : Schema) (working : Fm) : List Violation :=
  let reqViolations := schema.required.foldl
    (fun acc key =>
      if !hasMeaningfulRequiredValue (objGet working key) then
        acc ++ [⟨lit "required", some key,
          lit "Missing required field '" ++ key ++ [apc]⟩]
      else acc) []
  schema.properties.foldl (validatePropStep working) reqViolations

/-- One candidate of `pickBestSchemaByDiscriminator`. -/
structure MatchCand where
  schema : Schema
  valueMatch : Bool
  folderMatch : Bool
  schemaFolder : Option JStr

/-- The `match` constraint check (lines 1951–1960 of `src/cli.mjs`). -/
def matchRulesOk (schema : Schema) (working : Fm) : Bool :=
  schema.matchRules.all
    (fun kv => normalizeStringO (objGet working kv.1) = normalizeStringJ kv.2)

/-- The comparator rank of a candidate: both matches first, then value-only,
then folder-only. -/
def candRank (c : MatchCand) : Nat :=
  (if c.valueMatch then 0 else 2) + (if c.folderMatch then 0 else 1)

/-- Stable insertion of a candidate behind all existing candidates of equal
or smaller rank (JavaScript's `Array.prototype.sort` is stable, and a
stable sort under a total preorder is uniquely determined). -/
def insertCand (c : MatchCand) : List MatchCand → List MatchCand
  | [] => [c]
  | x :: xs => if candRank x ≤ candRank c then x :: insertCand c xs else c :: x :: xs

/-- The stable sort of the candidate list by the source's comparator
(lines 1967–1971). -/
def sortCands : List MatchCand → List MatchCand
  | [] => []
  | c :: cs => insertCand c (sortCands cs)

/-- The result record of `pickBestSchemaByDiscriminator`. -/
structure PickResult where
  schema : Schema
  matchedByValue : Bool
  matchedByFolder : Bool
  folderMismatch : Bool
  preferredFolder : Option JStr

/-- The candidate filter of `pickBestSchemaByDiscriminator` (lines
1939–1963). -/
def candidatesFor (schemas : List Schema) (discriminator noteValue folder : JStr)
    (working : Fm) : List MatchCand :=
  schemas.filterMap (fun s =>
    if !(s.discriminator = discriminator) then none
    else
      let schemaFolder := s.folder
      let schemaId := normalizeStr s.id
      let valueMatch := !noteValue.isEmpty && !schemaId.isEmpty && noteValue = schemaId
      let folderMatch := match schemaFolder with
        | some f => f = folder
        | none => false
      if !valueMatch && !folderMatch then none
      else if !matchRulesOk s working then none
      else some ⟨s, valueMatch, folderMatch, schemaFolder⟩)

/-- `pickBestSchemaByDiscriminator` of `src/cli.mjs` (lines 1938–1981). -/
def pickBestSchemaByDiscriminator (schemas : List Schema)
    (discriminator noteValue folder : JStr) (working : Fm) : Option PickResult :=
  let candidates := candidatesFor schemas discriminator noteValue folder working
  match sortCands candidates with
  | [] => none
  | best :: _ =>
    some ⟨best.schema, best.valueMatch, best.folderMatch,
      best.valueMatch && !(best.schemaFolder = none) && !(best.schemaFolder = some folder),
      best.schemaFolder⟩

/-- The match information `pickSchemasForFile` returns. -/
structure MatchInfo where
  typeSchema : Option Schema
  typeFolderMismatch : Bool
  typePreferredFolder : Option JStr

/-- `pickSchemasForFile` of `src/cli.mjs` (lines 1920–1936). -/
def pickSchemasForFile (relPath : JStr) (working : Fm) (schemas : List Schema) :
    MatchInfo :=
  let folder := relPath.takeWhile (fun c => !(c = '/'))
  let noteType := normalizeStringO (objGet working (lit "type"))
  match pickBestSchemaByDiscriminator schemas (lit "type") noteType folder working with
  | some cand => ⟨some cand.schema, cand.folderMismatch, cand.preferredFolder⟩
  | none => ⟨none, false, none⟩

/-- A mutation of the file store that a run can perform. -/
inductive FsEffect where
  | mkdirp (dir : JStr) : FsEffect
  | rename (src dst : JStr) : FsEffect
  | write (path : JStr) (text : JStr) : FsEffect
  deriving DecidableEq

/-- `path.posix.dirname` on the relative paths the program builds (no
leading slash). -/
def posixDirname (p : JStr) : JStr :=
  let afterLast := p.reverse.dropWhile (fun c => !(c = '/'))
  match afterLast with
  | [] => lit "."
  | _ :: restRev => if restRev.isEmpty then lit "/" else restRev.reverse

/-- `ensureSchemaNotes` of `src/cli.mjs` (lines 2152–2154). -/
def ensureSchemaNotes (fm : Fm) (ambiguous : List JStr) : Fm :=
  objSet fm (lit "schema_notes") (.jarr ((dedupFirst ambiguous).map .jstr))

/-- The relocation decision of `processFile` (lines 1386–1402 of
`src/cli.mjs`): terminal status forces the archive folder; a document that
had no type and sits outside the root is pushed to the root; else a folder
mismatch against the matched schema moves to the schema folder unless the
document is staged under `Templates`; else the directory is unchanged. -/
def computeTargetDirRel (currentDirRel currentFolder : JStr) (hadTypeAtStart : Bool)
    (status : JStr) (typeSchema : Option Schema) (matchInfo : MatchInfo) : JStr :=
  if TERMINAL_STATUSES.contains status then lit "Archive"
  else if !hadTypeAtStart && !currentFolder.isEmpty then []
  else if typeSchema.isSome && matchInfo.typeFolderMismatch &&
      !(matchInfo.typePreferredFolder = none) && !(currentFolder = lit "Templates") then
    (matchInfo.typePreferredFolder.getD [])
  else currentDirRel

/-- The per-file report entry `processFile` returns. -/
structure FileReport where
  file : JStr
  relativePath : JStr
  schema : List JStr
  movedTo : Option JStr
  changed : Bool
  fixes : List JStr
  ambiguous : List JStr
  violations : List Violation
  deriving DecidableEq

/-- The move decision of `processFile` (lines 1404–1437 of `src/cli.mjs`):
the `movedTo` value, updated fixes and ambiguity notes, and the filesystem
moves performed (only in write-enabled fix mode). -/
def moveDecision (mode : JStr) (write targetExists hadTypeAtStart : Bool)
    (currentFolder targetDirRel currentDirRel relPath targetRelPath vault file : JStr)
    (fixes ambiguous : List JStr) :
    Option JStr × List JStr × List JStr × List FsEffect :=
  if !(targetRelPath = relPath) then
    let targetPath := vault ++ '/' :: targetRelPath
    if mode = lit "fix" && write then
      if targetExists then
        ((none : Option JStr), fixes,
         ambiguous ++ [lit "Move conflict: " ++ targetRelPath], ([] : List FsEffect))
      else
        let msg :=
          if !hadTypeAtStart && !currentFolder.isEmpty then
            lit "moved file without type to root '" ++ targetRelPath ++ [apc]
          else if !(targetDirRel = currentDirRel) then
            lit "moved file to '" ++ targetRelPath ++ lit "' based on schema folder"
          else lit "renamed file to '" ++ targetRelPath ++ [apc]
        (some targetPath, fixes ++ [msg], ambiguous,
         [FsEffect.mkdirp (posixDirname targetPath), FsEffect.rename file targetPath])
    else
      let msg :=
        if !hadTypeAtStart && !currentFolder.isEmpty then
          lit "would move file without type to root '" ++ targetRelPath ++ [apc]
        else if !(targetDirRel = currentDirRel) then
          lit "would move file to '" ++ targetRelPath ++ lit "' based on schema folder"
        else lit "would rename file to '" ++ targetRelPath ++ [apc]
      (none, fixes ++ [msg], ambiguous, [])
  else (none, fixes, ambiguous, [])

/-- The content rewrite of `processFile` (lines 1440–1443): a single file
write, only in write-enabled fix mode and only when the frontmatter
changed. -/
def writeEffectsFor (mode : JStr) (changed write : Bool) (path text : JStr) :
    List FsEffect :=
  if mode = lit "fix" && changed && write then [FsEffect.write path text] else []

/-- `processFile` of `src/cli.mjs` (lines 1328–1449) as a pure function:
the source reads the file and derives the vault-relative path, so the model
takes the raw text and the relative path (the absolute path being
`vault ++ "/" ++ relPath`) together with a `targetExists` oracle standing
for the `fs.access` probe of the move destination. It returns the report
entry and the list of file-store mutations the call performs. -/
def processFileModel (vault relPath raw : JStr) (schemas : List Schema)
    (mode : JStr) (write : Bool) (targetExists : Bool) :
    FileReport × List FsEffect :=
  let file := vault ++ '/' :: relPath
  let parsed := parseMarkdownWithFrontmatter raw
  let dir := posixDirname relPath
  let currentFolder := if dir = lit "." then [] else dir.takeWhile (fun c => !(c = '/'))
  let hadTypeAtStart := !(normalizeStringO (objGet parsed.frontmatter (lit "type"))).isEmpty
  let working := parsed.frontmatter
  let fixes : List JStr := []
  let ambiguous : List JStr := []
  -- fix_notes -> schema_notes migration
  let (working, fixes) :=
    if objHas working (lit "fix_notes") then
      let (working, fixes) :=
        if !objHas working (lit "schema_notes") then
          (objSet working (lit "schema_notes") ((objGet working (lit "fix_notes")).getD .jnull),
           fixes ++ [lit "migrated 'fix_notes' -> 'schema_notes'"])
        else (working, fixes)
      (objDelete working (lit "fix_notes"), fixes)
    else (working, fixes)
  -- deprecated needs_review removal
  let (working, fixes) :=
    if objHas working (lit "needs_review") then
      (objDelete working (lit "needs_review"), fixes ++ [lit "removed deprecated 'needs_review'"])
    else (working, fixes)
  let (working, fixes) := applyBroadAutofix relPath file working fixes
  let matchInfo := pickSchemasForFile relPath working schemas
  let typeSchema := matchInfo.typeSchema
  let (working, fixes, violations) :=
    match typeSchema with
    | some schema =>
      let (working, fixes) := applySchemaAutofix schema working fixes
      (working, fixes, validateAgainstSchema schema working)
    | none =>
      (working, fixes,
       [(⟨lit "schema/not-found", none, lit "No schema matched note " ++ relPath⟩ : Violation)])
  -- schema_notes maintenance
  let (working, fixes) :=
    if !ambiguous.isEmpty then (ensureSchemaNotes working ambiguous, fixes)
    else if objHas working (lit "schema_notes") then
      (objDelete working (lit "schema_notes"), fixes ++ [lit "cleared stale 'schema_notes'"])
    else (working, fixes)
  let changed := !(working = parsed.frontmatter)
  let (desiredBaseName, fixes) :=
    getDesiredDatedBaseName typeSchema working (pathBasenameRaw file) fixes
  let currentDirRel := if dir = lit "." then [] else dir
  let status := normalizeStringO (objGet working (lit "status"))
  let targetDirRel :=
    computeTargetDirRel currentDirRel currentFolder hadTypeAtStart status typeSchema matchInfo
  let targetRelPath :=
    if targetDirRel.isEmpty then desiredBaseName else targetDirRel ++ '/' :: desiredBaseName
  let md := moveDecision mode write targetExists hadTypeAtStart currentFolder
    targetDirRel currentDirRel relPath targetRelPath vault file fixes ambiguous
  let movedTo := md.1
  let fixes := md.2.1
  let ambiguous := md.2.2.1
  let moveEffects := md.2.2.2
  let writeEffects :=
    writeEffectsFor mode changed write (movedTo.getD file)
      (serializeMarkdown parsed.body working)
  let schemaTags := (match typeSchema with
    | some s => [s.discriminator ++ ':' :: s.id]
    | none => [])
  (⟨movedTo.getD file, relPath, schemaTags, movedTo, changed, fixes, ambiguous, violations⟩,
   moveEffects ++ writeEffects)

/-- The capture of `/^\[\[([^\]]+)\]\]$/`. -/
def wikiTargetCapture (s : JStr) : Option JStr :=
  match s with
  | '[' :: '[' :: rest =>
    let mid := rest.takeWhile (fun c => !(c = ']'))
    if !mid.isEmpty && rest.drop mid.length = [']', ']'] then some mid else none
  | _ => none

/-- `parseWikiLinkTarget` of `src/cli.mjs` (lines 1685–1692). -/
def parseWikiLinkTarget (s : JStr) : Option JStr :=
  match wikiTargetCapture (jsTrim s) with
  | some mid =>
    let base := jsTrim ((mid.takeWhile (fun c => !(c = '|'))).takeWhile (fun c => !(c = '#')))
    if base.isEmpty then none else some base
  | none => none

/-- `normalizeWikiLinkValue` of `src/cli.mjs` (lines 1673–1683). -/
def normalizeWikiLinkValue (value : Option JVal) : Option JStr :=
  match value with
  | none => none
  | some .jnull => none
  | some v =>
    let raw := jsTrim (jsToString v)
    if raw.isEmpty then none
    else if isWikiLink raw then
      match parseWikiLinkTarget raw with
      | some t => some (lit "[[" ++ t ++ lit "]]")
      | none => none
    else
      let cleaned := jsTrim (stripWikiBrackets raw)
      if cleaned.isEmpty then none else some (lit "[[" ++ cleaned ++ lit "]]")

/-- `extractLinkTargets` of `src/cli.mjs` (lines 1665–1671). -/
def extractLinkTargets (fieldValue : Option JVal) : List JStr :=
  match fieldValue with
  | some (.jarr xs) => xs.filterMap (fun item => normalizeWikiLinkValue (some item))
  | v =>
    match normalizeWikiLinkValue v with
    | some one => [one]
    | none => []

/-- `fieldContainerKind` of `src/cli.mjs` (lines 1609–1616). -/
def fieldContainerKind (prop : Option PropDef) (currentValue : Option JVal) : JStr :=
  match prop with
  | some p =>
    if p.ptype = some (lit "array") then lit "array"
    else if p.ptype = some (lit "string") then lit "scalar"
    else fieldContainerKindValue currentValue
  | none => fieldContainerKindValue currentValue
where
  /-- The runtime-value fallback of `fieldContainerKind`. -/
  fieldContainerKindValue : Option JVal → JStr
    | some (.jarr _) => lit "array"
    | some (.jstr s) => if !(jsTrim s).isEmpty then lit "scalar" else lit "unknown"
    | _ => lit "unknown"

/-- The result of `addInverseLink`: the (possibly updated) target property
block, the `ok`/`changed` flags, and the violation rule/message on
failure. -/
structure AddInverseResult where
  frontmatter : Fm
  ok : Bool
  changed : Bool
  rule : JStr
  message : JStr
  deriving DecidableEq

/-- `addInverseLink` of `src/cli.mjs` (lines 1618–1663). -/
def addInverseLink (frontmatter : Fm) (field link : JStr) (containerKind : JStr) :
    AddInverseResult :=
  if containerKind = lit "unknown" then
    ⟨frontmatter, false, false, lit "backlink/unknown-field",
     lit "Cannot infer container type for inverse field '" ++ field ++ [apc]⟩
  else if containerKind = lit "array" then
    let current : List JVal :=
      match objGet frontmatter field with
      | some (.jarr xs) => xs
      | v => (extractLinkTargets v).map .jstr
    let links := current.filterMap (fun item => normalizeWikiLinkValue (some item))
    let existing := links.map (fun item => normalizeStr ((parseWikiLinkTarget item).getD item))
    let key := normalizeStr ((parseWikiLinkTarget link).getD link)
    if !existing.contains key then
      ⟨objSet frontmatter field (.jarr ((links ++ [link]).map .jstr)), true, true, [], []⟩
    else if !(match objGet frontmatter field with | some (.jarr _) => true | _ => false) then
      ⟨objSet frontmatter field (.jarr (links.map .jstr)), true, true, [], []⟩
    else ⟨frontmatter, true, false, [], []⟩
  else
    match normalizeWikiLinkValue (objGet frontmatter field) with
    | none => ⟨objSet frontmatter field (.jstr link), true, true, [], []⟩
    | some existing =>
      let existingTarget := normalizeStr ((parseWikiLinkTarget existing).getD existing)
      let wantedTarget := normalizeStr ((parseWikiLinkTarget link).getD link)
      if existingTarget = wantedTarget then
        if !(objGet frontmatter field = some (.jstr existing)) then
          ⟨objSet frontmatter field (.jstr existing), true, true, [], []⟩
        else ⟨frontmatter, true, false, [], []⟩
      else
        ⟨frontmatter, false, false, lit "backlink/scalar-conflict",
         lit "Scalar inverse field '" ++ field ++ lit "' already points to '" ++ existing ++ [apc]⟩

/-- `buildTypeSchemaIndex` of `src/cli.mjs` (lines 1698–1707): normalized
id to schema, first occurrence winning. -/
def buildTypeSchemaIndex (schemas : List Schema) : List (JStr × Schema) :=
  schemas.foldl (fun idx s =>
    if !(normalizeStr s.discriminator = lit "type") then idx
    else
      let id := normalizeStr s.id
      if id.isEmpty || (assocGet idx id).isSome then idx
      else idx ++ [(id, s)]) []

/-- Membership in an index follows from a successful lookup. -/
theorem assocGet_mem_keys {α : Type} (l : List (JStr × α)) (k : JStr) (v : α)
    (h : assocGet l k = some v) : k ∈ l.map Prod.fst := by
  induction l with
  | nil => simp [assocGet] at h
  | cons e rest ih =>
    rw [assocGet] at h
    by_cases he : e.1 = k
    · exact he ▸ List.mem_cons_self _ _
    · simp only [he, if_false] at h
      exact List.mem_cons_of_mem _ (ih h)

/-- `normalizeString(schema?.extends)`. -/
def normalizeExt : Option JStr → JStr
  | some e => normalizeStr e
  | none => []

/-- `typeMatchesOrExtends` of `src/cli.mjs` (lines 1716–1727): walk the
`extends` chain of the type-schema index until the wanted type is hit, the
chain ends, or a type repeats. The `seen` set makes the walk well-founded:
every recursive step consumes a fresh key of the index. -/
def typeMatchesOrExtends (schemaIndex : List (JStr × Schema))
    (seen : List JStr) (current wanted : JStr) : Bool :=
  if current.isEmpty ∨ current ∈ seen then false
  else if current = wanted then true
  else
    match h : assocGet schemaIndex current with
    | none => false
    | some schema =>
      have hmem : current ∈ schemaIndex.map Prod.fst := assocGet_mem_keys _ _ _ h
      typeMatchesOrExtends schemaIndex (current :: seen) (normalizeExt schema.extendsId) wanted
termination_by ((schemaIndex.map Prod.fst).toFinset.filter (fun k => k ∉ seen)).card
decreasing_by
  apply Finset.card_lt_card
  constructor
  · intro x hx
    simp only [Finset.mem_filter, List.mem_toFinset] at hx ⊢
    refine ⟨hx.1, ?_⟩
    intro hc
    exact hx.2 (by simp [hc])
  · intro hsub
    have hc : current ∈ (schemaIndex.map Prod.fst).toFinset.filter (fun k => k ∉ seen) := by
      simp only [Finset.mem_filter, List.mem_toFinset]
      exact ⟨hmem, by tauto⟩
    have := hsub hc
    simp only [Finset.mem_filter] at this
    exact this.2 (by simp)

/-- `noteMatchesTargetType`'s type read: the matched schema's id when
truthy, else the document's `type` value. -/
def noteDirectType (schema : Option Schema) (frontmatter : Fm) : JStr :=
  match schema with
  | some s =>
    if s.id.isEmpty then normalizeStringO (objGet frontmatter (lit "type"))
    else normalizeStr s.id
  | none => normalizeStringO (objGet frontmatter (lit "type"))

/-- `noteMatchesTargetType` of `src/cli.mjs` (lines 1709–1714). -/
def noteMatchesTargetType (schema : Option Schema) (frontmatter : Fm)
    (targetType : JStr) (schemaIndex : List (JStr × Schema)) : Bool :=
  let wanted := normalizeStr targetType
  if wanted.isEmpty then true
  else typeMatchesOrExtends schemaIndex [] (noteDirectType schema frontmatter) wanted

/-- An in-memory note of the bidirectional link pass. -/
structure LinkNote where
  file : JStr
  relPath : JStr
  body : JStr
  hasFrontmatter : Bool
  frontmatter : Fm
  schema : Option Schema
  changed : Bool

/-- The shared state the link pass threads: the notes array, the report
entries, and the `(target, field, source-title)` combinations already
applied. -/
structure LinkState where
  notes : List LinkNote
  reports : List FileReport
  linkOpsSeen : List JStr

/-- The index of `reportsByFile.get(file)`: the map is built by iterating
`set` over the report entries, so the last entry with the file wins. -/
def lastIdxByFile (reports : List FileReport) (file : JStr) : Option Nat :=
  match reports.reverse.findIdx? (fun r => r.file = file) with
  | some i => some (reports.length - 1 - i)
  | none => none

/-- Push a violation onto the report entry at an index. -/
def pushViolation (reports : List FileReport) (i : Nat) (v : Violation) :
    List FileReport :=
  match reports.get? i with
  | some r => reports.set i {r with violations := r.violations ++ [v]}
  | none => reports

/-- Push a fix message onto the report entry at an index. -/
def pushFix (reports : List FileReport) (i : Nat) (msg : JStr) : List FileReport :=
  match reports.get? i with
  | some r => reports.set i {r with fixes := r.fixes ++ [msg]}
  | none => reports

/-- `${target.frontmatter.type || ''}` of the type-mismatch message. -/
def typeValueStr (fm : Fm) : JStr :=
  if jsFalsy (objGet fm (lit "type")) then []
  else jsToString ((objGet fm (lit "type")).getD .jnull)

/-- One outbound link of `applyBacklinkDirection` (lines 1545–1606 of
`src/cli.mjs`): resolve the link target by title and reconcile the inverse
field on the target note. -/
def processOneLink (schemaIndex : List (JStr × Schema))
    (titleMap : List (JStr × List Nat)) (srcFile sourceField : JStr)
    (targetType : Option JStr) (targetField descriptor : JStr) (repIdx : Nat)
    (st : LinkState) (outboundLink : JStr) : LinkState :=
  match parseWikiLinkTarget outboundLink with
  | none => st
  | some targetTitle =>
    let key := normalizeStr targetTitle
    let cands := (assocGet titleMap key).getD []
    match cands with
    | [] =>
      let v : Violation := ⟨lit "backlink/unresolved", some sourceField,
        lit "Unresolved backlink target '" ++ targetTitle ++ lit "' from '" ++
          sourceField ++ lit "' (" ++ descriptor ++ [')']⟩
      {st with reports := pushViolation st.reports repIdx v}
    | [t] =>
      match st.notes.get? t with
      | none => st
      | some target =>
        let typeOk :=
          match targetType with
          | some tt =>
            if tt.isEmpty then true
            else noteMatchesTargetType target.schema target.frontmatter tt schemaIndex
          | none => true
        if !typeOk then
          let v : Violation := ⟨lit "backlink/type-mismatch", some sourceField,
            lit "Backlink target '" ++ targetTitle ++ lit "' type '" ++
              typeValueStr target.frontmatter ++ lit "' does not match '" ++
              (targetType.getD []) ++ lit "' (" ++ descriptor ++ [')']⟩
          {st with reports := pushViolation st.reports repIdx v}
        else
          let sourceTitle := jsTrim (basenameMd srcFile)
          let sourceLink := lit "[[" ++ sourceTitle ++ lit "]]"
          let opKey := target.file ++ lit "::" ++ targetField ++ lit "::" ++
            normalizeStr sourceTitle
          if st.linkOpsSeen.contains opKey then st
          else
            let st := {st with linkOpsSeen := st.linkOpsSeen ++ [opKey]}
            let prop := match target.schema with
              | some s => assocGet s.properties targetField
              | none => none
            let containerKind :=
              fieldContainerKind prop (objGet target.frontmatter targetField)
            let added := addInverseLink target.frontmatter targetField sourceLink containerKind
            if !added.ok then
              let v : Violation := ⟨added.rule, some targetField,
                added.message ++ lit " (" ++ descriptor ++ [')']⟩
              {st with reports := pushViolation st.reports repIdx v}
            else
              let newChanged := target.changed || added.changed
              let newTarget :=
                {target with frontmatter := added.frontmatter, changed := newChanged}
              let st := {st with notes := st.notes.set t newTarget}
              if added.changed then
                match lastIdxByFile st.reports target.file with
                | some ti =>
                  let msg := lit "synced inverse '" ++ targetField ++ lit "' from [[" ++
                    basenameMd srcFile ++ lit "]] via '" ++ descriptor ++ [apc]
                  {st with reports := pushFix st.reports ti msg}
                | none => st
              else st
    | _ :: _ :: _ =>
      let v : Violation := ⟨lit "backlink/ambiguous", some sourceField,
        lit "Ambiguous backlink target '" ++ targetTitle ++ lit "' from '" ++
          sourceField ++ lit "' (" ++ descriptor ++ [')']⟩
      {st with reports := pushViolation st.reports repIdx v}

/-- `applyBacklinkDirection` of `src/cli.mjs` (lines 1531–1607) for one
source note (by index) and one pair rule. -/
def applyBacklinkDirection (schemaIndex : List (JStr × Schema))
    (titleMap : List (JStr × List Nat)) (srcIdx : Nat) (rule : PairRule)
    (st : LinkState) : LinkState :=
  match st.notes.get? srcIdx with
  | none => st
  | some source =>
    match lastIdxByFile st.reports source.file with
    | none => st
    | some repIdx =>
      let outboundLinks := extractLinkTargets (objGet source.frontmatter rule.sourceField)
      outboundLinks.foldl
        (processOneLink schemaIndex titleMap source.file rule.sourceField
          rule.targetType rule.targetField
          (if rule.descriptor.isEmpty then lit "pair." ++ rule.sourceField
           else rule.descriptor) repIdx)
        st

/-- The title map of the link pass (lines 1487–1494): normalized note title
to the indices of the notes carrying it, in note order. -/
def buildTitleMap (notes : List LinkNote) : List (JStr × List Nat) :=
  (notes.enum.foldl (fun m p =>
    let title := jsTrim (basenameMd p.2.file)
    let key := normalizeStr title
    if key.isEmpty then m
    else
      match assocGet m key with
      | some l => assocSet m key (l ++ [p.1])
      | none => m ++ [(key, [p.1])]) [])

/-- Phase 1 of `applyBidirectionalLinkPass` (lines 1459–1485): read every
report's file and build the in-memory notes; a failed read records a
violation on that report entry and skips the note. The model receives the
read results as an optional content per report entry. -/
def buildLinkNotes (vault : JStr) (schemas : List Schema)
    (reports : List FileReport) (contents : List (Option JStr)) :
    List FileReport × List LinkNote :=
  ((reports.zip contents).foldl (fun acc p =>
    let (reports, notes) := acc
    let (item, content) := p
    match content with
    | none =>
      let reports :=
        match lastIdxByFile reports item.file with
        | some i =>
          pushViolation reports i
            ⟨lit "backlink/read-failed", none,
             lit "Failed to read '" ++
               (if startsWithL item.file (vault ++ ['/']) then
                 item.file.drop (vault.length + 1) else item.file) ++
               lit "': read error"⟩
        | none => reports
      (reports, notes)
    | some raw =>
      let parsed := parseMarkdownWithFrontmatter raw
      let relPath :=
        if startsWithL item.file (vault ++ ['/']) then item.file.drop (vault.length + 1)
        else item.file
      let matchInfo := pickSchemasForFile relPath parsed.frontmatter schemas
      (reports, notes ++
        [⟨item.file, relPath, parsed.body, parsed.hasFrontmatter,
          parsed.frontmatter, matchInfo.typeSchema, false⟩])) (reports, []))

/-- The file writes of `applyBidirectionalLinkPass` (lines 1516–1522):
each changed note is rewritten, only in write-enabled fix mode. -/
def linkWriteEffects (mode : JStr) (write : Bool) (notes : List LinkNote) :
    List FsEffect :=
  if mode = lit "fix" && write then
    notes.filterMap (fun note =>
      if note.changed then
        some (FsEffect.write note.file (serializeMarkdown note.body note.frontmatter))
      else none)
  else []

/-- `applyBidirectionalLinkPass` of `src/cli.mjs` (lines 1451–1529) as a
pure function: the reconciled reports and notes, and the list of file
writes performed (only in write-enabled fix mode). The violation message
for a failed read abbreviates the I/O error text. -/
def applyBidirectionalLinkPass (vault : JStr) (schemas : List Schema)
    (reports : List FileReport) (contents : List (Option JStr))
    (mode : JStr) (write : Bool) :
    List FileReport × List LinkNote × List FsEffect :=
  let schemaIndex := buildTypeSchemaIndex schemas
  let (reports1, notes) := buildLinkNotes vault schemas reports contents
  let titleMap := buildTitleMap notes
  let st0 : LinkState := ⟨notes, reports1, []⟩
  let stFinal := (List.range notes.length).foldl (fun st i =>
    match st.notes.get? i with
    | none => st
    | some source =>
      match source.schema with
      | none => st
      | some schema =>
        schema.pairRules.foldl (fun st rule =>
          applyBacklinkDirection schemaIndex titleMap i rule st) st) st0
  let effects := linkWriteEffects mode write stFinal.notes
  let reportsOut := stFinal.notes.foldl (fun reports note =>
    if note.changed then
      match lastIdxByFile reports note.file with
      | some i =>
        match reports.get? i with
        | some r => reports.set i {r with changed := true}
        | none => reports
      | none => reports
    else reports) stFinal.reports
  (reportsOut, stFinal.notes, effects)

def fillVal (schema : Schema) (key : JStr) : JVal :=
  match assocGet schema.properties key with
  | some p =>
    match p.defaultVal with
    | some d => d
    | none => blankValueForProperty (some p)
  | none => blankValueForProperty none

def c3schema : Schema :=
  ⟨lit "meeting", lit "type", none, none, none, none, [lit "date"],
   [(lit "date", ⟨some (lit "string"), none, none, none⟩)], [], [], []⟩

def c2schema : Schema :=
  ⟨lit "meeting", lit "type", none, none, none, none, [lit "x"],
   [(lit "x", ⟨some (lit "string"), none, some (.jstr []), none⟩)], [], [], []⟩

def c7a : Schema :=
  ⟨lit "a", lit "type", some (lit "b"), none, some (lit "F"), none, [lit "x"],
   [(lit "x", ⟨some (lit "string"), none, none, none⟩)], [], [], []⟩

def c7b : Schema :=
  ⟨lit "b", lit "type", some (lit "a"), none, none, none, [lit "y"],
   [(lit "y", ⟨some (lit "string"), none, none, none⟩)], [], [], []⟩

/-- Characters that never occur in a safe scalar string: line breaks (which
would break the line structure) and the double quote (which `parseScalar`
does not unescape). -/
def safeChar (c : Char) : Bool :=
  !(c = '\n') && !(c = '\r') && !(c = qc)

/-- A string value that survives the serialize/parse round trip. -/
def safeStr (s : JStr) : Bool :=
  s.all safeChar &&
  !(s = lit "true") && !(s = lit "false") && !(s = lit "null") && !(s = ['~']) &&
  !numberLit s &&
  !(startsWithL s [apc] && endsWithL s [apc]) &&
  (!(startsWithL s ['['] && endsWithL s [']']) || wikiRe s)

/-- An array element that survives the round trip: booleans, `null`,
canonical numbers, and safe strings. -/
def safeItem : JVal → Bool
  | .jnull => true
  | .jbool _ => true
  | .jnum s => numberLit s && decide (canonNum s = s)
  | .jstr s => safeStr s
  | _ => false

/-- A top-level property value of the scalar grammar: a safe scalar or an
array of safe scalars. -/
def safeVal : JVal → Bool
  | .jarr xs => xs.all safeItem
  | v => safeItem v

/-- A property key the serializer and parser treat verbatim. -/
def safeKey (k : JStr) : Bool :=
  !k.isEmpty && decide (jsTrim k = k) &&
  k.all (fun c => !(c = '\n') && !(c = '\r') && !(c = ':')) &&
  !startsWithL k ['#'] && !startsWithL k (lit "- ")

/-- The safe domain of the round-trip theorem: distinct safe keys mapped to
safe scalar-grammar values. -/
def safeFm (fm : Fm) : Bool :=
  decide ((fm.map Prod.fst).Nodup) && fm.all (fun e => safeKey e.1 && safeVal e.2)

/-- Lines free of break characters. -/
def cleanLine (l : JStr) : Bool := l.all (fun c => !(c = '\n') && !(c = '\r'))

/-- Characters of a decimal number literal. -/
def numChar (c : Char) : Bool := c.isDigit || c = '-' || c = '.'

def c1cex : Fm := [(lit "k", .jstr (lit "a" ++ qc :: lit "b"))]

def c1wit : Fm :=
  [(lit "title", .jstr (lit "hello world")), (lit "count", .jnum (lit "42")),
   (lit "tags", .jarr [.jstr (lit "alpha"), .jstr (lit "beta")]),
   (lit "done", .jbool true), (lit "note", .jnull), (lit "items", .jarr [])]

/-- The frontmatter of a minimal schema note declaring only `type: meeting`
(no `*` suffix anywhere). -/
def c10fm : Fm := [(lit "type", .jstr (lit "meeting"))]

/-- The record `parseNativeMarkdownSchema` produces for `c10fm`. -/
def c10schema : Schema :=
  ⟨lit "meeting", lit "type", none, none, none, some false, [lit "type"],
   [(lit "type", ⟨some (lit "string"), none, none, none⟩)], [], [], []⟩

/-- A minimal schema declaring `prependDateToTitle`. -/
def c5schema : Schema :=
  ⟨lit "meeting", lit "type", none, none, none, some true, [], [], [], [], []⟩

/-- A `meeting` schema burdened with an unsatisfiable `match` constraint. -/
def c6meeting : Schema :=
  ⟨lit "meeting", lit "type", none, none, none, none, [], [], [], [],
   [(lit "x", .jstr (lit "1"))]⟩

/-- A `project` schema claiming the `Projects` folder. -/
def c6project : Schema :=
  ⟨lit "project", lit "type", none, none, some (lit "Projects"), none,
   [], [], [], [], []⟩

/-- The `meeting` schema without extra `match` constraints. -/
def c6meetingPlain : Schema :=
  ⟨lit "meeting", lit "type", none, none, none, none, [], [], [], [], []⟩

/-! Claim theorems. -/

/-- The finishing stage always puts `type` among the required fields of a
schema whose discriminator is `type` (line 1088–1090 of `src/cli.mjs`). -/
theorem finish_type_required (fm : Fm) (sch : Schema) (defs : List (JStr × JVal)) (s : Schema)
    (h : nativeSchemaFinish fm sch defs = some s)
    (hd : s.discriminator = lit "type") : lit "type" ∈ s.required := by
  simp only [nativeSchemaFinish] at h
  generalize idFallback fm _ = s2 at h
  repeat' split at h
  any_goals exact Option.noConfusion h
  all_goals
    (have hs := Option.some.inj h
     subst hs
     dsimp only at hd ⊢)
  any_goals exact List.mem_append_right _ (List.mem_singleton_self _)
  all_goals
    (next hc _ =>
      simp only [Bool.and_eq_true, Bool.not_eq_true, decide_eq_true_eq, not_and] at hc
      first
      | simpa using hc hd
      | simpa using hc trivial)

/-- C10: every schema parsed from the native property-block form whose
discriminator is `type` has `type` in its required field set, whether or
not the schema author marked the `type` field with the `*` suffix. -/
theorem c10_native_type_always_required (fm : Fm) (s : Schema)
    (h : parseNativeMarkdownSchema fm = some s)
    (hd : s.discriminator = lit "type") : lit "type" ∈ s.required := by
  simp only [parseNativeMarkdownSchema] at h
  exact finish_type_required fm _ _ s h hd

/-- Witness for C10: the minimal schema note parses and carries `type` in
its required set. -/
theorem c10_witness :
    parseNativeMarkdownSchema c10fm = some c10schema ∧
    lit "type" ∈ c10schema.required :=
  ⟨by decide, c10_native_type_always_required c10fm c10schema (by decide) (by decide)⟩

/-- C8: whenever the post-autofix status value is in the terminal set
(`done`, `superseded`, `cancelled`), the relocation decision of
`processFile` picks the fixed `Archive` folder, regardless of the current
directory, the had-type history, the matched schema and its canonical
folder, and every other relocation rule. -/
theorem c8_terminal_status_archives (currentDirRel currentFolder : JStr)
    (hadTypeAtStart : Bool) (status : JStr) (typeSchema : Option Schema)
    (matchInfo : MatchInfo) (h : status ∈ TERMINAL_STATUSES) :
    computeTargetDirRel currentDirRel currentFolder hadTypeAtStart status
      typeSchema matchInfo = lit "Archive" := by
  unfold computeTargetDirRel
  rw [if_pos]
  simpa using h

/-- Witness for C8: a `done` document in `Projects`, matched to a schema
whose canonical folder is `Projects`, still relocates to `Archive`. -/
theorem c8_witness :
    lit "done" ∈ TERMINAL_STATUSES ∧
    computeTargetDirRel (lit "Projects") (lit "Projects") true (lit "done")
      (some ⟨lit "project", lit "type", none, none, some (lit "Projects"), none,
        [], [], [], [], []⟩)
      ⟨some ⟨lit "project", lit "type", none, none, some (lit "Projects"), none,
        [], [], [], [], []⟩, false, some (lit "Projects")⟩ = lit "Archive" :=
  ⟨by decide, c8_terminal_status_archives _ _ _ _ _ _ (by decide)⟩

/-- Setting a key makes it readable back. -/
theorem objGet_objSet_self (fm : Fm) (k : JStr) (v : JVal) :
    objGet (objSet fm k v) k = some v := by
  induction fm with
  | nil => simp [objSet, objGet]
  | cons e rest ih =>
    obtain ⟨k1, v1⟩ := e
    by_cases he : k1 = k
    · simp [objSet, objGet, he]
    · simp [objSet, objGet, he, ih]

/-- C9: for a scalar-shaped inverse field, the reconciler sets an empty
field to the source wikilink; a field already naming the same normalized
title keeps pointing there (at most reformatted to the normalized link);
and a field naming a different title yields a `backlink/scalar-conflict`
result with the property block left untouched. -/
theorem c9_scalar_inverse_field (fm : Fm) (field link : JStr) :
    (normalizeWikiLinkValue (objGet fm field) = none →
      addInverseLink fm field link (lit "scalar") =
        ⟨objSet fm field (.jstr link), true, true, [], []⟩) ∧
    (∀ existing, normalizeWikiLinkValue (objGet fm field) = some existing →
      normalizeStr ((parseWikiLinkTarget existing).getD existing) =
        normalizeStr ((parseWikiLinkTarget link).getD link) →
      (addInverseLink fm field link (lit "scalar")).ok = true ∧
      objGet (addInverseLink fm field link (lit "scalar")).frontmatter field =
        some (.jstr existing)) ∧
    (∀ existing, normalizeWikiLinkValue (objGet fm field) = some existing →
      ¬(normalizeStr ((parseWikiLinkTarget existing).getD existing) =
        normalizeStr ((parseWikiLinkTarget link).getD link)) →
      addInverseLink fm field link (lit "scalar") =
        ⟨fm, false, false, lit "backlink/scalar-conflict",
         lit "Scalar inverse field '" ++ field ++ lit "' already points to '" ++
           existing ++ [apc]⟩) := by
  unfold addInverseLink
  rw [if_neg (by decide), if_neg (by decide)]
  refine ⟨?_, ?_, ?_⟩
  · intro h
    rw [h]
  · intro existing h htgt
    rw [h]
    dsimp only
    rw [if_pos htgt]
    by_cases hsame : objGet fm field = some (.jstr existing)
    · rw [if_neg (by simpa using hsame)]
      exact ⟨rfl, by rw [hsame]⟩
    · rw [if_pos (by simpa using hsame)]
      exact ⟨rfl, objGet_objSet_self _ _ _⟩
  · intro existing h htgt
    rw [h]
    dsimp only
    rw [if_neg htgt]

/-- Witness for C9: a scalar `proj` field pointing at `[[Y]]` conflicts
with an incoming `[[X]]` link and is not overwritten. -/
theorem c9_witness :
    addInverseLink [(lit "proj", .jstr (lit "[[Y]]"))] (lit "proj") (lit "[[X]]")
      (lit "scalar") =
      ⟨[(lit "proj", .jstr (lit "[[Y]]"))], false, false,
       lit "backlink/scalar-conflict",
       lit "Scalar inverse field '" ++ lit "proj" ++ lit "' already points to '" ++
         lit "[[Y]]" ++ [apc]⟩ :=
  (c9_scalar_inverse_field [(lit "proj", .jstr (lit "[[Y]]"))] (lit "proj")
    (lit "[[X]]")).2.2 (lit "[[Y]]") (by decide) (by decide)

/-- Counterexample to C5 as stated: the property date is `2024-01-01` and
the filename `2023-05-05 Standup.md` does not start with that exact date
token, yet the name is left unchanged — the source only checks whether the
stem starts with *some* `YYYY-MM-DD` token. -/
theorem c5_counterexample :
    (getDesiredDatedBaseName (some c5schema)
        [(lit "date", .jstr (lit "2024-01-01"))]
        (lit "2023-05-05 Standup.md") []).1 = lit "2023-05-05 Standup.md" ∧
    normalizeDateToken (some (.jstr (lit "2024-01-01"))) = some (lit "2024-01-01") ∧
    startsWithL (lit "2023-05-05 Standup.md") (lit "2024-01-01") = false := by
  decide

/-- C5 (amended): when the matched schema declares `prependDateToTitle` and
the property block carries a date with a leading `YYYY-MM-DD` token, the
date is prepended to the filename if and only if the filename's stem does
not already begin with some `YYYY-MM-DD` token (any date, not necessarily
the property's own); otherwise the name is unchanged. -/
theorem c5_prepend_iff_no_leading_date (schema : Schema) (fm : Fm)
    (currentBaseName : JStr) (fixes : List JStr) (d : JStr)
    (hp : schema.prependDateToTitle = some true)
    (hd : normalizeDateToken (objGet fm (lit "date")) = some d) :
    (hasLeadingDateB (basenameMd currentBaseName) = true →
      getDesiredDatedBaseName (some schema) fm currentBaseName fixes =
        (currentBaseName, fixes)) ∧
    (hasLeadingDateB (basenameMd currentBaseName) = false →
      getDesiredDatedBaseName (some schema) fm currentBaseName fixes =
        (d ++ ' ' :: basenameMd currentBaseName ++ lit ".md",
         fixes ++ [lit "prepended date to title '" ++ d ++ lit " '"])) := by
  unfold getDesiredDatedBaseName
  simp only [hp, hd]
  rw [if_neg (by decide)]
  constructor <;> intro hlead <;> simp [hlead]

/-- Witness for C5 (amended): `Standup.md` with date `2024-01-01` becomes
`2024-01-01 Standup.md`. -/
theorem c5_witness :
    hasLeadingDateB (basenameMd (lit "Standup.md")) = false ∧
    getDesiredDatedBaseName (some c5schema)
      [(lit "date", .jstr (lit "2024-01-01"))] (lit "Standup.md") [] =
      (lit "2024-01-01" ++ ' ' :: basenameMd (lit "Standup.md") ++ lit ".md",
       [] ++ [lit "prepended date to title '" ++ lit "2024-01-01" ++ lit " '"]) :=
  ⟨by decide,
   (c5_prepend_iff_no_leading_date c5schema [(lit "date", .jstr (lit "2024-01-01"))]
     (lit "Standup.md") [] (lit "2024-01-01") (by decide) (by decide)).2 (by decide)⟩

/-- Inserting keeps exactly the elements. -/
theorem mem_insertCand (x c : MatchCand) (l : List MatchCand) :
    x ∈ insertCand c l ↔ x = c ∨ x ∈ l := by
  induction l with
  | nil => simp [insertCand]
  | cons y ys ih =>
    rw [insertCand]
    by_cases hle : candRank y ≤ candRank c
    · rw [if_pos hle]
      simp only [List.mem_cons, ih]
      tauto
    · rw [if_neg hle]
      simp only [List.mem_cons]

/-- The stable sort keeps exactly the candidates. -/
theorem mem_sortCands (x : MatchCand) (l : List MatchCand) :
    x ∈ sortCands l ↔ x ∈ l := by
  induction l with
  | nil => simp [sortCands]
  | cons y ys ih =>
    rw [sortCands, mem_insertCand]
    simp [ih]

/-- Insertion preserves sortedness by rank. -/
theorem pairwise_insertCand (c : MatchCand) (l : List MatchCand)
    (h : l.Pairwise (fun a b => candRank a ≤ candRank b)) :
    (insertCand c l).Pairwise (fun a b => candRank a ≤ candRank b) := by
  induction l with
  | nil => simp [insertCand]
  | cons y ys ih =>
    rw [insertCand]
    rw [List.pairwise_cons] at h
    by_cases hle : candRank y ≤ candRank c
    · rw [if_pos hle]
      refine List.pairwise_cons.mpr ⟨?_, ih h.2⟩
      intro z hz
      rw [mem_insertCand] at hz
      rcases hz with rfl | hz
      · exact hle
      · exact h.1 z hz
    · rw [if_neg hle]
      refine List.pairwise_cons.mpr ⟨?_, List.pairwise_cons.mpr h⟩
      intro z hz
      rcases List.mem_cons.mp hz with rfl | hz
      · omega
      · exact le_trans (by omega) (h.1 z hz)

/-- The candidate sort is sorted by rank. -/
theorem pairwise_sortCands (l : List MatchCand) :
    (sortCands l).Pairwise (fun a b => candRank a ≤ candRank b) := by
  induction l with
  | nil => simp [sortCands]
  | cons y ys ih => exact pairwise_insertCand y (sortCands ys) ih

/-- A schema whose normalized id equals the note's type value, with its
match constraints satisfied, contributes a value-matching candidate. -/
theorem cand_of_named_schema (schemas : List Schema) (disc noteValue folder : JStr)
    (working : Fm) (S : Schema)
    (hS : S ∈ schemas) (hdisc : S.discriminator = disc)
    (hid : normalizeStr S.id = noteValue) (hnv : noteValue.isEmpty = false)
    (hmatch : matchRulesOk S working = true) :
    ∃ c ∈ candidatesFor schemas disc noteValue folder working, c.valueMatch = true := by
  refine ⟨⟨S, true, (match S.folder with | some f => decide (f = folder) | none => false), S.folder⟩,
    ?_, rfl⟩
  apply List.mem_filterMap.mpr
  refine ⟨S, hS, ?_⟩
  simp only [candidatesFor, hdisc, hid, hnv, hmatch]
  simp

/-- Every value-matching candidate carries a schema whose normalized id is
the note's type value. -/
theorem cand_valueMatch_id (schemas : List Schema) (disc noteValue folder : JStr)
    (working : Fm) (c : MatchCand)
    (hc : c ∈ candidatesFor schemas disc noteValue folder working)
    (hv : c.valueMatch = true) : normalizeStr c.schema.id = noteValue := by
  rcases List.mem_filterMap.mp hc with ⟨s, _, hf⟩
  simp only [candidatesFor] at hf
  repeat' split at hf
  any_goals exact Option.noConfusion hf
  all_goals
    (have h9 := Option.some.inj hf
     subst h9
     dsimp only at hv ⊢)
  all_goals
    (simp only [Bool.and_eq_true, decide_eq_true_eq] at hv
     first
     | exact hv.2.2.symm
     | exact hv.2.symm)

/-- A candidate of rank at most one is a value match. -/
theorem valueMatch_of_rank_le_one (c : MatchCand) (h : candRank c ≤ 1) :
    c.valueMatch = true := by
  by_cases hv : c.valueMatch = true
  · exact hv
  · exfalso
    simp only [Bool.not_eq_true] at hv
    unfold candRank at h
    simp only [hv] at h
    rw [if_neg (by simp)] at h
    split at h <;> omega

/-- C6 (amended): the matching preference is total and ordered — both
matches, then value-only, then folder-only. Hence for every document with
an explicit type value naming some schema of the discriminator, that
schema is selected over folder-matching ones, provided its additional
`match` constraints (if any) are satisfied by the document: the selected
candidate is a value match and its schema's normalized id is the
document's type value. -/
theorem c6_value_match_outranks_folder (schemas : List Schema)
    (disc noteValue folder : JStr) (working : Fm) (S : Schema)
    (hS : S ∈ schemas) (hdisc : S.discriminator = disc)
    (hid : normalizeStr S.id = noteValue) (hnv : noteValue.isEmpty = false)
    (hmatch : matchRulesOk S working = true) :
    ∃ r, pickBestSchemaByDiscriminator schemas disc noteValue folder working = some r ∧
      normalizeStr r.schema.id = noteValue ∧ r.matchedByValue = true := by
  obtain ⟨c, hc, hcv⟩ :=
    cand_of_named_schema schemas disc noteValue folder working S hS hdisc hid hnv hmatch
  rcases hsort : sortCands (candidatesFor schemas disc noteValue folder working) with
    _ | ⟨best, rest⟩
  · have hmem := (mem_sortCands c _).mpr hc
    rw [hsort] at hmem
    exact absurd hmem (List.not_mem_nil c)
  · have hbv : best.valueMatch = true := by
      have hcmem : c ∈ best :: rest := by
        rw [← hsort]
        exact (mem_sortCands c _).mpr hc
      rcases List.mem_cons.mp hcmem with rfl | hcrest
      · exact hcv
      · have hp := pairwise_sortCands (candidatesFor schemas disc noteValue folder working)
        rw [hsort] at hp
        have hle := (List.pairwise_cons.mp hp).1 c hcrest
        apply valueMatch_of_rank_le_one
        have hcrank : candRank c ≤ 1 := by
          unfold candRank
          simp [hcv]
          split <;> omega
        omega
    have hbestmem : best ∈ candidatesFor schemas disc noteValue folder working := by
      rw [← mem_sortCands best, hsort]
      exact List.mem_cons_self _ _
    refine ⟨⟨best.schema, best.valueMatch, best.folderMatch,
      best.valueMatch && !(best.schemaFolder = none) && !(best.schemaFolder = some folder),
      best.schemaFolder⟩, ?_, ?_, ?_⟩
    · simp only [pickBestSchemaByDiscriminator, hsort]
    · exact cand_valueMatch_id schemas disc noteValue folder working best hbestmem hbv
    · exact hbv

/-- Counterexample to C6 as stated: the document declares `type: meeting`
and a schema with id `meeting` exists, yet the folder-matching `project`
schema is selected, because the `meeting` schema's `match` constraints
exclude it. -/
theorem c6_counterexample :
    (pickBestSchemaByDiscriminator [c6meeting, c6project] (lit "type")
      (lit "meeting") (lit "Projects")
      [(lit "type", .jstr (lit "meeting"))]).map (fun r => r.schema.id) =
      some (lit "project") ∧
    normalizeStr c6meeting.id = lit "meeting" := by decide

/-- Witness for C6 (amended): without `match` constraints, the `meeting`
schema outranks the folder-matching `project` schema. -/
theorem c6_witness :
    ∃ r, pickBestSchemaByDiscriminator [c6meetingPlain, c6project] (lit "type")
      (lit "meeting") (lit "Projects")
      [(lit "type", .jstr (lit "meeting"))] = some r ∧
      normalizeStr r.schema.id = lit "meeting" ∧ r.matchedByValue = true :=
  c6_value_match_outranks_folder [c6meetingPlain, c6project] (lit "type")
    (lit "meeting") (lit "Projects") [(lit "type", .jstr (lit "meeting"))]
    c6meetingPlain (by decide) (by decide) (by decide) (by decide) (by decide)

theorem objGet_objSet_ne (fm : Fm) (j k : JStr) (v : JVal) (h : ¬ j = k) :
    objGet (objSet fm j v) k = objGet fm k := by
  induction fm with
  | nil => simp [objSet, objGet, h]
  | cons e rest ih =>
    obtain ⟨k1, v1⟩ := e
    by_cases he : k1 = j
    · subst he
      simp [objSet, objGet, h]
    · simp [objSet, objGet, he, ih]

theorem reqStep_other_key (schema : Schema) (acc : Fm × List JStr) (j k : JStr)
    (hj : ¬ j = k) :
    objGet (requiredFillStep schema acc j).1 k = objGet acc.1 k := by
  unfold requiredFillStep
  rcases hga : objGet acc.1 j with _ | v
  · rcases hpa : assocGet schema.properties j with _ | p'
    · dsimp only [hpa]
      rw [objGet_objSet_ne _ _ _ _ hj]
    · dsimp only [hpa]
      rcases hdv : p'.defaultVal with _ | d
      · dsimp only
        rw [objGet_objSet_ne _ _ _ _ hj]
      · dsimp only
        rw [objGet_objSet_ne _ _ _ _ hj]
  · cases v with
    | jstr s =>
      dsimp only
      by_cases hts : jsTrim s = []
      · rw [if_pos hts]
        dsimp only
        rw [objGet_objSet_ne _ _ _ _ hj]
      · rw [if_neg hts]
    | jnull => rfl
    | jbool b => rfl
    | jnum n => rfl
    | jarr xs => rfl
    | jobj fs => rfl


theorem reqStep_sets (schema : Schema) (acc : Fm × List JStr) (k : JStr)
    (h : objGet acc.1 k = none) :
    (requiredFillStep schema acc k).1 = objSet acc.1 k (fillVal schema k) := by
  unfold requiredFillStep fillVal
  rw [h]
  dsimp only
  rcases hpa : assocGet schema.properties k with _ | p'
  · rfl
  · dsimp only
    rcases hdv : p'.defaultVal with _ | d <;> rfl

theorem reqLoop_other (schema : Schema) (keys : List JStr) (acc : Fm × List JStr)
    (k : JStr) (hk : k ∉ keys) :
    objGet ((keys.foldl (requiredFillStep schema) acc)).1 k = objGet acc.1 k := by
  induction keys generalizing acc with
  | nil => rfl
  | cons j rest ih =>
    have hj : ¬ j = k := fun hj => hk (hj ▸ List.mem_cons_self _ _)
    have hk' : k ∉ rest := fun hm => hk (List.mem_cons_of_mem _ hm)
    rw [List.foldl_cons, ih _ hk', reqStep_other_key _ _ _ _ hj]

theorem reqLoop_sets (schema : Schema) (keys : List JStr) (acc : Fm × List JStr)
    (k : JStr) (hnd : keys.Nodup) (hk : k ∈ keys) (h : objGet acc.1 k = none) :
    objGet ((keys.foldl (requiredFillStep schema) acc)).1 k = some (fillVal schema k) := by
  induction keys generalizing acc with
  | nil => exact absurd hk (List.not_mem_nil _)
  | cons j rest ih =>
    rw [List.foldl_cons]
    by_cases hj : j = k
    · subst hj
      have hrest : j ∉ rest := (List.nodup_cons.mp hnd).1
      rw [reqLoop_other _ _ _ _ hrest, reqStep_sets _ _ _ h, objGet_objSet_self]
    · have hk' : k ∈ rest := by
        rcases List.mem_cons.mp hk with h1 | h1
        · exact absurd h1.symm hj
        · exact h1
      have h' : objGet (requiredFillStep schema acc j).1 k = none := by
        rw [reqStep_other_key _ _ _ _ hj, h]
      exact ih _ (List.nodup_cons.mp hnd).2 hk' h'

theorem assocGet_none_not_mem {α : Type} (l : List (JStr × α)) (k : JStr) (p : α)
    (h : assocGet l k = none) (hm : (k, p) ∈ l) : False := by
  induction l with
  | nil => exact absurd hm (List.not_mem_nil _)
  | cons e rest ih =>
    unfold assocGet at h
    split at h
    · exact Option.noConfusion h
    · rcases List.mem_cons.mp hm with h1 | h1
      · rename_i hne
        exact hne (by rw [← h1])
      · exact ih h h1

theorem assocGet_of_nodup_mem {α : Type} (l : List (JStr × α)) (k : JStr) (p : α)
    (hnd : (l.map Prod.fst).Nodup) (hm : (k, p) ∈ l) : assocGet l k = some p := by
  induction l with
  | nil => exact absurd hm (List.not_mem_nil _)
  | cons e rest ih =>
    obtain ⟨k1, v1⟩ := e
    rcases List.mem_cons.mp hm with h1 | h1
    · obtain ⟨hk1, hv1⟩ := Prod.mk.injEq .. ▸ h1.symm
      subst hk1; subst hv1
      unfold assocGet
      rw [if_pos rfl]
    · have hk1 : ¬ k1 = k := by
        intro he
        subst he
        exact (List.nodup_cons.mp hnd).1 (List.mem_map.mpr ⟨(k1, p), h1, rfl⟩)
      unfold assocGet
      rw [if_neg hk1]
      exact ih (List.nodup_cons.mp hnd).2 h1

theorem coerceStep_other_key (acc : Fm × List JStr) (e : JStr × PropDef) (k : JStr)
    (hne : ¬ e.1 = k) :
    objGet (propertyCoerceStep acc e).1 k = objGet acc.1 k := by
  obtain ⟨j, p⟩ := e
  simp only at hne
  simp only [propertyCoerceStep]
  rcases hv : objGet acc.1 j with _ | v
  · rfl
  · repeat' split
    all_goals simp only [objGet_objSet_ne _ _ _ _ hne]

theorem coerceStep_null (acc : Fm × List JStr) (j : JStr) (p : PropDef)
    (hv : objGet acc.1 j = some .jnull) (hty : ¬ p.ptype = some (lit "array")) :
    propertyCoerceStep acc (j, p) = acc := by
  simp only [propertyCoerceStep, hv]
  rw [if_neg hty]
  rcases hev : p.enumVals with _ | ents <;>
    rcases hf : p.format with _ | f <;>
      simp only [hv]

theorem coerceStep_emptyArr (acc : Fm × List JStr) (j : JStr) (p : PropDef)
    (hv : objGet acc.1 j = some (.jarr [])) :
    propertyCoerceStep acc (j, p) = acc := by
  simp only [propertyCoerceStep, hv]
  rcases hev : p.enumVals with _ | ents <;>
    rcases hf : p.format with _ | f <;>
      simp only [hv]

theorem coerceLoop_pres (entries : List (JStr × PropDef)) (acc : Fm × List JStr)
    (k : JStr) (V : JVal) (hV : objGet acc.1 k = some V)
    (hstep : ∀ (a : Fm × List JStr) (p : PropDef), (k, p) ∈ entries →
      objGet a.1 k = some V → propertyCoerceStep a (k, p) = a) :
    objGet ((entries.foldl propertyCoerceStep acc)).1 k = some V := by
  induction entries generalizing acc with
  | nil => exact hV
  | cons e rest ih =>
    rw [List.foldl_cons]
    by_cases he : e.1 = k
    · obtain ⟨j, p⟩ := e
      simp only at he
      subst he
      rw [hstep acc p (List.mem_cons_self _ _) hV]
      exact ih acc hV (fun a p' hm ha => hstep a p' (List.mem_cons_of_mem _ hm) ha)
    · have hV' : objGet (propertyCoerceStep acc e).1 k = some V := by
        rw [coerceStep_other_key _ _ _ he, hV]
      exact ih _ hV' (fun a p' hm ha => hstep a p' (List.mem_cons_of_mem _ hm) ha)

/-- **C3** (amended). For a required key `k` absent from the document, the
required-fill loop of `applySchemaAutofix` sets `k` to the schema default
when one exists; otherwise the whole autofix leaves `k` present and blank,
where the blank is the empty string when the key has no property
definition, the empty array when it is array-typed, and — contrary to the
spec's "empty string for string/value fields" — `null` when it carries any
other non-empty type. -/
theorem c3_required_blank_fill (schema : Schema) (fm : Fm) (fixes : List JStr) (k : JStr)
    (hreq : k ∈ schema.required) (hndr : schema.required.Nodup)
    (hndp : (schema.properties.map Prod.fst).Nodup)
    (habsent : objGet fm k = none) :
    (∀ pd d, assocGet schema.properties k = some pd → pd.defaultVal = some d →
      objGet ((schema.required.foldl (requiredFillStep schema) (fm, fixes))).1 k = some d) ∧
    (assocGet schema.properties k = none →
      objGet (applySchemaAutofix schema fm fixes).1 k = some (.jstr [])) ∧
    (∀ pd, assocGet schema.properties k = some pd → pd.defaultVal = none →
      pd.ptype = some (lit "array") →
      objGet (applySchemaAutofix schema fm fixes).1 k = some (.jarr [])) ∧
    (∀ pd t, assocGet schema.properties k = some pd → pd.defaultVal = none →
      pd.ptype = some t → t.isEmpty = false → ¬ t = lit "array" →
      objGet (applySchemaAutofix schema fm fixes).1 k = some .jnull) := by
  have hreqval := reqLoop_sets schema schema.required (fm, fixes) k hndr hreq habsent
  refine ⟨?_, ?_, ?_, ?_⟩
  · intro pd d hpd hdv
    rw [hreqval]
    unfold fillVal
    rw [hpd]
    dsimp only
    rw [hdv]
  · intro hpn
    have hfv : fillVal schema k = .jstr [] := by
      unfold fillVal
      rw [hpn]
      rfl
    unfold applySchemaAutofix
    exact coerceLoop_pres _ _ _ _ (by rw [hreqval, hfv])
      (fun a p hm ha => (assocGet_none_not_mem _ _ _ hpn hm).elim)
  · intro pd hpd hdv hty
    have hfv : fillVal schema k = .jarr [] := by
      unfold fillVal blankValueForProperty
      rw [hpd]
      dsimp only
      rw [hdv, hty]
      decide
    unfold applySchemaAutofix
    refine coerceLoop_pres _ _ _ _ (by rw [hreqval, hfv]) ?_
    intro a p hm ha
    have h2 := assocGet_of_nodup_mem _ _ _ hndp hm
    rw [hpd] at h2
    injection h2 with h3
    subst h3
    exact coerceStep_emptyArr a k pd ha
  · intro pd t hpd hdv hptype hie htne
    have hfv : fillVal schema k = .jnull := by
      unfold fillVal blankValueForProperty
      rw [hpd]
      dsimp only
      rw [hdv, hptype]
      dsimp only
      rw [if_neg (by simp [hie]), if_neg htne]
    unfold applySchemaAutofix
    refine coerceLoop_pres _ _ _ _ (by rw [hreqval, hfv]) ?_
    intro a p hm ha
    have h2 := assocGet_of_nodup_mem _ _ _ hndp hm
    rw [hpd] at h2
    injection h2 with h3
    subst h3
    refine coerceStep_null a k pd ha ?_
    intro hcontra
    rw [hptype] at hcontra
    injection hcontra with h4
    exact htne h4


/-- **C3** counterexample to the claim as stated: for a meeting-like schema
requiring the string-typed `date` with no default, autofix fills the
missing `date` with `null`, not with the empty string the spec promises
for string-typed fields. -/
theorem c3_counterexample :
    objGet (applySchemaAutofix c3schema [(lit "type", .jstr (lit "meeting"))] []).1 (lit "date")
      = some .jnull ∧
    ¬ objGet (applySchemaAutofix c3schema [(lit "type", .jstr (lit "meeting"))] []).1 (lit "date")
      = some (.jstr []) := by decide

theorem c3_witness :
    lit "date" ∈ c3schema.required ∧
    objGet (applySchemaAutofix c3schema [] []).1 (lit "date") = some .jnull :=
  ⟨by decide,
   (c3_required_blank_fill c3schema [] [] (lit "date") (by decide) (by decide) (by decide)
       rfl).2.2.2
     ⟨some (lit "string"), none, none, none⟩ (lit "string") (by decide) rfl rfl (by decide)
     (by decide)⟩

/-- **C2**: the autofix pass is not idempotent. For a schema whose required
key `x` has the empty string as its declared default, the first
`applySchemaAutofix` run on an empty document fills `x` with that default
(the empty string); the second run sees a present-but-empty required value,
rewrites it to `null`, and reports a fix — so the second application both
changes the document and reports a non-empty fix list, refuting the
idempotency requirement. -/
theorem c2_autofix_not_idempotent :
    (applySchemaAutofix c2schema [] []).1 = [(lit "x", .jstr [])] ∧
    (applySchemaAutofix c2schema (applySchemaAutofix c2schema [] []).1 []).1
      = [(lit "x", .jnull)] ∧
    ¬ (applySchemaAutofix c2schema (applySchemaAutofix c2schema [] []).1 []).1
      = (applySchemaAutofix c2schema [] []).1 ∧
    ¬ (applySchemaAutofix c2schema (applySchemaAutofix c2schema [] []).1 []).2 = [] := by
  decide

theorem moveDecision_effects_empty (mode : JStr) (write : Bool)
    (hd : decide (mode = lit "fix") = false ∨ write = false)
    (targetExists hadTypeAtStart : Bool)
    (currentFolder targetDirRel currentDirRel relPath targetRelPath vault file : JStr)
    (fixes ambiguous : List JStr) :
    (moveDecision mode write targetExists hadTypeAtStart currentFolder targetDirRel
      currentDirRel relPath targetRelPath vault file fixes ambiguous).2.2.2 = [] := by
  unfold moveDecision
  rcases hd with hm | hw
  · simp only [hm, Bool.false_and]
    split <;> rfl
  · subst hw
    simp only [Bool.and_false]
    split <;> rfl

theorem writeEffectsFor_empty (mode : JStr) (write : Bool)
    (hd : decide (mode = lit "fix") = false ∨ write = false)
    (changed : Bool) (path text : JStr) :
    writeEffectsFor mode changed write path text = [] := by
  unfold writeEffectsFor
  rcases hd with hm | hw
  · simp [hm]
  · subst hw
    simp

theorem linkWriteEffects_empty (mode : JStr) (write : Bool)
    (hd : decide (mode = lit "fix") = false ∨ write = false)
    (notes : List LinkNote) :
    linkWriteEffects mode write notes = [] := by
  unfold linkWriteEffects
  rcases hd with hm | hw
  · simp [hm]
  · subst hw
    simp

/-- **C4**: outside write-enabled fix mode (check / dry-run), the per-file
pipeline and the bidirectional link pass perform no filesystem mutation at
all — their effect lists are empty, so both are pure functions of the
initial snapshot; every would-be mutation surfaces only as a report
entry or fix/ambiguity note. -/
theorem c4_check_mode_no_effects (vault relPath raw : JStr) (schemas : List Schema)
    (mode : JStr) (write : Bool) (targetExists : Bool)
    (reports : List FileReport) (contents : List (Option JStr))
    (h : ¬ (mode = lit "fix" ∧ write = true)) :
    (processFileModel vault relPath raw schemas mode write targetExists).2 = [] ∧
    (applyBidirectionalLinkPass vault schemas reports contents mode write).2.2 = [] := by
  have hd : decide (mode = lit "fix") = false ∨ write = false := by
    by_cases hm : mode = lit "fix"
    · cases hwv : write
      · exact Or.inr rfl
      · exact absurd ⟨hm, hwv⟩ h
    · exact Or.inl (decide_eq_false hm)
  constructor
  · show (processFileModel vault relPath raw schemas mode write targetExists).2 = []
    unfold processFileModel
    dsimp only
    rw [moveDecision_effects_empty mode write hd, writeEffectsFor_empty mode write hd]
    rfl
  · unfold applyBidirectionalLinkPass
    dsimp only
    rw [linkWriteEffects_empty mode write hd]

theorem c4_witness :
    ¬ (lit "check" = lit "fix" ∧ false = true) ∧
    ((processFileModel (lit "v") (lit "A.md") [] [] (lit "check") false false).2 = [] ∧
     (applyBidirectionalLinkPass (lit "v") [] [] [] (lit "check") false).2.2 = []) :=
  ⟨by decide,
   c4_check_mode_no_effects (lit "v") (lit "A.md") [] [] (lit "check") false false [] []
     (by decide)⟩

theorem visitF_resolving (schemas : List Schema) (fuel : Nat) :
    ∀ (st : RState) (schema : Schema) (st' : RState) (out : Schema),
      visitF schemas fuel st schema = some (st', out) → st'.resolving = st.resolving := by
  induction fuel with
  | zero =>
    intro st schema st' out h
    exact Option.noConfusion h
  | succ fuel ih =>
    intro st schema st' out h
    unfold visitF at h
    try dsimp only at h
    rcases hmemo : assocGet st.resolved (skey schema) with _ | outm <;>
      rw [hmemo] at h <;> try dsimp only at h
    case succ.some =>
      injection h with h1
      obtain ⟨h2, h3⟩ := Prod.mk.injEq .. ▸ h1.symm
      rw [h2]
    case succ.none =>
      by_cases hcyc : st.resolving.contains (skey schema) = true
      · rw [if_pos hcyc] at h
        injection h with h1
        obtain ⟨h2, h3⟩ := Prod.mk.injEq .. ▸ h1.symm
        rw [h2]
      · rw [if_neg hcyc] at h
        try dsimp only at h
        rcases hext : extTruthy schema.extendsId with _ | ext <;>
          rw [hext] at h <;> try dsimp only at h
        · injection h with h1
          obtain ⟨h2, h3⟩ := Prod.mk.injEq .. ▸ h1.symm
          rw [h2]
          exact List.erase_cons_head _ _
        · rcases hpk : byKeyGet schemas (schema.discriminator ++ ':' :: ext) with _ | parent <;>
            rw [hpk] at h <;> try dsimp only at h
          · injection h with h1
            obtain ⟨h2, h3⟩ := Prod.mk.injEq .. ▸ h1.symm
            rw [h2]
            exact List.erase_cons_head _ _
          · rcases hv : visitF schemas fuel
                ⟨skey schema :: st.resolving, st.resolved, st.warnings⟩ parent
              with _ | p <;> rw [hv] at h <;> try dsimp only at h
            · exact Option.noConfusion h
            · obtain ⟨st2, pres⟩ := p
              try dsimp only at h
              injection h with h1
              obtain ⟨h2, h3⟩ := Prod.mk.injEq .. ▸ h1.symm
              rw [h2]
              dsimp only
              have hres2 := ih _ _ _ _ hv
              rw [hres2]
              exact List.erase_cons_head _ _

theorem byKeyGet_mem (schemas : List Schema) (k : JStr) (s : Schema)
    (h : byKeyGet schemas k = some s) : s ∈ schemas := by
  unfold byKeyGet at h
  rcases hf : schemas.reverse.find? (fun s => skey s = k) with _ | s' <;> rw [hf] at h
  · exact Option.noConfusion h
  · injection h with h1
    subst h1
    exact List.mem_reverse.mp (List.mem_of_find?_eq_some hf)

theorem visitF_total (schemas : List Schema) (fuel : Nat) :
    ∀ (st : RState) (schema : Schema), skey schema ∈ schemas.map skey →
      ((schemas.map skey).toFinset.filter (fun k => ¬ k ∈ st.resolving)).card < fuel →
      (visitF schemas fuel st schema).isSome = true := by
  induction fuel with
  | zero =>
    intro st schema hk hlt
    omega
  | succ fuel ih =>
    intro st schema hk hlt
    unfold visitF
    dsimp only
    rcases hmemo : assocGet st.resolved (skey schema) with _ | outm <;>
      try dsimp only
    case some => rfl
    case none =>
      by_cases hcyc : st.resolving.contains (skey schema) = true
      · rw [if_pos hcyc]
        rfl
      · rw [if_neg hcyc]
        have hnotmem : ¬ skey schema ∈ st.resolving := by
          intro hmem
          exact hcyc (by simpa using hmem)
        have hdec :
            ((schemas.map skey).toFinset.filter
              (fun k => ¬ k ∈ skey schema :: st.resolving)).card <
            ((schemas.map skey).toFinset.filter (fun k => ¬ k ∈ st.resolving)).card := by
          apply Finset.card_lt_card
          rw [Finset.ssubset_def]
          constructor
          · intro x hx
            rw [Finset.mem_filter] at hx ⊢
            refine ⟨hx.1, ?_⟩
            intro hxm
            exact hx.2 (List.mem_cons_of_mem _ hxm)
          · intro hsub
            have hkey : skey schema ∈
                (schemas.map skey).toFinset.filter (fun k => ¬ k ∈ st.resolving) := by
              rw [Finset.mem_filter]
              exact ⟨List.mem_toFinset.mpr hk, hnotmem⟩
            have := hsub hkey
            rw [Finset.mem_filter] at this
            exact this.2 (List.mem_cons_self _ _)
        try dsimp only
        rcases hext : extTruthy schema.extendsId with _ | ext <;> try dsimp only
        · rfl
        · rcases hpk : byKeyGet schemas (schema.discriminator ++ ':' :: ext) with _ | parent <;>
            try dsimp only
          · rfl
          · have hpmem : skey parent ∈ schemas.map skey :=
              List.mem_map_of_mem _ (byKeyGet_mem _ _ _ hpk)
            have hrec := ih ⟨skey schema :: st.resolving, st.resolved, st.warnings⟩ parent
              hpmem (by dsimp only; omega)
            obtain ⟨p, hp⟩ := Option.isSome_iff_exists.mp hrec
            rw [hp]
            obtain ⟨st2, out2⟩ := p
            rfl

theorem resolveAll_total (schemas : List Schema) :
    ∀ (rest : List Schema) (st : RState), st.resolving = [] →
      (∀ s ∈ rest, s ∈ schemas) → (resolveAll schemas st rest).isSome = true := by
  intro rest
  induction rest with
  | nil =>
    intro st h1 h2
    rfl
  | cons s rest ih =>
    intro st hres hmem
    unfold resolveAll
    have hk : skey s ∈ schemas.map skey :=
      List.mem_map_of_mem _ (hmem s (List.mem_cons_self _ _))
    have hcard : ((schemas.map skey).toFinset.filter
        (fun k => ¬ k ∈ st.resolving)).card < schemas.length + 1 := by
      have h1 := Finset.card_filter_le (schemas.map skey).toFinset
        (fun k => ¬ k ∈ st.resolving)
      have h2 := (schemas.map skey).toFinset_card_le
      have h3 := List.length_map schemas skey
      omega
    have hv := visitF_total schemas (schemas.length + 1) st s hk hcard
    obtain ⟨⟨st1, out⟩, hp⟩ := Option.isSome_iff_exists.mp hv
    rw [hp]
    dsimp only
    have hres1 : st1.resolving = [] := by
      rw [visitF_resolving _ _ _ _ _ _ hp, hres]
    have hrest := ih
      ⟨st1.resolving, assocSet st1.resolved (skey s) (normalizeResolved out), st1.warnings⟩
      hres1 (fun x hx => hmem x (List.mem_cons_of_mem _ hx))
    obtain ⟨⟨st3, outs⟩, hp3⟩ := Option.isSome_iff_exists.mp hrest
    rw [hp3]
    rfl

theorem resolveSchemaInheritance_total (schemas : List Schema) :
    (resolveSchemaInheritance schemas).isSome = true := by
  unfold resolveSchemaInheritance
  have h := resolveAll_total schemas schemas ⟨[], [], []⟩ rfl (fun s hs => hs)
  obtain ⟨⟨st, outs⟩, hp⟩ := Option.isSome_iff_exists.mp h
  rw [hp]
  rfl


/-- **C7**: schema-inheritance resolution is total — for every schema set,
including ones whose `extends` edges form a cycle, the resolver returns a
result (the fuelled recursion never runs out, so the source's recursion
terminates and never crashes). On the concrete two-schema cycle
`a extends b`, `b extends a`, it raises exactly one cycle warning and still
resolves both records, the cyclic record falling back to itself. -/
theorem c7_inheritance_cycle_safe :
    (∀ schemas : List Schema, (resolveSchemaInheritance schemas).isSome = true) ∧
    (resolveSchemaInheritance [c7a, c7b]).map
        (fun r => (r.2, r.1.map Schema.id, r.1.map Schema.required)) =
      some ([lit "Schema inheritance cycle detected at type:a"],
        [lit "a", lit "b"], [[lit "x", lit "y"], [lit "x", lit "y"]]) :=
  ⟨resolveSchemaInheritance_total, by decide⟩

theorem splitLinesGo_clean (l : JStr) :
    ∀ acc, l.all (fun c => !(c = '\n') && !(c = '\r')) = true →
      splitLinesGo acc l = [acc.reverse ++ l] := by
  induction l with
  | nil =>
    intro acc h
    simp [splitLinesGo]
  | cons c l2 ih =>
    intro acc h
    simp only [List.all_cons, Bool.and_eq_true, Bool.not_eq_true', decide_eq_false_iff_not] at h
    obtain ⟨⟨hc1, hc2⟩, hrest⟩ := h
    cases l2 with
    | nil =>
      simp [splitLinesGo, hc1]
    | cons c2 l3 =>
      have hrest' : (c2 :: l3).all (fun c => !(c = '\n') && !(c = '\r')) = true := by
        simpa using hrest
      rw [splitLinesGo, if_neg hc1, if_neg (by simp [hc2]), ih _ hrest']
      simp

theorem splitLinesGo_clean_append (l : JStr) :
    ∀ acc (r : JStr), l.all (fun c => !(c = '\n') && !(c = '\r')) = true →
      splitLinesGo acc (l ++ '\n' :: r) = (acc.reverse ++ l) :: splitLinesGo [] r := by
  induction l with
  | nil =>
    intro acc r h
    cases r with
    | nil => simp [splitLinesGo]
    | cons c2 r2 => simp [splitLinesGo]
  | cons c l2 ih =>
    intro acc r h
    simp only [List.all_cons, Bool.and_eq_true, Bool.not_eq_true', decide_eq_false_iff_not] at h
    obtain ⟨⟨hc1, hc2⟩, hrest⟩ := h
    have hne : l2 ++ '\n' :: r = (l2 ++ '\n' :: r) := rfl
    cases hsh : l2 ++ '\n' :: r with
    | nil => exact absurd hsh (List.append_ne_nil_of_right_ne_nil _ (by simp))
    | cons c2 l3 =>
      rw [List.cons_append, hsh, splitLinesGo, if_neg hc1, if_neg (by simp [hc2]), ← hsh,
        ih _ _ (by simpa using hrest)]
      simp

theorem splitLinesRN_clean_append (l : JStr) (r : JStr) (h : cleanLine l = true) :
    splitLinesRN (l ++ '\n' :: r) = l :: splitLinesRN r := by
  unfold splitLinesRN
  rw [splitLinesGo_clean_append l [] r h]
  simp

theorem splitLinesRN_joinLines_append (l : JStr) (ls : List JStr) (r : JStr)
    (h : ∀ x ∈ l :: ls, cleanLine x = true) :
    splitLinesRN (joinLines (l :: ls) ++ '\n' :: r) = l :: (ls ++ splitLinesRN r) := by
  induction ls generalizing l with
  | nil =>
    rw [joinLines]
    rw [splitLinesRN_clean_append l r (h l (List.mem_cons_self _ _))]
    rfl
  | cons l2 rest2 ih =>
    rw [joinLines, List.append_assoc, List.cons_append]
    rw [splitLinesRN_clean_append l _ (h l (List.mem_cons_self _ _))]
    rw [ih l2 (fun x hx => h x (List.mem_cons_of_mem _ hx))]
    · rfl
    · exact fun hcon => List.noConfusion hcon

theorem splitLinesRN_joinLines (l : JStr) (ls : List JStr)
    (h : ∀ x ∈ l :: ls, cleanLine x = true) :
    splitLinesRN (joinLines (l :: ls)) = l :: ls := by
  induction ls generalizing l with
  | nil =>
    rw [joinLines]
    unfold splitLinesRN
    rw [splitLinesGo_clean l [] (h l (List.mem_cons_self _ _))]
    rfl
  | cons l2 rest2 ih =>
    rw [joinLines]
    rw [splitLinesRN_clean_append l _ (h l (List.mem_cons_self _ _))]
    rw [ih l2 (fun x hx => h x (List.mem_cons_of_mem _ hx))]
    exact fun hcon => List.noConfusion hcon

theorem idxOfTripleDash_append (ls : List JStr) (r : List JStr)
    (h : ∀ l ∈ ls, ¬ l = lit "---") :
    idxOfTripleDash (ls ++ lit "---" :: r) = some ls.length := by
  induction ls with
  | nil => simp [idxOfTripleDash]
  | cons l rest ih =>
    rw [List.cons_append, idxOfTripleDash,
      if_neg (h l (List.mem_cons_self _ _)),
      ih (fun x hx => h x (List.mem_cons_of_mem _ hx))]
    rfl

theorem dropWhile_jsWs_eq_self (s : JStr)
    (h : ∀ c, s.head? = some c → jsWs c = false) : s.dropWhile jsWs = s := by
  cases s with
  | nil => rfl
  | cons c t =>
    rw [List.dropWhile_cons, if_neg]
    intro hc
    rw [h c rfl] at hc
    exact Bool.noConfusion hc

theorem jsTrim_eq_self (s : JStr)
    (hh : ∀ c, s.head? = some c → jsWs c = false)
    (hl : ∀ c, s.getLast? = some c → jsWs c = false) : jsTrim s = s := by
  unfold jsTrim
  rw [dropWhile_jsWs_eq_self s hh,
    dropWhile_jsWs_eq_self s.reverse (fun c hc => hl c (by rwa [List.head?_reverse] at hc)),
    List.reverse_reverse]

theorem jsTrim_cons_ws (c : Char) (s : JStr) (h : jsWs c = true) :
    jsTrim (c :: s) = jsTrim s := by
  unfold jsTrim
  rw [List.dropWhile_cons, if_pos h]

theorem startsWithL_iff (p : JStr) : ∀ s, startsWithL s p = true ↔ ∃ t, s = p ++ t := by
  induction p with
  | nil =>
    intro s
    simp [startsWithL]
  | cons d ds ih =>
    intro s
    cases s with
    | nil =>
      simp only [startsWithL]
      constructor
      · intro hc
        exact Bool.noConfusion hc
      · rintro ⟨t, ht⟩
        exact List.noConfusion ht
    | cons c cs =>
      simp only [startsWithL, Bool.and_eq_true, decide_eq_true_eq, List.cons_append,
        List.cons.injEq]
      rw [ih cs]
      constructor
      · rintro ⟨h1, t, h2⟩
        exact ⟨t, h1, h2⟩
      · rintro ⟨t, h1, h2⟩
        exact ⟨h1, t, h2⟩

theorem startsWithL_append_longer (p k r : JStr) (h : p.length ≤ k.length) :
    startsWithL (k ++ r) p = startsWithL k p := by
  induction p generalizing k with
  | nil => simp [startsWithL]
  | cons d ds ih =>
    cases k with
    | nil => simp at h
    | cons c cs =>
      simp only [List.cons_append, startsWithL, List.append_eq]
      rw [ih cs (by simpa using h)]

theorem idxOfColon_append (k r : JStr) (hk : k.all (fun c => !(c = ':')) = true) :
    idxOfColon (k ++ ':' :: r) = some k.length := by
  induction k with
  | nil => simp [idxOfColon]
  | cons c cs ih =>
    simp only [List.all_cons, Bool.and_eq_true, Bool.not_eq_true', decide_eq_false_iff_not] at hk
    rw [List.cons_append, idxOfColon, if_neg hk.1, ih hk.2]
    rfl

theorem take_append_exact (k r : JStr) : (k ++ r).take k.length = k := by
  simpa using List.take_left k r

theorem drop_append_succ (k : JStr) (c : Char) (r : JStr) :
    (k ++ c :: r).drop (k.length + 1) = r := by
  have h1 : (k ++ c :: r).drop k.length = c :: r := List.drop_left k (c :: r)
  have h2 : (k ++ c :: r).drop (k.length + 1)
      = ((k ++ c :: r).drop k.length).drop 1 := by
    rw [List.drop_drop]
  rw [h2, h1]
  rfl

theorem escapeQuotes_eq_self (s : JStr) (h : s.all safeChar = true) :
    escapeQuotes s = s := by
  induction s with
  | nil => rfl
  | cons c t ih =>
    simp only [List.all_cons, Bool.and_eq_true] at h
    unfold escapeQuotes at ih ⊢
    rw [List.flatMap_cons, ih h.2, if_neg]
    · rfl
    · intro hc
      subst hc
      simp [safeChar] at h
  
theorem wikiRe_not_bracket (c : Char) (X : JStr) (h : ¬ c = '[') :
    wikiRe (c :: X) = false := by
  unfold wikiRe
  split
  · rename_i rest heq
    injection heq with h1 _
    exact absurd h1 h
  · rfl

theorem ws_char_cases (c : Char) (h : jsWs c = true) :
    c = ' ' ∨ c = '\t' ∨ c = '\n' ∨ c = '\r' ∨ c = Char.ofNat 11 ∨ c = Char.ofNat 12 := by
  unfold jsWs at h
  have h2 := by simpa using h
  tauto

theorem digit_not_ws (c : Char) (h : c.isDigit = true) : jsWs c = false := by
  cases hws : jsWs c
  · rfl
  · rcases ws_char_cases c hws with h1 | h1 | h1 | h1 | h1 | h1 <;>
      (subst h1; exact absurd h (by decide))

theorem drop_takeWhile_length {α : Type} (p : α → Bool) (l : List α) :
    l.drop (l.takeWhile p).length = l.dropWhile p := by
  induction l with
  | nil => rfl
  | cons a t ih =>
    by_cases hp : p a
    · rw [List.takeWhile_cons, if_pos hp, List.dropWhile_cons, if_pos hp]
      simpa using ih
    · rw [List.takeWhile_cons, if_neg hp, List.dropWhile_cons, if_neg hp]
      rfl

theorem mem_of_head? {α : Type} {l : List α} {a : α} (h : l.head? = some a) : a ∈ l := by
  cases l with
  | nil => exact Option.noConfusion h
  | cons x t =>
    injection h with h1
    exact h1 ▸ List.mem_cons_self _ _

theorem mem_of_getLast? {α : Type} {l : List α} {a : α} (h : l.getLast? = some a) :
    a ∈ l := by
  induction l with
  | nil => exact Option.noConfusion h
  | cons x t ih =>
    cases t with
    | nil =>
      injection h with h1
      exact h1 ▸ List.mem_cons_self _ _
    | cons y t2 =>
      rw [List.getLast?_cons_cons] at h
      exact List.mem_cons_of_mem _ (ih h)

theorem takeWhile_all {α : Type} (p : α → Bool) (l : List α) :
    (l.takeWhile p).all p = true := by
  induction l with
  | nil => rfl
  | cons a t ih =>
    by_cases hp : p a
    · rw [List.takeWhile_cons, if_pos hp]
      simp [hp, ih]
    · rw [List.takeWhile_cons, if_neg hp]
      rfl

theorem getLast?_append_right {α : Type} (A B : List α) (h : B ≠ []) :
    (A ++ B).getLast? = B.getLast? := by
  induction A with
  | nil => rfl
  | cons a t ih =>
    rw [List.cons_append]
    cases htB : t ++ B with
    | nil => exact absurd (List.append_eq_nil.mp htB).2 h
    | cons y ys =>
      rw [List.getLast?_cons_cons, ← htB]
      exact ih

theorem numberCoreFacts (m : JStr)
    (h : (!(m.takeWhile Char.isDigit).isEmpty &&
      ((m.drop (m.takeWhile Char.isDigit).length).isEmpty ||
        (startsWithL (m.drop (m.takeWhile Char.isDigit).length) ['.'] &&
          allDigits ((m.drop (m.takeWhile Char.isDigit).length).drop 1)))) = true) :
    m ≠ [] ∧ m.all numChar = true ∧
    (∀ c, m.head? = some c → c.isDigit = true) ∧
    (∀ c, m.getLast? = some c → c.isDigit = true) := by
  rw [Bool.and_eq_true, Bool.not_eq_true'] at h
  obtain ⟨h1, h2⟩ := h
  have hrest := drop_takeWhile_length Char.isDigit m
  have hm : m.takeWhile Char.isDigit ++ m.dropWhile Char.isDigit = m :=
    List.takeWhile_append_dropWhile Char.isDigit m
  have hipne : m.takeWhile Char.isDigit ≠ [] := by
    intro hc
    rw [hc] at h1
    exact Bool.noConfusion h1
  have hipall := takeWhile_all Char.isDigit m
  rw [hrest, Bool.or_eq_true] at h2
  rcases h2 with h2 | h2
  · have hdw : m.dropWhile Char.isDigit = [] := by simpa using h2
    have hmeq := hm
    rw [hdw, List.append_nil] at hmeq
    rw [hmeq] at hipall hipne
    refine ⟨hipne, ?_, ?_, ?_⟩
    · rw [List.all_eq_true] at hipall ⊢
      intro x hx
      simp [numChar, hipall x hx]
    · intro c hc
      rw [List.all_eq_true] at hipall
      exact hipall c (mem_of_head? hc)
    · intro c hc
      rw [List.all_eq_true] at hipall
      exact hipall c (mem_of_getLast? hc)
  · rw [Bool.and_eq_true] at h2
    obtain ⟨h3, h4⟩ := h2
    obtain ⟨f, hf⟩ := (startsWithL_iff ['.'] _).mp h3
    rw [List.singleton_append] at hf
    rw [hf] at hm
    unfold allDigits at h4
    rw [hf] at h4
    rw [Bool.and_eq_true, Bool.not_eq_true'] at h4
    have hfd : f.all Char.isDigit = true := by
      have := h4.2
      simpa using this
    have hfne : f ≠ [] := by
      intro hc
      have := h4.1
      rw [hc] at this
      simp at this
    refine ⟨?_, ?_, ?_, ?_⟩
    · intro hc
      subst hc
      exact hipne rfl
    · rw [← hm, List.all_append, Bool.and_eq_true]
      constructor
      · rw [List.all_eq_true] at hipall ⊢
        intro x hx
        simp [numChar, hipall x hx]
      · rw [List.all_cons, Bool.and_eq_true]
        refine ⟨by decide, ?_⟩
        rw [List.all_eq_true] at hfd ⊢
        intro x hx
        simp [numChar, hfd x hx]
    · intro c hc
      rw [← hm] at hc
      have hip : (m.takeWhile Char.isDigit).head? = some c := by
        cases hip : m.takeWhile Char.isDigit with
        | nil => exact absurd hip hipne
        | cons a t =>
          rw [hip, List.cons_append] at hc
          rw [← hc]
          rfl
      rw [List.all_eq_true] at hipall
      exact hipall c (mem_of_head? hip)
    · intro c hc
      rw [← hm, getLast?_append_right _ _ (fun hcc => List.noConfusion hcc)] at hc
      have hcf : f.getLast? = some c := by
        cases f with
        | nil => exact absurd rfl hfne
        | cons y t => rwa [List.getLast?_cons_cons] at hc
      rw [List.all_eq_true] at hfd
      exact hfd c (mem_of_getLast? hcf)

theorem numberLit_facts (s : JStr) (h : numberLit s = true) :
    s ≠ [] ∧ s.all numChar = true ∧
    (∀ c, s.head? = some c → (c.isDigit || c = '-') = true) ∧
    (∀ c, s.getLast? = some c → c.isDigit = true) := by
  unfold numberLit at h
  dsimp only at h
  split at h
  · rename_i m
    obtain ⟨hne, hall, hhead, hlast⟩ := numberCoreFacts m h
    refine ⟨fun hc => List.noConfusion hc, ?_, ?_, ?_⟩
    · rw [List.all_cons, Bool.and_eq_true]
      exact ⟨by decide, hall⟩
    · intro c hc
      injection hc with h1
      rw [← h1]
      simp
    · intro c hc
      cases m with
      | nil => exact absurd rfl hne
      | cons y t =>
        rw [List.getLast?_cons_cons] at hc
        exact hlast c hc
  · obtain ⟨hne, hall, hhead, hlast⟩ := numberCoreFacts s h
    refine ⟨hne, hall, ?_, hlast⟩
    intro c hc
    rw [hhead c hc]
    rfl

theorem safeStr_parts (s : JStr) (hs : safeStr s = true) :
    s.all safeChar = true ∧ ¬ s = lit "true" ∧ ¬ s = lit "false" ∧ ¬ s = lit "null" ∧
    ¬ s = ['~'] ∧ numberLit s = false ∧
    (startsWithL s [apc] && endsWithL s [apc]) = false ∧
    ((startsWithL s ['['] && endsWithL s [']']) = true → wikiRe s = true) := by
  unfold safeStr at hs
  simp only [Bool.and_eq_true, Bool.not_eq_true', decide_eq_false_iff_not,
    Bool.or_eq_true, Bool.not_eq_true] at hs
  obtain ⟨⟨⟨⟨⟨⟨⟨h1, h2⟩, h3⟩, h4⟩, h5⟩, h6⟩, h7⟩, h8⟩ := hs
  refine ⟨h1, h2, h3, h4, h5, h6, h7, ?_⟩
  intro hbr
  rcases h8 with h8 | h8
  · rw [hbr] at h8
    exact Bool.noConfusion h8
  · exact h8

theorem parseScalar_quoted (s : JStr) (hs : safeStr s = true) :
    parseScalar (qc :: s ++ [qc]) = .jstr s := by
  obtain ⟨hall, h2, h3, h4, h5, h6, h7, h8⟩ := safeStr_parts s hs
  unfold parseScalar
  rw [parseScalarF]
  have htrim : jsTrim (qc :: (s ++ [qc])) = qc :: (s ++ [qc]) := by
    apply jsTrim_eq_self
    · intro c hc
      injection hc with h1
      rw [← h1]
      decide
    · intro c hc
      have hg := getLast?_append_right (qc :: s) [qc] (fun hcc => List.noConfusion hcc)
      rw [List.cons_append] at hg
      rw [hg] at hc
      injection hc with h1
      rw [← h1]
      decide
  dsimp only
  rw [List.cons_append, htrim]
  rw [if_neg (by simp)]
  rw [wikiRe_not_bracket qc _ (by decide)]
  rw [if_neg (by simp)]
  have hsw : startsWithL (qc :: (s ++ [qc])) [qc] = true := by
    simp [startsWithL]
  have hew : endsWithL (qc :: (s ++ [qc])) [qc] = true := by
    unfold endsWithL
    rw [List.reverse_cons, List.reverse_append]
    simp [startsWithL]
  have hcond : (startsWithL (qc :: (s ++ [qc])) [qc] && endsWithL (qc :: (s ++ [qc])) [qc] ||
      startsWithL (qc :: (s ++ [qc])) [apc] && endsWithL (qc :: (s ++ [qc])) [apc]) = true := by
    rw [hsw, hew]
    simp
  rw [if_pos hcond]
  have hdrop : ((qc :: (s ++ [qc])).drop 1).dropLast = s := by
    rw [List.drop_succ_cons, List.drop_zero, List.dropLast_concat]
  rw [hdrop]
  by_cases hw : wikiRe s = true
  · rw [if_pos hw]
  · rw [if_neg hw]
    rw [if_neg h2, if_neg h3, if_neg (by simp [h4, h5])]
    rw [h6, if_neg (by simp)]
    have hbr : (startsWithL s ['['] && endsWithL s [']']) = false := by
      cases hb : (startsWithL s ['['] && endsWithL s [']'])
      · rfl
      · exact absurd (h8 hb) hw
    rw [if_neg (by rw [hbr]; simp)]

theorem needsQuote_false_parts (s : JStr) (hq : needsQuote s = false) :
    (∀ c, s.head? = some c → jsWs c = false) ∧
    (∀ c, s.getLast? = some c → jsWs c = false) ∧
    (∀ c, c ∈ s → ¬ c = qc) ∧
    (∀ c, c ∈ s → ¬ c = '[') := by
  unfold needsQuote at hq
  simp only [Bool.or_eq_false_iff] at hq
  obtain ⟨⟨⟨⟨⟨hA, hB⟩, hC⟩, hD⟩, hE⟩, hF⟩ := hq
  refine ⟨?_, ?_, ?_, ?_⟩
  · intro c hc
    cases s with
    | nil => exact Option.noConfusion hc
    | cons x t =>
      injection hc with h1
      rw [h1] at hD
      exact hD
  · intro c hc
    cases hrev : s.reverse with
    | nil =>
      rw [List.reverse_eq_nil_iff] at hrev
      rw [hrev] at hc
      exact Option.noConfusion hc
    | cons x t =>
      rw [hrev] at hE
      have hxc : s.getLast? = some x := by
        rw [← List.head?_reverse, hrev]
        rfl
      rw [hc] at hxc
      injection hxc with h1
      rw [h1]
      exact hE
  · intro c hc hcq
    have := (List.contains_eq_any_beq s qc) ▸ hF
    rw [List.any_eq_false] at this
    have h2 := this c hc
    rw [hcq] at h2
    simp at h2
  · intro c hc hcb
    rw [List.any_eq_false] at hC
    have h2 := hC c hc
    rw [hcb] at h2
    simp at h2

theorem startsWithL_singleton_false (s : JStr) (c0 : Char)
    (h : ∀ c, c ∈ s → ¬ c = c0) : startsWithL s [c0] = false := by
  cases s with
  | nil => rfl
  | cons x t =>
    unfold startsWithL
    rw [decide_eq_false (h x (List.mem_cons_self _ _))]
    rfl

theorem parseScalar_raw (s : JStr) (hs : safeStr s = true)
    (hq : needsQuote s = false) (hne : s ≠ []) :
    parseScalar s = .jstr s := by
  obtain ⟨hall, h2, h3, h4, h5, h6, h7, h8⟩ := safeStr_parts s hs
  obtain ⟨hqh, hql, hqq, hqb⟩ := needsQuote_false_parts s hq
  unfold parseScalar
  rw [parseScalarF]
  have htrim : jsTrim s = s := jsTrim_eq_self s hqh hql
  dsimp only
  rw [htrim]
  rw [if_neg (by cases s with | nil => exact absurd rfl hne | cons x t => simp)]
  by_cases hw : wikiRe s = true
  · rw [if_pos hw]
  · rw [if_neg hw]
    have hnq : startsWithL s [qc] = false := startsWithL_singleton_false s qc hqq
    have hcond : (startsWithL s [qc] && endsWithL s [qc] ||
        startsWithL s [apc] && endsWithL s [apc]) = false := by
      rw [hnq, h7]
      rfl
    have hcond' : ¬ ((startsWithL s [qc] && endsWithL s [qc] ||
        startsWithL s [apc] && endsWithL s [apc]) = true) := by
      rw [hcond]
      simp
    rw [if_neg hcond']
    rw [if_neg hw]
    rw [if_neg h2, if_neg h3, if_neg (by simp [h4, h5])]
    rw [h6, if_neg (by simp)]
    have hbr : startsWithL s ['['] = false := startsWithL_singleton_false s '[' hqb
    rw [if_neg (by rw [hbr]; simp)]

theorem parseScalar_num (s : JStr) (hn : numberLit s = true) :
    parseScalar s = .jnum (canonNum s) := by
  obtain ⟨hne, hall, hhead, hlast⟩ := numberLit_facts s hn
  rw [List.all_eq_true] at hall
  have hheadc : ∀ c, s.head? = some c → ¬ c = '[' ∧ ¬ c = qc ∧ ¬ c = apc ∧ jsWs c = false := by
    intro c hc
    have hd := hhead c hc
    rw [Bool.or_eq_true] at hd
    rcases hd with hd | hd
    · refine ⟨?_, ?_, ?_, digit_not_ws c hd⟩ <;>
        (intro hcc; rw [hcc] at hd; exact absurd hd (by decide))
    · rw [decide_eq_true_eq] at hd
      subst hd
      exact ⟨by decide, by decide, by decide, by decide⟩
  unfold parseScalar
  rw [parseScalarF]
  have htrim : jsTrim s = s := by
    apply jsTrim_eq_self
    · intro c hc
      exact (hheadc c hc).2.2.2
    · intro c hc
      exact digit_not_ws c (hlast c hc)
  dsimp only
  rw [htrim]
  rw [if_neg (by cases s with | nil => exact absurd rfl hne | cons x t => simp)]
  cases s with
  | nil => exact absurd rfl hne
  | cons x t =>
    have hx := hheadc x rfl
    rw [wikiRe_not_bracket x t hx.1]
    rw [if_neg (by simp)]
    have hcond : ¬ ((startsWithL (x :: t) [qc] && endsWithL (x :: t) [qc] ||
        startsWithL (x :: t) [apc] && endsWithL (x :: t) [apc]) = true) := by
      have h1 : startsWithL (x :: t) [qc] = false := by
        unfold startsWithL
        rw [decide_eq_false hx.2.1]
        rfl
      have h2 : startsWithL (x :: t) [apc] = false := by
        unfold startsWithL
        rw [decide_eq_false hx.2.2.1]
        rfl
      rw [h1, h2]
      simp
    rw [if_neg hcond]
    rw [wikiRe_not_bracket x t hx.1]
    rw [if_neg (by simp)]
    have hnum : ∀ (w : JStr), (∀ c ∈ w, numChar c = false) → ¬ (x :: t) = w := by
      intro w hw hcc
      have hx2 : x ∈ w := by
        rw [← hcc]
        exact List.mem_cons_self _ _
      have := hall x (List.mem_cons_self _ _)
      rw [hw x hx2] at this
      exact Bool.noConfusion this
    rw [if_neg (hnum _ (by decide)), if_neg (hnum _ (by decide))]
    rw [if_neg (by
      simp only [Bool.or_eq_true, decide_eq_true_eq]
      rintro (hcc | hcc)
      · exact hnum _ (by decide) hcc
      · exact hnum _ (by decide) hcc)]
    rw [if_pos hn]

theorem cleanLine_of_safeChar (s : JStr) (h : s.all safeChar = true) :
    cleanLine s = true := by
  unfold cleanLine
  rw [List.all_eq_true] at h ⊢
  intro c hc
  have := h c hc
  unfold safeChar at this
  simp only [Bool.and_eq_true] at this
  simp [this.1.1, this.1.2]

theorem serializeScalar_facts (v : JVal) (h : safeItem v = true) :
    parseScalar (serializeScalar v) = v ∧
    serializeScalar v ≠ [] ∧
    cleanLine (serializeScalar v) = true ∧
    (∀ c, (serializeScalar v).head? = some c → jsWs c = false) ∧
    (∀ c, (serializeScalar v).getLast? = some c → jsWs c = false) := by
  cases v with
  | jnull => refine ⟨by decide, by decide, by decide, ?_, ?_⟩ <;>
      (intro c hc; injection hc with h1; rw [← h1]; decide)
  | jbool b =>
    cases b
    · refine ⟨by decide, by decide, by decide, ?_, ?_⟩ <;>
        (intro c hc; injection hc with h1; rw [← h1]; decide)
    · refine ⟨by decide, by decide, by decide, ?_, ?_⟩ <;>
        (intro c hc; injection hc with h1; rw [← h1]; decide)
  | jnum s =>
    unfold safeItem at h
    rw [Bool.and_eq_true, decide_eq_true_eq] at h
    obtain ⟨hn, hc⟩ := h
    obtain ⟨hne, hall, hhead, hlast⟩ := numberLit_facts s hn
    have hser : serializeScalar (.jnum s) = s := rfl
    rw [hser]
    refine ⟨by rw [parseScalar_num s hn, hc], hne, ?_, ?_, ?_⟩
    · unfold cleanLine
      rw [List.all_eq_true] at hall ⊢
      intro c hcm
      have := hall c hcm
      unfold numChar at this
      simp only [Bool.or_eq_true, decide_eq_true_eq] at this
      rcases this with (hd | hd) | hd
      · have h1 := digit_not_ws c hd
        unfold jsWs at h1
        simp only [Bool.or_eq_false_iff, decide_eq_false_iff_not] at h1
        simp [h1.1.1.1.2, h1.1.1.2]
      · subst hd
        decide
      · subst hd
        decide
    · intro c hcm
      have hd := hhead c hcm
      rw [Bool.or_eq_true] at hd
      rcases hd with hd | hd
      · exact digit_not_ws c hd
      · rw [decide_eq_true_eq] at hd
        subst hd
        decide
    · intro c hcm
      exact digit_not_ws c (hlast c hcm)
  | jstr s =>
    unfold safeItem at h
    have hall : s.all safeChar = true := by
      unfold safeStr at h
      simp only [Bool.and_eq_true] at h
      exact h.1.1.1.1.1.1.1
    cases hsn : s with
    | nil =>
      subst hsn
      refine ⟨by decide, by decide, by decide, ?_, ?_⟩ <;>
        (intro c hc; injection hc with h1; rw [← h1]; decide)
    | cons x t =>
      rw [← hsn]
      have hser : serializeScalar (.jstr s) =
          if s.isEmpty then [qc, qc]
          else if needsQuote s then qc :: escapeQuotes s ++ [qc] else s := rfl
      have hsne : s.isEmpty = false := by rw [hsn]; rfl
      rw [hser, hsne, if_neg (by simp)]
      by_cases hnq : needsQuote s = true
      · rw [if_pos hnq, escapeQuotes_eq_self s hall]
        refine ⟨parseScalar_quoted s h, by simp, ?_, ?_, ?_⟩
        · unfold cleanLine at *
          rw [List.cons_append, List.all_cons]
          rw [List.all_append]
          have h1 := cleanLine_of_safeChar s hall
          unfold cleanLine at h1
          rw [h1]
          decide
        · intro c hc
          rw [List.cons_append] at hc
          injection hc with h1
          rw [← h1]
          decide
        · intro c hc
          have hg := getLast?_append_right (qc :: s) [qc] (fun hcc => List.noConfusion hcc)
          rw [hg] at hc
          injection hc with h1
          rw [← h1]
          decide
      · rw [if_neg hnq]
        rw [Bool.not_eq_true] at hnq
        obtain ⟨hqh, hql, _, _⟩ := needsQuote_false_parts s hnq
        exact ⟨parseScalar_raw s h hnq (by rw [hsn]; exact fun hcc => List.noConfusion hcc),
          (by rw [hsn]; exact fun hcc => List.noConfusion hcc),
          cleanLine_of_safeChar s hall, hqh, hql⟩
  | jarr xs => exact absurd h (by simp [safeItem])
  | jobj fs => exact absurd h (by simp [safeItem])

theorem objSet_append_new (fs : Fm) (k : JStr) (v : JVal) (h : objGet fs k = none) :
    objSet fs k v = fs ++ [(k, v)] := by
  induction fs with
  | nil => rfl
  | cons e rest ih =>
    obtain ⟨k1, v1⟩ := e
    unfold objGet at h
    unfold objSet
    by_cases he : k1 = k
    · rw [if_pos he] at h
      exact Option.noConfusion h
    · rw [if_neg he] at h
      rw [if_neg he, ih h]
      rfl

theorem objSet_append_last (fs : Fm) (k : JStr) (a b : JVal) (h : objGet fs k = none) :
    objSet (fs ++ [(k, a)]) k b = fs ++ [(k, b)] := by
  induction fs with
  | nil => simp [objSet]
  | cons e rest ih =>
    obtain ⟨k1, v1⟩ := e
    unfold objGet at h
    by_cases he : k1 = k
    · rw [if_pos he] at h
      exact Option.noConfusion h
    · rw [if_neg he] at h
      rw [List.cons_append]
      unfold objSet
      rw [if_neg he, ih h]
      rfl

theorem objGet_append_ne (fs : Fm) (k j : JStr) (v : JVal) (hne : ¬ k = j)
    (h : objGet fs j = none) : objGet (fs ++ [(k, v)]) j = none := by
  induction fs with
  | nil => simp [objGet, hne]
  | cons e rest ih =>
    obtain ⟨k1, v1⟩ := e
    unfold objGet at h
    by_cases he : k1 = j
    · rw [if_pos he] at h
      exact Option.noConfusion h
    · rw [if_neg he] at h
      rw [List.cons_append]
      unfold objGet
      rw [if_neg he]
      exact ih h

theorem objGet_append_self (fs : Fm) (k : JStr) (v : JVal) (h : objGet fs k = none) :
    objGet (fs ++ [(k, v)]) k = some v := by
  induction fs with
  | nil => simp [objGet]
  | cons e rest ih =>
    obtain ⟨k1, v1⟩ := e
    unfold objGet at h
    by_cases he : k1 = k
    · rw [if_pos he] at h
      exact Option.noConfusion h
    · rw [if_neg he] at h
      rw [List.cons_append]
      unfold objGet
      rw [if_neg he]
      exact ih h

theorem objSet_get_self (fs : Fm) (k : JStr) (v : JVal) (h : objGet fs k = some v) :
    objSet fs k v = fs := by
  induction fs with
  | nil => exact Option.noConfusion h
  | cons e rest ih =>
    obtain ⟨k1, v1⟩ := e
    unfold objGet at h
    unfold objSet
    by_cases he : k1 = k
    · rw [if_pos he] at h
      injection h with h1
      rw [if_pos he]
      rw [show v1 = v from h1]
    · rw [if_neg he] at h
      rw [if_neg he, ih h]

theorem length_dropWhile_le' {α : Type} (p : α → Bool) (l : List α) :
    (l.dropWhile p).length ≤ l.length := by
  induction l with
  | nil => exact Nat.le_refl _
  | cons a t ih =>
    rw [List.dropWhile_cons]
    by_cases hp : p a
    · rw [if_pos hp]
      exact Nat.le_trans ih (Nat.le_succ _)
    · rw [if_neg hp]

theorem jsTrim_length_le (s : JStr) : (jsTrim s).length ≤ s.length := by
  unfold jsTrim
  have h1 := length_dropWhile_le' jsWs (s.dropWhile jsWs).reverse
  have h2 := length_dropWhile_le' jsWs s
  rw [List.length_reverse] at h1
  rw [List.length_reverse]
  omega

theorem jsTrim_fix_head (s : JStr) (h : jsTrim s = s) :
    ∀ c, s.head? = some c → jsWs c = false := by
  intro c hc
  cases s with
  | nil => exact Option.noConfusion hc
  | cons x t =>
    injection hc with h1
    rw [← h1]
    cases hw : jsWs x
    · rfl
    · exfalso
      rw [jsTrim_cons_ws x t hw] at h
      have := jsTrim_length_le t
      rw [h] at this
      simp at this

theorem head?_dropWhile_neg {α : Type} (p : α → Bool) (l : List α) :
    ∀ a, (l.dropWhile p).head? = some a → p a = false := by
  induction l with
  | nil =>
    intro a ha
    exact Option.noConfusion ha
  | cons x t ih =>
    intro a ha
    rw [List.dropWhile_cons] at ha
    by_cases hp : p x
    · rw [if_pos hp] at ha
      exact ih a ha
    · rw [if_neg hp] at ha
      injection ha with h1
      rw [← h1]
      exact Bool.eq_false_iff.mpr hp

theorem jsTrim_fix_last (s : JStr) (h : jsTrim s = s) :
    ∀ c, s.getLast? = some c → jsWs c = false := by
  intro c hc
  unfold jsTrim at h
  have h2 : (s.dropWhile jsWs).reverse.dropWhile jsWs = s.reverse := by
    have h3 := congrArg List.reverse h
    rwa [List.reverse_reverse] at h3
  rw [← List.head?_reverse] at hc
  rw [← h2] at hc
  exact head?_dropWhile_neg jsWs _ c hc

theorem safeKey_parts (k : JStr) (h : safeKey k = true) :
    k ≠ [] ∧ jsTrim k = k ∧
    (∀ c ∈ k, ¬ c = '\n' ∧ ¬ c = '\r' ∧ ¬ c = ':') ∧
    startsWithL k ['#'] = false ∧ startsWithL k (lit "- ") = false := by
  unfold safeKey at h
  simp only [Bool.and_eq_true, Bool.not_eq_true', decide_eq_true_eq,
    List.all_eq_true] at h
  obtain ⟨⟨⟨⟨h1, h2⟩, h3⟩, h4⟩, h5⟩ := h
  have h1' : k ≠ [] := by
    cases k with
    | nil => exact absurd h1 (by decide)
    | cons x t => exact fun hcc => List.noConfusion hcc
  refine ⟨h1', h2, ?_, h4, h5⟩
  intro c hc
  have := h3 c hc
  simp only [Bool.and_eq_true, Bool.not_eq_true', decide_eq_false_iff_not] at this
  exact ⟨this.1.1, this.1.2, this.2⟩

theorem objSet_objSet_same (fs : Fm) (k : JStr) (a b : JVal) :
    objSet (objSet fs k a) k b = objSet fs k b := by
  induction fs with
  | nil => simp [objSet]
  | cons e rest ih =>
    obtain ⟨k1, v1⟩ := e
    by_cases he : k1 = k
    · subst he
      simp [objSet]
    · simp [objSet, he, ih]

theorem lineIndent_zero_of_head (L : JStr)
    (h : ∀ c, L.head? = some c → jsWs c = false) : lineIndent L = 0 := by
  unfold lineIndent
  cases L with
  | nil => rfl
  | cons x t =>
    rw [List.takeWhile_cons, if_neg (by rw [h x rfl]; exact fun hcc => Bool.noConfusion hcc)]
    rfl

theorem yamlStep_scalar_line (fs : Fm) (stk : List (Int × YPath))
    (hstk : popStack stk 0 = [(-1, [])])
    (k sv : JStr) (rest : List JStr) (hk : safeKey k = true)
    (hsv1 : sv ≠ []) (hsvh : ∀ c, sv.head? = some c → jsWs c = false)
    (hsvl : ∀ c, sv.getLast? = some c → jsWs c = false) :
    yamlStep ⟨.jobj fs, stk⟩ (((k ++ lit ": ") ++ sv) :: rest)
      = yamlStep ⟨.jobj (objSet fs k (parseScalar sv)), [(-1, [])]⟩ rest := by
  obtain ⟨hkne, hktrim, hkchars, hkhash, hkdash⟩ := safeKey_parts k hk
  have hcolon : lit ": " = [':', ' '] := rfl
  rw [hcolon]
  have hL : (k ++ [':', ' ']) ++ sv = k ++ (':' :: ' ' :: sv) := by
    rw [List.append_assoc]
    rfl
  rw [hL]
  have hkw := jsTrim_fix_head k hktrim
  have hklen : 0 < k.length := List.length_pos.mpr hkne
  have hheadL : ∀ c, (k ++ (':' :: ' ' :: sv)).head? = some c → jsWs c = false := by
    intro c hc
    cases k with
    | nil => exact absurd rfl hkne
    | cons x t =>
      rw [List.cons_append] at hc
      injection hc with h1
      rw [← h1]
      exact hkw x rfl
  have hlastL : ∀ c, (k ++ (':' :: ' ' :: sv)).getLast? = some c → jsWs c = false := by
    intro c hc
    rw [getLast?_append_right _ _ (fun hcc => List.noConfusion hcc)] at hc
    rw [show (':' :: ' ' :: sv) = [':', ' '] ++ sv from rfl,
      getLast?_append_right _ _ hsv1] at hc
    exact hsvl c hc
  have htrim : jsTrim (k ++ (':' :: ' ' :: sv)) = k ++ (':' :: ' ' :: sv) :=
    jsTrim_eq_self _ hheadL hlastL
  have hne2 : (k ++ (':' :: ' ' :: sv)).isEmpty = false := by
    cases k with
    | nil => exact absurd rfl hkne
    | cons x t => rfl
  have hhash : startsWithL (k ++ (':' :: ' ' :: sv)) ['#'] = false := by
    rw [startsWithL_append_longer _ _ _ (by simpa using hklen)]
    exact hkhash
  have hdash : startsWithL (k ++ (':' :: ' ' :: sv)) (lit "- ") = false := by
    cases k with
    | nil => exact absurd rfl hkne
    | cons x t =>
      cases t with
      | nil =>
        show startsWithL (x :: ':' :: ' ' :: sv) ['-', ' '] = false
        unfold startsWithL
        unfold startsWithL
        simp
      | cons y t2 =>
        rw [startsWithL_append_longer _ _ _ (by simp [lit])]
        exact hkdash
  have hcolall : k.all (fun c => !(c = ':')) = true := by
    rw [List.all_eq_true]
    intro c hc
    simp [(hkchars c hc).2.2]
  have hcol := idxOfColon_append k (' ' :: sv) hcolall
  have hsvempty : sv.isEmpty = false := by
    cases sv with
    | nil => exact absurd rfl hsv1
    | cons a b => rfl
  rw [yamlStep]
  dsimp only
  rw [htrim]
  rw [if_neg (by rw [hne2, hhash]; simp)]
  rw [lineIndent_zero_of_head _ hheadL, hstk]
  rw [if_neg (by rw [hdash]; simp)]
  rw [hcol]
  dsimp only
  rw [take_append_exact k _, hktrim]
  rw [drop_append_succ k ':' (' ' :: sv)]
  rw [jsTrim_cons_ws ' ' sv (by decide), jsTrim_eq_self sv hsvh hsvl]
  rw [if_neg (by rw [hsvempty]; simp)]
  rfl

theorem itemLine_facts (sv : JStr) (hsv1 : sv ≠ [])
    (hsvl : ∀ c, sv.getLast? = some c → jsWs c = false) :
    jsTrim (lit "  - " ++ sv) = '-' :: ' ' :: sv ∧
    lineIndent (lit "  - " ++ sv) = 2 := by
  constructor
  · show jsTrim (' ' :: ' ' :: '-' :: ' ' :: sv) = '-' :: ' ' :: sv
    rw [jsTrim_cons_ws _ _ (by decide), jsTrim_cons_ws _ _ (by decide)]
    apply jsTrim_eq_self
    · intro c hc
      injection hc with h1
      rw [← h1]
      decide
    · intro c hc
      rw [show ('-' :: ' ' :: sv) = ['-', ' '] ++ sv from rfl,
        getLast?_append_right _ _ hsv1] at hc
      exact hsvl c hc
  · show lineIndent (' ' :: ' ' :: '-' :: ' ' :: sv) = 2
    unfold lineIndent
    rw [List.takeWhile_cons, if_pos (by decide), List.takeWhile_cons, if_pos (by decide),
      List.takeWhile_cons, if_neg (by decide)]
    rfl

theorem yamlStep_header_line (fs : Fm) (stk : List (Int × YPath))
    (hstk : popStack stk 0 = [(-1, [])])
    (k : JStr) (hk : safeKey k = true)
    (sv : JStr) (hsv1 : sv ≠ [])
    (hsvl : ∀ c, sv.getLast? = some c → jsWs c = false)
    (more : List JStr) :
    yamlStep ⟨.jobj fs, stk⟩ ((k ++ [':']) :: (lit "  - " ++ sv) :: more)
      = yamlStep ⟨.jobj (objSet fs k (.jarr [])), [(0, [k]), (-1, [])]⟩
          ((lit "  - " ++ sv) :: more) := by
  obtain ⟨hkne, hktrim, hkchars, hkhash, hkdash⟩ := safeKey_parts k hk
  have hkw := jsTrim_fix_head k hktrim
  have hklen : 0 < k.length := List.length_pos.mpr hkne
  have hheadL : ∀ c, (k ++ [':']).head? = some c → jsWs c = false := by
    intro c hc
    cases k with
    | nil => exact absurd rfl hkne
    | cons x t =>
      rw [List.cons_append] at hc
      injection hc with h1
      rw [← h1]
      exact hkw x rfl
  have hlastL : ∀ c, (k ++ [':']).getLast? = some c → jsWs c = false := by
    intro c hc
    rw [getLast?_append_right _ _ (fun hcc => List.noConfusion hcc)] at hc
    injection hc with h1
    rw [← h1]
    decide
  have htrim : jsTrim (k ++ [':']) = k ++ [':'] := jsTrim_eq_self _ hheadL hlastL
  have hne2 : (k ++ [':']).isEmpty = false := by
    cases k with
    | nil => exact absurd rfl hkne
    | cons x t => rfl
  have hhash : startsWithL (k ++ [':']) ['#'] = false := by
    rw [startsWithL_append_longer _ _ _ (by simpa using hklen)]
    exact hkhash
  have hdash : startsWithL (k ++ [':']) (lit "- ") = false := by
    cases k with
    | nil => exact absurd rfl hkne
    | cons x t =>
      cases t with
      | nil =>
        show startsWithL (x :: [':']) ['-', ' '] = false
        unfold startsWithL
        unfold startsWithL
        simp
      | cons y t2 =>
        rw [startsWithL_append_longer _ _ _ (by simp [lit])]
        exact hkdash
  have hcolall : k.all (fun c => !(c = ':')) = true := by
    rw [List.all_eq_true]
    intro c hc
    simp [(hkchars c hc).2.2]
  have hcol : idxOfColon (k ++ [':']) = some k.length := idxOfColon_append k [] hcolall
  obtain ⟨hit, hind⟩ := itemLine_facts sv hsv1 hsvl
  rw [yamlStep]
  dsimp only
  rw [htrim]
  rw [if_neg (by rw [hne2, hhash]; simp)]
  rw [lineIndent_zero_of_head _ hheadL, hstk]
  rw [if_neg (by rw [hdash]; simp)]
  rw [hcol]
  dsimp only
  rw [take_append_exact k _, hktrim]
  rw [show (k ++ [':']).drop (k.length + 1) = [] from by
    rw [drop_append_succ k ':' []]]
  rw [if_pos (by rfl)]
  rw [nextMeaningful]
  try dsimp only
  rw [hit]
  rw [if_neg (by simp [startsWithL]), hind]
  dsimp only
  rw [if_neg (by decide)]
  rw [hit]
  rw [if_pos (by rw [show (lit "- ") = ['-', ' '] from rfl]; simp [startsWithL])]
  rfl

theorem yamlStep_item_line (fs : Fm) (k sv : JStr) (cur : List JVal) (rest : List JStr)
    (hget : objGet fs k = some (.jarr cur))
    (hsv1 : sv ≠ [])
    (hsvh : ∀ c, sv.head? = some c → jsWs c = false)
    (hsvl : ∀ c, sv.getLast? = some c → jsWs c = false) :
    yamlStep ⟨.jobj fs, [(0, [k]), (-1, [])]⟩ ((lit "  - " ++ sv) :: rest)
      = yamlStep ⟨.jobj (objSet fs k (.jarr (cur ++ [parseScalar sv]))),
          [(0, [k]), (-1, [])]⟩ rest := by
  obtain ⟨hit, hind⟩ := itemLine_facts sv hsv1 hsvl
  have hpush : pushListAt (.jobj fs) [k] (parseScalar sv)
      = .jobj (objSet fs k (.jarr (cur ++ [parseScalar sv]))) := by
    unfold pushListAt
    rw [hget]
    rfl
  rw [yamlStep]
  dsimp only
  rw [hit]
  rw [if_neg (by simp [startsWithL]), hind]
  rw [show popStack [((0 : Int), [k]), (-1, [])] 2 = [((0 : Int), [k]), (-1, [])] from by
    unfold popStack; rw [if_neg (by simp)]]
  rw [if_pos (by rw [show (lit "- ") = ['-', ' '] from rfl]; simp [startsWithL])]
  show yamlStep ⟨pushListAt (.jobj fs) [k] (parseScalar (jsTrim sv)),
    [((0 : Int), [k]), (-1, [])]⟩ rest = _
  rw [jsTrim_eq_self sv hsvh hsvl, hpush]

theorem yamlStep_items (items : List JVal) :
    ∀ (fs : Fm) (k : JStr) (cur : List JVal) (rest : List JStr),
      items.all safeItem = true →
      objGet fs k = some (.jarr cur) →
      yamlStep ⟨.jobj fs, [(0, [k]), (-1, [])]⟩
          ((items.map (fun it => lit "  - " ++ serializeScalar it)) ++ rest)
        = yamlStep ⟨.jobj (objSet fs k (.jarr (cur ++ items))), [(0, [k]), (-1, [])]⟩
            rest := by
  induction items with
  | nil =>
    intro fs k cur rest hsafe hget
    rw [List.map_nil, List.nil_append, List.append_nil, objSet_get_self fs k _ hget]
  | cons x xs ih =>
    intro fs k cur rest hsafe hget
    simp only [List.all_cons, Bool.and_eq_true] at hsafe
    obtain ⟨hx, hxs⟩ := hsafe
    obtain ⟨hparse, hne, hclean, hhead, hlast⟩ := serializeScalar_facts x hx
    rw [List.map_cons, List.cons_append]
    rw [yamlStep_item_line fs k _ cur _ hget hne hhead hlast]
    rw [hparse]
    rw [ih _ _ _ _ hxs (objGet_objSet_self fs k _)]
    rw [objSet_objSet_same]
    rw [List.append_assoc]
    rfl

theorem popStack_arr (k : JStr) :
    popStack [((0 : Int), [k]), (-1, [])] 0 = [((-1 : Int), [])] := by
  unfold popStack
  rw [if_pos (by simp)]
  rfl

theorem yamlStep_entries (entries : List (JStr × JVal)) :
    ∀ (fs : Fm) (stk : List (Int × YPath)),
      popStack stk 0 = [(-1, [])] →
      entries.all (fun e => safeKey e.1 && safeVal e.2) = true →
      (∀ e ∈ entries, objGet fs e.1 = none) →
      ((entries.map Prod.fst).Nodup) →
      (yamlStep ⟨.jobj fs, stk⟩ (entries.flatMap entryLines)).root
        = .jobj (fs ++ entries) := by
  induction entries with
  | nil =>
    intro fs stk hstk hsafe hnew hnd
    rw [List.flatMap_nil, List.append_nil]
    rfl
  | cons e rest ih =>
    intro fs stk hstk hsafe hnew hnd
    obtain ⟨k, v⟩ := e
    simp only [List.all_cons, Bool.and_eq_true] at hsafe
    obtain ⟨⟨hek, hev⟩, hsafer⟩ := hsafe
    have hnew0 : objGet fs k = none := hnew (k, v) (List.mem_cons_self _ _)
    have hknotin : ∀ e ∈ rest, ¬ k = e.1 := by
      intro e2 he2 hkk
      apply (List.nodup_cons.mp hnd).1
      rw [hkk]
      exact List.mem_map.mpr ⟨e2, he2, rfl⟩
    have hnewr : ∀ (v' : JVal), ∀ e2 ∈ rest, objGet (fs ++ [(k, v')]) e2.1 = none :=
      fun v' e2 he2 => objGet_append_ne fs k e2.1 v' (hknotin e2 he2)
        (hnew e2 (List.mem_cons_of_mem _ he2))
    have hndr : (rest.map Prod.fst).Nodup := (List.nodup_cons.mp hnd).2
    have happx : fs ++ (k, v) :: rest = (fs ++ [(k, v)]) ++ rest := by
      rw [List.append_assoc]
      rfl
    rw [List.flatMap_cons]
    cases v with
    | jnull =>
      have hform : k ++ lit ": null" = (k ++ lit ": ") ++ lit "null" := by
        rw [List.append_assoc]
        rfl
      rw [show entryLines (k, .jnull) = [k ++ lit ": null"] from rfl]
      rw [List.singleton_append, hform]
      rw [yamlStep_scalar_line fs stk hstk k _ _ hek (by decide)
        (fun c hc => by injection hc with h1; rw [← h1]; decide)
        (fun c hc => by
          rw [show (lit "null").getLast? = some 'l' from by decide] at hc
          injection hc with h1
          rw [← h1]
          decide)]
      rw [show parseScalar (lit "null") = .jnull from by decide]
      rw [objSet_append_new fs k _ hnew0]
      rw [happx]
      exact ih _ _ rfl hsafer (hnewr _) hndr
    | jbool b =>
      have hsi : safeItem (.jbool b) = true := rfl
      obtain ⟨hparse, hne, hclean, hhead, hlast⟩ := serializeScalar_facts _ hsi
      rw [show entryLines (k, .jbool b) = [(k ++ lit ": ") ++ serializeScalar (.jbool b)]
        from rfl]
      rw [List.singleton_append]
      rw [yamlStep_scalar_line fs stk hstk k _ _ hek hne hhead hlast]
      rw [hparse]
      rw [objSet_append_new fs k _ hnew0]
      rw [happx]
      exact ih _ _ rfl hsafer (hnewr _) hndr
    | jnum s =>
      have hsi : safeItem (.jnum s) = true := hev
      obtain ⟨hparse, hne, hclean, hhead, hlast⟩ := serializeScalar_facts _ hsi
      rw [show entryLines (k, .jnum s) = [(k ++ lit ": ") ++ serializeScalar (.jnum s)]
        from rfl]
      rw [List.singleton_append]
      rw [yamlStep_scalar_line fs stk hstk k _ _ hek hne hhead hlast]
      rw [hparse]
      rw [objSet_append_new fs k _ hnew0]
      rw [happx]
      exact ih _ _ rfl hsafer (hnewr _) hndr
    | jstr s =>
      have hsi : safeItem (.jstr s) = true := hev
      obtain ⟨hparse, hne, hclean, hhead, hlast⟩ := serializeScalar_facts _ hsi
      rw [show entryLines (k, .jstr s) = [(k ++ lit ": ") ++ serializeScalar (.jstr s)]
        from rfl]
      rw [List.singleton_append]
      rw [yamlStep_scalar_line fs stk hstk k _ _ hek hne hhead hlast]
      rw [hparse]
      rw [objSet_append_new fs k _ hnew0]
      rw [happx]
      exact ih _ _ rfl hsafer (hnewr _) hndr
    | jobj gs => exact absurd hev (by simp [safeVal, safeItem])
    | jarr xs =>
      cases xs with
      | nil =>
        have hform : k ++ lit ": []" = (k ++ lit ": ") ++ lit "[]" := by
          rw [List.append_assoc]
          rfl
        rw [show entryLines (k, .jarr []) = [k ++ lit ": []"] from rfl]
        rw [List.singleton_append, hform]
        rw [yamlStep_scalar_line fs stk hstk k _ _ hek (by decide)
          (fun c hc => by injection hc with h1; rw [← h1]; decide)
          (fun c hc => by
            rw [show (lit "[]").getLast? = some ']' from by decide] at hc
            injection hc with h1
            rw [← h1]
            decide)]
        rw [show parseScalar (lit "[]") = .jarr [] from by decide]
        rw [objSet_append_new fs k _ hnew0]
        rw [happx]
        exact ih _ _ rfl hsafer (hnewr _) hndr
      | cons x xs2 =>
        have hsx : (x :: xs2).all safeItem = true := hev
        have hx : safeItem x = true := by
          rw [List.all_cons, Bool.and_eq_true] at hsx
          exact hsx.1
        obtain ⟨hparse, hne, hclean, hhead, hlast⟩ := serializeScalar_facts x hx
        rw [show entryLines (k, .jarr (x :: xs2)) = (k ++ [':']) ::
          (x :: xs2).map (fun item => lit "  - " ++ serializeScalar item) from rfl]
        rw [List.map_cons, List.cons_append, List.cons_append]
        rw [yamlStep_header_line fs stk hstk k hek _ hne hlast _]
        rw [show ((lit "  - " ++ serializeScalar x) ::
            ((xs2.map (fun item => lit "  - " ++ serializeScalar item)) ++
              rest.flatMap entryLines))
          = (((x :: xs2).map (fun item => lit "  - " ++ serializeScalar item)) ++
              rest.flatMap entryLines) from by rw [List.map_cons, List.cons_append]]
        rw [objSet_append_new fs k _ hnew0]
        rw [yamlStep_items (x :: xs2) _ k [] _ hsx
          (objGet_append_self fs k _ hnew0)]
        rw [objSet_append_last fs k _ _ hnew0]
        rw [show ([] : List JVal) ++ (x :: xs2) = x :: xs2 from rfl]
        rw [happx]
        exact ih _ _ (popStack_arr k) hsafer (hnewr _) hndr

theorem sanitizeFields_id (fs : Fm)
    (h : ∀ e ∈ fs, ∀ gs, ¬ e.2 = JVal.jobj gs) : sanitizeFields fs = fs := by
  induction fs with
  | nil => rfl
  | cons e rest ih =>
    obtain ⟨k, v⟩ := e
    rw [sanitizeFields, ih (fun e2 he2 => h e2 (List.mem_cons_of_mem _ he2))]
    have hv : sanitizeEntry v = v := by
      cases v with
      | jobj gs => exact absurd rfl (h (k, .jobj gs) (List.mem_cons_self _ _) gs)
      | jnull => rfl
      | jbool b => rfl
      | jnum s => rfl
      | jstr s => rfl
      | jarr xs => rfl
    rw [hv]

theorem entryLines_ne_nil (e : JStr × JVal) : entryLines e ≠ [] := by
  obtain ⟨k, v⟩ := e
  cases v with
  | jarr xs =>
    cases xs with
    | nil => exact fun hcc => List.noConfusion hcc
    | cons x t => exact fun hcc => List.noConfusion hcc
  | jnull => exact fun hcc => List.noConfusion hcc
  | jbool b => exact fun hcc => List.noConfusion hcc
  | jnum s => exact fun hcc => List.noConfusion hcc
  | jstr s => exact fun hcc => List.noConfusion hcc
  | jobj fs => exact fun hcc => List.noConfusion hcc

theorem cleanLine_append (a b : JStr) (ha : cleanLine a = true) (hb : cleanLine b = true) :
    cleanLine (a ++ b) = true := by
  unfold cleanLine at *
  rw [List.all_append, ha, hb]
  rfl

theorem safeKey_clean (k : JStr) (hk : safeKey k = true) : cleanLine k = true := by
  obtain ⟨_, _, hchars, _, _⟩ := safeKey_parts k hk
  unfold cleanLine
  rw [List.all_eq_true]
  intro c hc
  simp [(hchars c hc).1, (hchars c hc).2.1]

theorem entryLines_clean (k : JStr) (v : JVal) (hk : safeKey k = true)
    (hv : safeVal v = true) : ∀ l ∈ entryLines (k, v), cleanLine l = true := by
  have hkc := safeKey_clean k hk
  cases v with
  | jnull =>
    intro l hl
    rw [show entryLines (k, .jnull) = [k ++ lit ": null"] from rfl] at hl
    rcases List.mem_singleton.mp hl with h1
    rw [h1]
    exact cleanLine_append _ _ hkc (by decide)
  | jbool b =>
    intro l hl
    obtain ⟨_, _, hclean, _, _⟩ := serializeScalar_facts (.jbool b) rfl
    rw [show entryLines (k, .jbool b) = [(k ++ lit ": ") ++ serializeScalar (.jbool b)]
      from rfl] at hl
    rw [List.mem_singleton.mp hl]
    exact cleanLine_append _ _ (cleanLine_append _ _ hkc (by decide)) hclean
  | jnum s =>
    intro l hl
    obtain ⟨_, _, hclean, _, _⟩ := serializeScalar_facts (.jnum s) hv
    rw [show entryLines (k, .jnum s) = [(k ++ lit ": ") ++ serializeScalar (.jnum s)]
      from rfl] at hl
    rw [List.mem_singleton.mp hl]
    exact cleanLine_append _ _ (cleanLine_append _ _ hkc (by decide)) hclean
  | jstr s =>
    intro l hl
    obtain ⟨_, _, hclean, _, _⟩ := serializeScalar_facts (.jstr s) hv
    rw [show entryLines (k, .jstr s) = [(k ++ lit ": ") ++ serializeScalar (.jstr s)]
      from rfl] at hl
    rw [List.mem_singleton.mp hl]
    exact cleanLine_append _ _ (cleanLine_append _ _ hkc (by decide)) hclean
  | jobj fs => exact absurd hv (by simp [safeVal, safeItem])
  | jarr xs =>
    cases xs with
    | nil =>
      intro l hl
      rw [show entryLines (k, .jarr []) = [k ++ lit ": []"] from rfl] at hl
      rw [List.mem_singleton.mp hl]
      exact cleanLine_append _ _ hkc (by decide)
    | cons x t =>
      intro l hl
      rw [show entryLines (k, .jarr (x :: t)) = (k ++ [':']) ::
        (x :: t).map (fun item => lit "  - " ++ serializeScalar item) from rfl] at hl
      rcases List.mem_cons.mp hl with h1 | h1
      · rw [h1]
        exact cleanLine_append _ _ hkc (by decide)
      · obtain ⟨it, hit, hleq⟩ := List.mem_map.mp h1
        have hsafe : safeItem it = true := by
          have := hv
          unfold safeVal at this
          rw [List.all_eq_true] at this
          exact this it hit
        obtain ⟨_, _, hclean, _, _⟩ := serializeScalar_facts it hsafe
        rw [← hleq]
        exact cleanLine_append _ _ (by decide) hclean

theorem entryLines_ne_dash (k : JStr) (v : JVal) (hk : safeKey k = true) :
    ∀ l ∈ entryLines (k, v), ¬ l = lit "---" := by
  obtain ⟨hkne, _, hkchars, _, _⟩ := safeKey_parts k hk
  have hcol : ∀ (r : JStr), ':' ∈ r → ¬ (k ++ r) = lit "---" := by
    intro r hr hcc
    have : (':' : Char) ∈ lit "---" := by
      rw [← hcc]
      exact List.mem_append_right _ hr
    exact absurd this (by decide)
  cases v with
  | jnull =>
    intro l hl
    rw [show entryLines (k, .jnull) = [k ++ lit ": null"] from rfl] at hl
    rw [List.mem_singleton.mp hl]
    exact hcol _ (by decide)
  | jbool b =>
    intro l hl
    rw [show entryLines (k, .jbool b) = [(k ++ lit ": ") ++ serializeScalar (.jbool b)]
      from rfl] at hl
    rw [List.mem_singleton.mp hl, List.append_assoc]
    exact hcol _ (List.mem_append_left _ (by decide))
  | jnum s =>
    intro l hl
    rw [show entryLines (k, .jnum s) = [(k ++ lit ": ") ++ serializeScalar (.jnum s)]
      from rfl] at hl
    rw [List.mem_singleton.mp hl, List.append_assoc]
    exact hcol _ (List.mem_append_left _ (by decide))
  | jstr s =>
    intro l hl
    rw [show entryLines (k, .jstr s) = [(k ++ lit ": ") ++ serializeScalar (.jstr s)]
      from rfl] at hl
    rw [List.mem_singleton.mp hl, List.append_assoc]
    exact hcol _ (List.mem_append_left _ (by decide))
  | jobj fs =>
    intro l hl
    rw [show entryLines (k, .jobj fs) = [(k ++ lit ": ") ++ serializeScalar (.jobj fs)]
      from rfl] at hl
    rw [List.mem_singleton.mp hl, List.append_assoc]
    exact hcol _ (List.mem_append_left _ (by decide))
  | jarr xs =>
    cases xs with
    | nil =>
      intro l hl
      rw [show entryLines (k, .jarr []) = [k ++ lit ": []"] from rfl] at hl
      rw [List.mem_singleton.mp hl]
      exact hcol _ (by decide)
    | cons x t =>
      intro l hl
      rw [show entryLines (k, .jarr (x :: t)) = (k ++ [':']) ::
        (x :: t).map (fun item => lit "  - " ++ serializeScalar item) from rfl] at hl
      rcases List.mem_cons.mp hl with h1 | h1
      · rw [h1]
        exact hcol _ (by decide)
      · obtain ⟨it, hit, hleq⟩ := List.mem_map.mp h1
        rw [← hleq]
        intro hcc
        have : (' ' : Char) = '-' := by
          have h2 := congrArg List.head? hcc
          simp [lit] at h2
        exact absurd this (by decide)

theorem objGet_mem (fm : Fm) (k : JStr) (v : JVal) (h : objGet fm k = some v) :
    (k, v) ∈ fm := by
  induction fm with
  | nil => exact Option.noConfusion h
  | cons e rest ih =>
    obtain ⟨k1, v1⟩ := e
    unfold objGet at h
    by_cases he : k1 = k
    · rw [if_pos he] at h
      injection h with h1
      rw [← he, ← show v1 = v from h1]
      exact List.mem_cons_self _ _
    · rw [if_neg he] at h
      exact List.mem_cons_of_mem _ (ih h)

theorem filterMap_objGet_keys (fm : Fm) (ks : List JStr) :
    (ks.filterMap (fun k => (objGet fm k).map (fun v => (k, v)))).map Prod.fst
      = ks.filter (fun k => (objGet fm k).isSome) := by
  induction ks with
  | nil => rfl
  | cons k rest ih =>
    rw [List.filterMap_cons, List.filter_cons]
    cases hg : objGet fm k with
    | none =>
      simp only [Option.map_none', Option.isSome_none]
      rw [if_neg (by simp)]
      exact ih
    | some v =>
      simp only [Option.map_some', Option.isSome_some]
      rw [if_pos (by simp)]
      rw [List.map_cons, ih]

theorem filterMap_rest_keys (fm : Fm) (ks : List JStr) :
    (ks.filterMap (fun k => if PREFERRED_KEY_ORDER.contains k then none
        else (objGet fm k).map (fun v => (k, v)))).map Prod.fst
      = ks.filter (fun k => !PREFERRED_KEY_ORDER.contains k && (objGet fm k).isSome) := by
  induction ks with
  | nil => rfl
  | cons k rest ih =>
    rw [List.filterMap_cons, List.filter_cons]
    by_cases hp : PREFERRED_KEY_ORDER.contains k = true
    · rw [if_pos hp, hp]
      rw [if_neg (by simp)]
      exact ih
    · rw [if_neg hp]
      rw [Bool.not_eq_true] at hp
      rw [hp]
      cases hg : objGet fm k with
      | none =>
        simp only [Option.map_none', Option.isSome_none]
        rw [if_neg (by simp)]
        exact ih
      | some v =>
        simp only [Option.map_some', Option.isSome_some]
        rw [if_pos (by simp)]
        rw [List.map_cons, ih]

theorem insertSorted_perm (k : JStr) (l : List JStr) :
    (insertSorted k l).Perm (k :: l) := by
  induction l with
  | nil => exact List.Perm.refl _
  | cons x xs ih =>
    unfold insertSorted
    by_cases hle : jstrLe x k = true
    · rw [if_pos hle]
      exact List.Perm.trans (List.Perm.cons x ih) (List.Perm.swap k x xs)
    · rw [if_neg hle]

theorem sortKeys_perm (l : List JStr) : (sortKeys l).Perm l := by
  induction l with
  | nil => exact List.Perm.refl _
  | cons k ks ih =>
    unfold sortKeys
    exact List.Perm.trans (insertSorted_perm k (sortKeys ks)) (List.Perm.cons k ih)

theorem orderKeys_mem (fm : Fm) (e : JStr × JVal) (he : e ∈ orderKeys fm) : e ∈ fm := by
  unfold orderKeys at he
  rcases List.mem_append.mp he with h1 | h1
  · obtain ⟨k, hk, hfk⟩ := List.mem_filterMap.mp h1
    cases hg : objGet fm k with
    | none =>
      rw [hg] at hfk
      exact Option.noConfusion hfk
    | some v =>
      rw [hg] at hfk
      injection hfk with h2
      rw [← h2]
      exact objGet_mem fm k v hg
  · obtain ⟨k, hk, hfk⟩ := List.mem_filterMap.mp h1
    by_cases hp : PREFERRED_KEY_ORDER.contains k = true
    · rw [if_pos hp] at hfk
      exact Option.noConfusion hfk
    · rw [if_neg hp] at hfk
      cases hg : objGet fm k with
      | none =>
        rw [hg] at hfk
        exact Option.noConfusion hfk
      | some v =>
        rw [hg] at hfk
        injection hfk with h2
        rw [← h2]
        exact objGet_mem fm k v hg

theorem orderKeys_keys_nodup (fm : Fm) (h : (fm.map Prod.fst).Nodup) :
    ((orderKeys fm).map Prod.fst).Nodup := by
  unfold orderKeys
  rw [List.map_append]
  rw [filterMap_objGet_keys, filterMap_rest_keys]
  apply List.Nodup.append
  · exact List.Nodup.filter _ (by decide)
  · apply List.Nodup.filter
    exact (sortKeys_perm (fm.map Prod.fst)).nodup_iff.mpr h
  · intro a ha hb
    have h1 := List.of_mem_filter ha
    have h2 := List.of_mem_filter hb
    rw [Bool.and_eq_true] at h2
    have h3 := h2.1
    rw [Bool.not_eq_true'] at h3
    have h4 : a ∈ PREFERRED_KEY_ORDER := by
      have := List.mem_filter.mp ha
      exact this.1
    rw [List.contains_eq_any_beq] at h3
    rw [List.any_eq_false] at h3
    have := h3 a h4
    simp at this

theorem orderKeys_safe (fm : Fm) (h : safeFm fm = true) : safeFm (orderKeys fm) = true := by
  unfold safeFm at h ⊢
  rw [Bool.and_eq_true, decide_eq_true_eq] at h ⊢
  obtain ⟨hnd, hall⟩ := h
  refine ⟨orderKeys_keys_nodup fm hnd, ?_⟩
  rw [List.all_eq_true] at hall ⊢
  intro e he
  exact hall e (orderKeys_mem fm e he)

theorem drop_append_succ_gen {α : Type} (a : List α) (x : α) (b : List α) :
    (a ++ x :: b).drop (a.length + 1) = b := by
  have h1 : (a ++ x :: b).drop a.length = x :: b := List.drop_left a (x :: b)
  have h2 : (a ++ x :: b).drop (a.length + 1)
      = ((a ++ x :: b).drop a.length).drop 1 := by
    rw [List.drop_drop]
  rw [h2, h1]
  rfl

theorem safeFm_parts (g : Fm) (h : safeFm g = true) :
    (g.map Prod.fst).Nodup ∧ (∀ e ∈ g, safeKey e.1 = true ∧ safeVal e.2 = true) := by
  unfold safeFm at h
  rw [Bool.and_eq_true, decide_eq_true_eq] at h
  obtain ⟨hnd, hall⟩ := h
  rw [List.all_eq_true] at hall
  refine ⟨hnd, ?_⟩
  intro e he
  have := hall e he
  rw [Bool.and_eq_true] at this
  exact this

theorem parseSimpleYaml_entries (g : Fm) (hg : safeFm g = true) (hne : g ≠ []) :
    parseSimpleYaml (joinLines (g.flatMap entryLines)) = .jobj g := by
  obtain ⟨hnd, hall⟩ := safeFm_parts g hg
  have hclean : ∀ l ∈ g.flatMap entryLines, cleanLine l = true := by
    intro l hl
    obtain ⟨e, he, hle⟩ := List.mem_flatMap.mp hl
    obtain ⟨k, v⟩ := e
    exact entryLines_clean k v (hall (k, v) he).1 (hall (k, v) he).2 l hle
  cases hgc : g with
  | nil => exact absurd hgc hne
  | cons e0 grest =>
    rw [← hgc]
    have hflne : g.flatMap entryLines ≠ [] := by
      rw [hgc, List.flatMap_cons]
      intro hcc
      exact entryLines_ne_nil e0 (List.append_eq_nil.mp hcc).1
    cases hfl : g.flatMap entryLines with
    | nil => exact absurd hfl hflne
    | cons L0 Ls =>
      unfold parseSimpleYaml
      rw [splitLinesRN_joinLines L0 Ls (fun x hx => by
        apply hclean
        rw [hfl]
        exact hx)]
      rw [← hfl]
      have hroot := yamlStep_entries g [] [(-1, [])] rfl
        (by
          rw [List.all_eq_true]
          intro e he
          rw [Bool.and_eq_true]
          exact hall e he)
        (fun e he => rfl) hnd
      rw [List.nil_append] at hroot
      rw [hroot]
      show sanitizeYamlLists (.jobj g) = .jobj g
      unfold sanitizeYamlLists
      dsimp only
      rw [sanitizeFields_id g]
      intro e he gs hobj
      have := (hall e he).2
      rw [hobj] at this
      exact absurd this (by simp [safeVal, safeItem])

/-- **C1** (amended). On the safe domain `safeFm` — distinct verbatim keys
mapped to scalar-grammar values whose strings contain no double quote or
line break, are not bare `true`/`false`/`null`/`~`, are not number
literals, are not wrapped in single quotes, and are bracket-delimited only
in wikilink form — parsing the serialized document recovers the mapping
exactly, up to the serializer's own deterministic key reordering
(`orderKeys`), which JavaScript deep-equality of objects ignores: the
parsed frontmatter is `orderKeys fm` and the body is the serialized body
re-joined line by line. -/
theorem c1_safe_roundtrip (body : JStr) (fm : Fm) (h : safeFm fm = true) :
    parseMarkdownWithFrontmatter (serializeMarkdown body fm)
      = ⟨true, orderKeys fm,
          joinLines (splitLinesRN (if startsWithL body ['\n'] then body.drop 1
            else body))⟩ := by
  have hg := orderKeys_safe fm h
  obtain ⟨hgnd, hgall⟩ := safeFm_parts _ hg
  unfold serializeMarkdown
  generalize hB : (if startsWithL body ['\n'] then body.drop 1 else body) = B
  unfold serializeFrontmatter
  cases hgc : orderKeys fm with
  | nil =>
    rw [show (([] : Fm).flatMap entryLines) = [] from rfl]
    rw [show joinLines [] = [] from rfl, List.append_nil]
    have htext : (lit "---\n" ++ lit "\n---\n") ++ B
        = lit "---" ++ '\n' :: ('\n' :: (lit "---" ++ '\n' :: B)) := rfl
    rw [htext]
    have hs1 : splitLinesRN (lit "---" ++ '\n' :: ('\n' :: (lit "---" ++ '\n' :: B)))
        = lit "---" :: splitLinesRN ('\n' :: (lit "---" ++ '\n' :: B)) :=
      splitLinesRN_clean_append _ _ (by decide)
    have hs2 : splitLinesRN ('\n' :: (lit "---" ++ '\n' :: B))
        = [] :: splitLinesRN (lit "---" ++ '\n' :: B) :=
      splitLinesRN_clean_append [] _ (by decide)
    have hs3 : splitLinesRN (lit "---" ++ '\n' :: B) = lit "---" :: splitLinesRN B :=
      splitLinesRN_clean_append _ _ (by decide)
    unfold parseMarkdownWithFrontmatter
    rw [if_neg (by
      rw [show startsWithL (lit "---" ++ '\n' :: ('\n' :: (lit "---" ++ '\n' :: B)))
        (lit "---\n") = true from
        (startsWithL_iff _ _).mpr ⟨'\n' :: (lit "---" ++ '\n' :: B), rfl⟩]
      simp)]
    rw [hs1, hs2, hs3]
    dsimp only
    rw [show ((lit "---" :: [] :: lit "---" :: splitLinesRN B).drop 1)
      = [] :: lit "---" :: splitLinesRN B from rfl]
    rw [show idxOfTripleDash ([] :: lit "---" :: splitLinesRN B) = some 1 from by
      unfold idxOfTripleDash
      rw [if_neg (by decide)]
      unfold idxOfTripleDash
      rw [if_pos rfl]
      rfl]
    dsimp only
    constructor
  | cons e0 grest =>
    cases hfle : entryLines e0 with
    | nil => exact absurd hfle (entryLines_ne_nil e0)
    | cons L0 L0s =>
      have hflcons : (e0 :: grest).flatMap entryLines
          = L0 :: (L0s ++ grest.flatMap entryLines) := by
        rw [List.flatMap_cons, hfle]
        rfl
      rw [hflcons]
      have htext : ((lit "---\n" ++ joinLines (L0 :: (L0s ++ grest.flatMap entryLines)))
            ++ lit "\n---\n") ++ B
          = lit "---" ++ '\n' :: (joinLines (L0 :: (L0s ++ grest.flatMap entryLines))
              ++ '\n' :: (lit "---" ++ '\n' :: B)) := by
        rw [List.append_assoc, List.append_assoc]
        rfl
      rw [htext]
      have hcleanall : ∀ x ∈ L0 :: (L0s ++ grest.flatMap entryLines), cleanLine x = true := by
        intro x hx
        have hx2 : x ∈ (e0 :: grest).flatMap entryLines := by
          rw [hflcons]
          exact hx
        obtain ⟨e, he, hle⟩ := List.mem_flatMap.mp hx2
        obtain ⟨k, v⟩ := e
        have hsafee := hgall (k, v) (by rw [hgc]; exact he)
        exact entryLines_clean k v hsafee.1 hsafee.2 x hle
      have hs1 : splitLinesRN (lit "---" ++ '\n' ::
            (joinLines (L0 :: (L0s ++ grest.flatMap entryLines))
              ++ '\n' :: (lit "---" ++ '\n' :: B)))
          = lit "---" :: splitLinesRN
              (joinLines (L0 :: (L0s ++ grest.flatMap entryLines))
                ++ '\n' :: (lit "---" ++ '\n' :: B)) :=
        splitLinesRN_clean_append _ _ (by decide)
      have hs2 := splitLinesRN_joinLines_append L0 (L0s ++ grest.flatMap entryLines)
        (lit "---" ++ '\n' :: B) hcleanall
      have hs3 : splitLinesRN (lit "---" ++ '\n' :: B) = lit "---" :: splitLinesRN B :=
        splitLinesRN_clean_append _ _ (by decide)
      unfold parseMarkdownWithFrontmatter
      rw [if_neg (by
        rw [show startsWithL (lit "---" ++ '\n' ::
          (joinLines (L0 :: (L0s ++ grest.flatMap entryLines))
            ++ '\n' :: (lit "---" ++ '\n' :: B))) (lit "---\n") = true from
          (startsWithL_iff _ _).mpr ⟨_, rfl⟩]
        simp)]
      rw [hs1, hs2, hs3]
      dsimp only
      have hfold : L0 :: ((L0s ++ grest.flatMap entryLines) ++ (lit "---" :: splitLinesRN B))
          = ((e0 :: grest).flatMap entryLines) ++ (lit "---" :: splitLinesRN B) := by
        rw [hflcons]
        rfl
      rw [show (lit "---" :: L0 :: ((L0s ++ grest.flatMap entryLines)
            ++ (lit "---" :: splitLinesRN B))).drop 1
          = L0 :: ((L0s ++ grest.flatMap entryLines) ++ (lit "---" :: splitLinesRN B))
        from rfl]
      rw [hfold]
      have hdashes : ∀ l ∈ (e0 :: grest).flatMap entryLines, ¬ l = lit "---" := by
        intro l hl
        obtain ⟨e, he, hle⟩ := List.mem_flatMap.mp hl
        obtain ⟨k, v⟩ := e
        have hsafee := hgall (k, v) (by rw [hgc]; exact he)
        exact entryLines_ne_dash k v hsafee.1 l hle
      rw [idxOfTripleDash_append _ _ hdashes]
      dsimp only
      rw [List.take_left]
      have hg2 : safeFm (e0 :: grest) = true := by
        rw [← hgc]
        exact hg
      rw [parseSimpleYaml_entries (e0 :: grest) hg2 (fun hcc => List.noConfusion hcc)]
      have hdrop2 : (lit "---" :: (((e0 :: grest).flatMap entryLines)
            ++ (lit "---" :: splitLinesRN B))).drop
              (((e0 :: grest).flatMap entryLines).length + 2)
          = splitLinesRN B := by
        rw [show ((e0 :: grest).flatMap entryLines).length + 2
          = (((e0 :: grest).flatMap entryLines).length + 1) + 1 from rfl]
        rw [List.drop_succ_cons]
        exact drop_append_succ_gen _ _ _
      rw [hdrop2]
      rfl

/-- **C1** counterexample to the claim as stated: the quoted-string form
of the scalar grammar does not round-trip, because `serializeScalar`
escapes embedded double quotes but `parseScalar` never unescapes them. A
mapping with the string value `a"b` parses back to a different mapping. -/
theorem c1_counterexample :
    ¬ (parseMarkdownWithFrontmatter (serializeMarkdown [] c1cex)).frontmatter = c1cex ∧
    ¬ (parseMarkdownWithFrontmatter (serializeMarkdown [] c1cex)).frontmatter
        = orderKeys c1cex := by decide

theorem c1_witness :
    safeFm c1wit = true ∧
    parseMarkdownWithFrontmatter (serializeMarkdown (lit "hello body") c1wit)
      = ⟨true, orderKeys c1wit,
          joinLines (splitLinesRN (if startsWithL (lit "hello body") ['\n']
            then (lit "hello body").drop 1 else lit "hello body"))⟩ :=
  ⟨by decide, c1_safe_roundtrip (lit "hello body") c1wit (by decide)⟩
